import Mathlib

/-!
View-change logic of the PBFT engine (openchain/consensus/obcpbft/viewchange.go).

A shallow embedding of the view-change functions of the ordering engine.
Unsigned 64-bit quantities are natural numbers; every place where the Go code
adds two of them reduces modulo `2 ^ 64` explicitly.  Go maps are association
lists with pairwise distinct keys; where the Go code ranges over a map the
iteration order is an explicit list argument.
-/

namespace Obcpbft

/-! ## Data model -/

/-- Number of values of a Go `uint64`. -/
def U64 : Nat := 2 ^ 64

/-- Checkpoint entry of a VIEW-CHANGE (`ViewChange_C`). -/
structure ViewChange_C where
  SequenceNumber : Nat
  Digest : String
deriving DecidableEq

/-- Entry of the P and Q sets of a VIEW-CHANGE (`ViewChange_PQ`). -/
structure ViewChange_PQ where
  SequenceNumber : Nat
  Digest : String
  View : Nat
deriving DecidableEq

/-- VIEW-CHANGE message (`ViewChange`). -/
structure ViewChange where
  View : Nat
  H : Nat
  Cset : List ViewChange_C
  Pset : List ViewChange_PQ
  Qset : List ViewChange_PQ
  ReplicaId : Nat
deriving DecidableEq

/-! ## Go maps as association lists -/

/-- Map lookup `m[k]`, with `none` for an absent key. -/
def mapGet {κ α : Type} [DecidableEq κ] : List (κ × α) → κ → Option α
  | [], _ => none
  | (k0, v0) :: t, k => if k0 = k then some v0 else mapGet t k

/-- Map store `m[k] = v`. -/
def mapSet {κ α : Type} [DecidableEq κ] : List (κ × α) → κ → α → List (κ × α)
  | [], k, v => [(k, v)]
  | (k0, v0) :: t, k, v => if k0 = k then (k, v) :: t else (k0, v0) :: mapSet t k v

/-- Map removal `delete(m, k)`. -/
def mapDel {κ α : Type} [DecidableEq κ] (m : List (κ × α)) (k : κ) : List (κ × α) :=
  m.filter (fun e => decide (e.1 ≠ k))

/-- Keys of a map. -/
def mapKeys {κ α : Type} (m : List (κ × α)) : List κ := m.map Prod.fst

/-! ## correctViewChange -/

/-- Go: `correctViewChange`.  `L` is `instance.L`; the sum `vc.H + instance.L`
is a `uint64` sum. -/
def correctViewChange (L : Nat) (vc : ViewChange) : Bool :=
  (vc.Pset ++ vc.Qset).all (fun p =>
    decide (p.View < vc.View) && decide (p.SequenceNumber > vc.H)
      && decide (p.SequenceNumber ≤ (vc.H + L) % U64))
  && vc.Cset.all (fun c =>
    decide (c.SequenceNumber ≥ vc.H) && decide (c.SequenceNumber ≤ (vc.H + L) % U64))

/-! ## selectInitialCheckpoint -/

/-- The map `checkpoints` of `selectInitialCheckpoint`: for every checkpoint
pair the view-changes that list it, one entry per listing. -/
abbrev CheckpointMap := List (ViewChange_C × List ViewChange)

/-- Go: `checkpoints[*c] = append(checkpoints[*c], vc)`. -/
def addCheckpoint (m : CheckpointMap) (c : ViewChange_C) (vc : ViewChange) : CheckpointMap :=
  mapSet m c ((mapGet m c).getD [] ++ [vc])

/-- The first loop of `selectInitialCheckpoint`. -/
def buildCheckpoints (vset : List ViewChange) : CheckpointMap :=
  vset.foldl (fun m vc => vc.Cset.foldl (fun m0 c => addCheckpoint m0 c vc) m) []

/-- Number of view-changes of `vcList` with `vc.H <= n`: the inner `quorum`
loop of `selectInitialCheckpoint`. -/
def checkpointQuorum (n : Nat) (vcList : List ViewChange) : Nat :=
  vcList.countP (fun vc => decide (vc.H ≤ n))

/-- One iteration of the loop `for idx, vcList := range checkpoints`; the state
is the pair of named results `(checkpoint, ok)`. -/
def selectStep (f : Nat) (acc : Nat × Bool) (e : ViewChange_C × List ViewChange) : Nat × Bool :=
  if e.2.length ≤ f then acc
  else if checkpointQuorum e.1.SequenceNumber e.2 ≤ 2 * f then acc
  else if acc.1 ≤ e.1.SequenceNumber then (e.1.SequenceNumber, true)
  else acc

/-- The part of `selectInitialCheckpoint` after the map is built; `order` lists
the entries of the map in the order in which the `range` loop visits them. -/
def selectInitialCheckpointIn (f : Nat) (order : CheckpointMap) : Nat × Bool :=
  if order.length = 0 then (0, false)
  else order.foldl (selectStep f) (0, false)

/-- Go: `selectInitialCheckpoint`, visiting the map in insertion order. -/
def selectInitialCheckpoint (f : Nat) (vset : List ViewChange) : Nat × Bool :=
  selectInitialCheckpointIn f (buildCheckpoints vset)

/-! ## assignSequenceNumbers -/

/-- The new-view assignment `msgList : map[uint64]string`. -/
abbrev XSet := List (Nat × String)

/-- Body of `mpLoop` for one `mp`: true when `quorum++` is reached. -/
def a1Counts (n : Nat) (em : ViewChange_PQ) (mp : ViewChange) : Bool :=
  !decide (mp.H ≥ n) &&
    mp.Pset.all (fun emp =>
      !(decide (n = emp.SequenceNumber) &&
        !(decide (emp.View < em.View) ||
          (decide (emp.View = em.View) && decide (emp.Digest = em.Digest)))))

/-- Value of `quorum` after the A1 loop. -/
def a1Quorum (vset : List ViewChange) (n : Nat) (em : ViewChange_PQ) : Nat :=
  vset.countP (a1Counts n em)

/-- The condition under which the A2 loop increments `quorum`. -/
def a2Match (n : Nat) (em emp : ViewChange_PQ) : Bool :=
  decide (n = emp.SequenceNumber) && decide (emp.View ≥ em.View)
    && decide (emp.Digest = em.Digest)

/-- Value of `quorum` after the A2 loop: one increment per matching Q-set
entry. -/
def a2Quorum (vset : List ViewChange) (n : Nat) (em : ViewChange_PQ) : Nat :=
  (vset.map (fun mp => mp.Qset.countP (a2Match n em))).sum

/-- Both tests on `em` succeed at `n`, so that `msgList[n] = em.Digest` is
reached. -/
def ruleA (f : Nat) (vset : List ViewChange) (n : Nat) (em : ViewChange_PQ) : Bool :=
  decide (2 * f + 1 ≤ a1Quorum vset n em) && decide (f + 1 ≤ a2Quorum vset n em)

/-- The P-set entries in the order in which the two nested loops
`for _, m := range vset` and `for _, em := range m.Pset` visit them. -/
def psetEntries (vset : List ViewChange) : List ViewChange_PQ :=
  vset.flatMap (fun m => m.Pset)

/-- The entry at which the nested loops reach `continue nLoop`, if any. -/
def findRuleA (f : Nat) (vset : List ViewChange) (n : Nat) : Option ViewChange_PQ :=
  (psetEntries vset).find? (ruleA f vset n)

/-- Body of `nullLoop` for one `m`: true when `quorum++` is reached. -/
def nullCounts (n : Nat) (m : ViewChange) : Bool :=
  m.Pset.all (fun em => !decide (em.SequenceNumber = n))

/-- Value of `quorum` after `nullLoop`. -/
def nullQuorum (vset : List ViewChange) (n : Nat) : Nat :=
  vset.countP (nullCounts n)

/-- The loop `nLoop`, started at counter value `n` with the current `msgList`
and `maxN`; `bound` is the value of `h+instance.L`.  The first argument bounds
the number of iterations: `none` means the loop is still running after that
many iterations, `some none` is `return nil`, and `some (some (msgList, maxN))`
is a normal exit of the loop. -/
def assignLoop (f : Nat) (vset : List ViewChange) (bound : Nat) :
    Nat → Nat → XSet → Nat → Option (Option (XSet × Nat))
  | 0, _, _, _ => none
  | fuel + 1, n, msgList, maxN =>
    if n ≤ bound then
      match findRuleA f vset n with
      | some em => assignLoop f vset bound fuel ((n + 1) % U64) (mapSet msgList n em.Digest) n
      | none =>
        if 2 * f + 1 ≤ nullQuorum vset n then
          assignLoop f vset bound fuel ((n + 1) % U64) (mapSet msgList n "") maxN
        else some none
    else some (some (msgList, maxN))

/-- The loop "prune top null requests". -/
def pruneNulls (msgList : XSet) (maxN : Nat) : XSet :=
  msgList.filter (fun e => !(decide (e.1 > maxN) && decide (e.2 = "")))

/-- Go: `assignSequenceNumbers(vset, h)` with `instance.f = f` and
`instance.L = L`, run for at most `fuel` iterations of `nLoop`.  `none`: not
finished within `fuel` iterations; `some none`: the result is `nil`;
`some (some X)`: the result is the map `X`. -/
def assignSequenceNumbers (fuel f L : Nat) (vset : List ViewChange) (h : Nat) :
    Option (Option XSet) :=
  match assignLoop f vset ((h + L) % U64) fuel ((h + 1) % U64) [] h with
  | none => none
  | some none => some none
  | some (some (msgList, maxN)) => some (some (pruneNulls msgList maxN))

/-- What one iteration of `nLoop` stores at `n`: the digest chosen by rule A,
the null request of rule B, or nothing when the iteration returns `nil`. -/
def slot (f : Nat) (vset : List ViewChange) (n : Nat) : Option String :=
  match findRuleA f vset n with
  | some em => some em.Digest
  | none => if 2 * f + 1 ≤ nullQuorum vset n then some "" else none


/-! ## Replica state -/

/-- PRE-PREPARE message; the fields set in `processNewView`. -/
structure PrePrepare where
  View : Nat
  SequenceNumber : Nat
  RequestDigest : String
  ReplicaId : Nat
deriving DecidableEq

/-- PREPARE message; the fields set in `processNewView`. -/
structure Prepare where
  View : Nat
  SequenceNumber : Nat
  RequestDigest : String
  ReplicaId : Nat
deriving DecidableEq

/-- COMMIT message. -/
structure Commit where
  View : Nat
  SequenceNumber : Nat
  RequestDigest : String
  ReplicaId : Nat
deriving DecidableEq

/-- Modelled from the spec: the certificate type `msgCert` is declared outside
viewchange.go; the spec gives it an optional pre-prepare, the prepares, the
commits and the booleans `sentPrepare` and `sentCommit`. -/
structure MsgCert where
  prePrepare : Option PrePrepare
  prepare : List Prepare
  commit : List Commit
  sentPrepare : Bool
  sentCommit : Bool
deriving DecidableEq

/-- A certificate that has just been created. -/
def emptyCert : MsgCert := ⟨none, [], [], false, false⟩

/-- Client request; only its presence in `reqStore` and `outstandingReqs` is
used by the view-change code. -/
structure Request where
  Payload : String
deriving DecidableEq

/-- NEW-VIEW message (`NewView`). -/
structure NewView where
  View : Nat
  Vset : List ViewChange
  Xset : XSet
  ReplicaId : Nat
deriving DecidableEq

/-- The message envelope, for the kinds that viewchange.go sends. -/
inductive Message where
  | viewChange (vc : ViewChange)
  | newView (nv : NewView)
  | prepare (p : Prepare)
deriving DecidableEq

/-- Calls that leave viewchange.go, in the order in which they are made.  The
engine behind them (timer, transport, consumer) is not part of this file, so a
call is recorded and has no further effect on the state here. -/
inductive Action where
  | stopTimer
  | startTimer (timeout : Int)
  | innerBroadcast (msg : Message) (toSelf : Bool)
  | consumerViewChange (view : Nat)
deriving DecidableEq

/-- The map `certStore`, keyed by `msgID{v, n}`. -/
abbrev CertStore := List ((Nat × Nat) × MsgCert)

/-- The fields of `pbftCore` that viewchange.go reads or writes.
`lastNewViewTimeout` is the duration handed to `startTimer`, a Go
`time.Duration`, that is an `int64` count of nanoseconds. -/
structure PbftCore where
  id : Nat
  f : Nat
  replicaCount : Nat
  L : Nat
  view : Nat
  h : Nat
  seqNo : Nat
  activeView : Bool
  lastNewViewTimeout : Int
  certStore : CertStore
  viewChangeStore : List ((Nat × Nat) × ViewChange)
  newViewStore : List (Nat × NewView)
  pset : List (Nat × ViewChange_PQ)
  qset : List ((String × Nat) × ViewChange_PQ)
  chkpts : List (Nat × String)
  reqStore : List (String × Request)
  outstandingReqs : List (String × Request)
deriving DecidableEq

/-- Functions of the engine that viewchange.go calls and that are defined
outside it.  `prepared` and `prePrepared` are, as in the data model of the spec,
properties of a certificate, so they are evaluated on the certificate store. -/
structure Env where
  verify : ViewChange → Bool
  prepared : CertStore → String → Nat → Nat → Bool
  prePrepared : CertStore → String → Nat → Nat → Bool
  recvRequest : PbftCore → Request → PbftCore

/-- Modelled from the spec: `primary` is defined outside viewchange.go; the
primary of view `v` is `v mod N`. -/
def primary (s : PbftCore) (v : Nat) : Nat := v % s.replicaCount

/-- Modelled from the spec: `getCert` is defined outside viewchange.go;
certificates are created lazily on first touch of `(v, n)`.  The certificate is
fetched or created and then updated by `g`. -/
def updCert (cs : CertStore) (v n : Nat) (g : MsgCert → MsgCert) : CertStore :=
  mapSet cs (v, n) (g ((mapGet cs (v, n)).getD emptyCert))

/-! ## sendViewChange -/

/-- The P-set entry that the first loop of `sendViewChange` builds from one
certificate, or `none` when one of the first two `continue`s is taken. -/
def psetCand (prepared : String → Nat → Nat → Bool) (e : (Nat × Nat) × MsgCert) :
    Option ViewChange_PQ :=
  match e.2.prePrepare with
  | none => none
  | some pp =>
    if !prepared pp.RequestDigest e.1.1 e.1.2 then none
    else some ⟨e.1.2, pp.RequestDigest, e.1.1⟩

/-- One iteration of the first loop of `sendViewChange` (P set). -/
def psetStep (prepared : String → Nat → Nat → Bool) (pset : List (Nat × ViewChange_PQ))
    (e : (Nat × Nat) × MsgCert) : List (Nat × ViewChange_PQ) :=
  match e.2.prePrepare with
  | none => pset
  | some pp =>
    if !prepared pp.RequestDigest e.1.1 e.1.2 then pset
    else
      match mapGet pset e.1.2 with
      | some p =>
        if p.View > e.1.1 then pset
        else mapSet pset e.1.2 ⟨e.1.2, pp.RequestDigest, e.1.1⟩
      | none => mapSet pset e.1.2 ⟨e.1.2, pp.RequestDigest, e.1.1⟩

/-- The first loop of `sendViewChange`, visiting the certificates in `order`. -/
def psetLoop (prepared : String → Nat → Nat → Bool) (order : CertStore)
    (pset : List (Nat × ViewChange_PQ)) : List (Nat × ViewChange_PQ) :=
  order.foldl (psetStep prepared) pset

/-- The Q-set entry that the second loop of `sendViewChange` builds from one
certificate, or `none` when one of the first two `continue`s is taken. -/
def qsetCand (prePrepared : String → Nat → Nat → Bool) (e : (Nat × Nat) × MsgCert) :
    Option ViewChange_PQ :=
  match e.2.prePrepare with
  | none => none
  | some pp =>
    if !prePrepared pp.RequestDigest e.1.1 e.1.2 then none
    else some ⟨e.1.2, pp.RequestDigest, e.1.1⟩

/-- One iteration of the second loop of `sendViewChange` (Q set); the key is
`qidx{digest, n}`. -/
def qsetStep (prePrepared : String → Nat → Nat → Bool)
    (qset : List ((String × Nat) × ViewChange_PQ))
    (e : (Nat × Nat) × MsgCert) : List ((String × Nat) × ViewChange_PQ) :=
  match e.2.prePrepare with
  | none => qset
  | some pp =>
    if !prePrepared pp.RequestDigest e.1.1 e.1.2 then qset
    else
      match mapGet qset (pp.RequestDigest, e.1.2) with
      | some q =>
        if q.View > e.1.1 then qset
        else mapSet qset (pp.RequestDigest, e.1.2) ⟨e.1.2, pp.RequestDigest, e.1.1⟩
      | none => mapSet qset (pp.RequestDigest, e.1.2) ⟨e.1.2, pp.RequestDigest, e.1.1⟩

/-- The second loop of `sendViewChange`, visiting the certificates in `order`. -/
def qsetLoop (prePrepared : String → Nat → Nat → Bool) (order : CertStore)
    (qset : List ((String × Nat) × ViewChange_PQ)) : List ((String × Nat) × ViewChange_PQ) :=
  order.foldl (qsetStep prePrepared) qset

/-- Go: `sendViewChange`, up to the call of `innerBroadcast`; `pOrder` and
`qOrder` are the orders in which the two loops over `certStore` visit it.  The
result is the state at that call and the calls made. -/
def sendViewChangeIn (env : Env) (s : PbftCore) (pOrder qOrder : CertStore) :
    PbftCore × List Action :=
  let view := (s.view + 1) % U64
  let pset := psetLoop (env.prepared s.certStore) pOrder s.pset
  let qset := qsetLoop (env.prePrepared s.certStore) qOrder s.qset
  let vc : ViewChange :=
    { View := view
      H := s.h
      ReplicaId := s.id
      Cset := s.chkpts.map (fun e => ⟨e.1, e.2⟩)
      Pset := pset.map Prod.snd
      Qset := qset.map Prod.snd }
  ({ s with
      newViewStore := mapDel s.newViewStore s.view
      view := view
      activeView := false
      pset := pset
      qset := qset
      certStore := s.certStore.filter (fun e => !decide (e.1.1 < view))
      viewChangeStore := s.viewChangeStore.filter (fun e => !decide (e.1.1 < view)) },
   [Action.stopTimer, Action.innerBroadcast (Message.viewChange vc) true])

/-- Go: `sendViewChange`, the maps being visited in their list order. -/
def sendViewChange (env : Env) (s : PbftCore) : PbftCore × List Action :=
  sendViewChangeIn env s s.certStore s.certStore

/-- The common shape of one iteration of the two loops of `sendViewChange`:
`cand` gives the key and the entry built from a certificate, and the entry is
stored unless the map already holds an entry of a larger view under that key. -/
def mergeStep {E κ : Type} [DecidableEq κ] (cand : E → Option (κ × ViewChange_PQ))
    (m : List (κ × ViewChange_PQ)) (e : E) : List (κ × ViewChange_PQ) :=
  match cand e with
  | none => m
  | some kc =>
    match mapGet m kc.1 with
    | some p => if p.View > kc.2.View then m else mapSet m kc.1 kc.2
    | none => mapSet m kc.1 kc.2

/-- Key and entry of the P-set loop. -/
def psetKeyed (prepared : String → Nat → Nat → Bool) (e : (Nat × Nat) × MsgCert) :
    Option (Nat × ViewChange_PQ) :=
  (psetCand prepared e).map (fun c => (e.1.2, c))

/-- Key and entry of the Q-set loop. -/
def qsetKeyed (prePrepared : String → Nat → Nat → Bool) (e : (Nat × Nat) × MsgCert) :
    Option ((String × Nat) × ViewChange_PQ) :=
  (qsetCand prePrepared e).map (fun c => ((c.Digest, e.1.2), c))

/-! ## processNewView and recvNewView -/

/-- Go: `reflect.DeepEqual` on two maps `map[uint64]string`: the same keys
with the same values. -/
def deepEqual (a b : XSet) : Bool :=
  decide (a.length = b.length) && a.all (fun e => decide (mapGet b e.1 = some e.2))

/-- The loop of `processNewView` that looks for a request of `nv.Xset` that is
above `h`, not null and not in `reqStore`: true when it reaches `return nil`. -/
def missingRequest (s : PbftCore) (xset : XSet) : Bool :=
  xset.any (fun e =>
    !decide (e.1 ≤ s.h) && !decide (e.2 = "") && (mapGet s.reqStore e.2).isNone)

/-- One iteration of the loop of `processNewView` that stores the pre-prepares. -/
def installPrePrepare (s : PbftCore) (e : Nat × String) : PbftCore :=
  { s with
    certStore := updCert s.certStore s.view e.1 (fun cert =>
      { cert with prePrepare := some ⟨s.view, e.1, e.2, s.id⟩ })
    seqNo := if e.1 > s.seqNo then e.1 else s.seqNo }

/-- One iteration of the loop of `processNewView` that sends the prepares. -/
def sendPrepare (acc : PbftCore × List Action) (e : Nat × String) : PbftCore × List Action :=
  let s := acc.1
  let prep : Prepare := ⟨s.view, e.1, e.2, s.id⟩
  ({ s with
      certStore := updCert s.certStore s.view e.1 (fun cert =>
        { cert with prepare := cert.prepare ++ [prep], sentPrepare := true }) },
   acc.2 ++ [Action.innerBroadcast (Message.prepare prep) true])

/-- One iteration of the loop `outer` of `processNewView`. -/
def resubmit (env : Env) (s : PbftCore) (e : String × Request) : PbftCore :=
  if s.certStore.any (fun c =>
      match c.2.prePrepare with
      | some pp => decide (pp.RequestDigest = e.1)
      | none => false)
  then s
  else env.recvRequest s e.2

/-- The part of `processNewView` from "accepting new-view" on. -/
def acceptNewView (env : Env) (s : PbftCore) (nv : NewView) : PbftCore × List Action :=
  let s1 : PbftCore :=
    { s with
      activeView := true
      newViewStore := mapDel s.newViewStore ((s.view + (U64 - 1)) % U64) }
  let s2 := nv.Xset.foldl installPrePrepare s1
  let r :=
    if primary s2 s2.view ≠ s2.id then nv.Xset.foldl sendPrepare (s2, [])
    else (s2.outstandingReqs.foldl (resubmit env) s2, [])
  (r.1, r.2 ++ [Action.consumerViewChange r.1.view])

/-- Go: `processNewView`.  The first argument bounds the iterations of the loop
in `assignSequenceNumbers`; `none` means that this loop is still running. -/
def processNewView (fuel : Nat) (env : Env) (s : PbftCore) : Option (PbftCore × List Action) :=
  match mapGet s.newViewStore s.view with
  | none => some (s, [])
  | some nv =>
    if s.activeView then some (s, [])
    else
      let cpOk := selectInitialCheckpoint s.f nv.Vset
      if !cpOk.2 then some (sendViewChange env s)
      else
        match assignSequenceNumbers fuel s.f s.L nv.Vset cpOk.1 with
        | none => none
        | some none => some (sendViewChange env s)
        | some (some msgList) =>
          if !(decide (msgList.length = 0) && decide (nv.Xset.length = 0))
              && !deepEqual msgList nv.Xset then
            some (sendViewChange env s)
          else if s.h < cpOk.1 then some (s, [])
          else if missingRequest s nv.Xset then some (s, [])
          else some (acceptNewView env s nv)

/-- Go: `recvNewView`. -/
def recvNewView (fuel : Nat) (env : Env) (s : PbftCore) (nv : NewView) :
    Option (PbftCore × List Action) :=
  if !(decide (nv.View > 0) && decide (nv.View ≥ s.view)
        && decide (primary s nv.View = nv.ReplicaId)
        && (mapGet s.newViewStore nv.View).isNone) then
    some (s, [])
  else if !nv.Vset.all env.verify then some (s, [])
  else processNewView fuel env { s with newViewStore := mapSet s.newViewStore nv.View nv }

/-! ## sendNewView and recvViewChange -/

/-- Go: `getViewChanges`, the map being visited in its list order. -/
def getViewChanges (s : PbftCore) : List ViewChange :=
  s.viewChangeStore.map Prod.snd

/-- Go: `sendNewView`.  The first argument bounds the iterations of the loop
in `assignSequenceNumbers`; `innerBroadcast` is taken to return no error. -/
def sendNewView (fuel : Nat) (env : Env) (s : PbftCore) : Option (PbftCore × List Action) :=
  if (mapGet s.newViewStore s.view).isSome then some (s, [])
  else
    let vset := getViewChanges s
    let cpOk := selectInitialCheckpoint s.f vset
    if !cpOk.2 then some (s, [])
    else
      match assignSequenceNumbers fuel s.f s.L vset cpOk.1 with
      | none => none
      | some none => some (s, [])
      | some (some msgList) =>
        let nv : NewView := { View := s.view, Vset := vset, Xset := msgList, ReplicaId := s.id }
        let s1 : PbftCore := { s with newViewStore := mapSet s.newViewStore s.view nv }
        (processNewView fuel env s1).map (fun r =>
          (r.1, Action.innerBroadcast (Message.newView nv) false :: r.2))

/-- One iteration of the loop of `recvViewChange` that collects the replicas
with a view-change for a view above `view` and the smallest such view; the
state is the pair `(replicas, minView)`. -/
def amplifyStep (view : Nat) (acc : List (Nat × Bool) × Nat) (e : (Nat × Nat) × ViewChange) :
    List (Nat × Bool) × Nat :=
  if e.1.1 ≤ view then acc
  else (mapSet acc.1 e.1.2 true, if acc.2 = 0 ∨ e.1.1 < acc.2 then e.1.1 else acc.2)

/-- The loop of `recvViewChange` over `viewChangeStore` that computes
`replicas` and `minView`. -/
def amplifyLoop (view : Nat) (order : List ((Nat × Nat) × ViewChange)) : List (Nat × Bool) × Nat :=
  order.foldl (amplifyStep view) ([], 0)

/-- Go: the value of an `int64` expression whose exact value is `x`: `x`
reduced modulo `2^64` into the range from `-2^63` to `2^63 - 1`. -/
def wrapInt64 (x : Int) : Int :=
  (x + 9223372036854775808) % 18446744073709551616 - 9223372036854775808

/-- The part of `recvViewChange` after the amplification test: the quorum
count, the new-view timer and the call of `sendNewView` or `processNewView`.
The product `2 * instance.lastNewViewTimeout` is an `int64` product. -/
def afterAmplification (fuel : Nat) (env : Env) (s : PbftCore) (vc : ViewChange) :
    Option (PbftCore × List Action) :=
  let quorum := s.viewChangeStore.countP (fun e => decide (e.1.1 = s.view))
  let timed : PbftCore × List Action :=
    if vc.View = s.view ∧ quorum = 2 * s.f + 1 then
      ({ s with lastNewViewTimeout := wrapInt64 (2 * s.lastNewViewTimeout) },
       [Action.startTimer s.lastNewViewTimeout])
    else (s, [])
  let next :=
    if primary timed.1 timed.1.view = timed.1.id then sendNewView fuel env timed.1
    else processNewView fuel env timed.1
  next.map (fun r => (r.1, timed.2 ++ r.2))

/-- The state of `recvViewChange` after `vc` has been stored. -/
def storeViewChange (s : PbftCore) (vc : ViewChange) : PbftCore :=
  { s with viewChangeStore := mapSet s.viewChangeStore (vc.View, vc.ReplicaId) vc }

/-- Go: `recvViewChange`.  The first argument bounds the iterations of the loop
in `assignSequenceNumbers`. -/
def recvViewChange (fuel : Nat) (env : Env) (s : PbftCore) (vc : ViewChange) :
    Option (PbftCore × List Action) :=
  if !env.verify vc then some (s, [])
  else if !(decide (vc.View ≥ s.view) && correctViewChange s.L vc
        && (mapGet s.viewChangeStore (vc.View, vc.ReplicaId)).isNone) then
    some (s, [])
  else
    let s1 := storeViewChange s vc
    let amp := amplifyLoop s1.view s1.viewChangeStore
    if amp.1.length ≥ s1.f + 1 then
      some (sendViewChange env { s1 with view := (amp.2 + (U64 - 1)) % U64 })
    else afterAmplification fuel env s1 vc

/-! ## Composite keys (openchain/ledger/statemgmt/commons.go) -/

/-- A Go byte slice or string: its bytes. -/
abbrev Bytes := List Nat

/-- Go: `stateKeyDelimiter`, the single byte `0x00`. -/
def stateKeyDelimiter : Nat := 0

/-- Go library: `bytes.Split(s, sep)` for a separator of one byte: the pieces
of `s` between the occurrences of `sep`, in order (one piece more than there
are occurrences). -/
def bytesSplit (sep : Nat) : Bytes → List Bytes
  | [] => [[]]
  | b :: t =>
    if b = sep then [] :: bytesSplit sep t
    else
      match bytesSplit sep t with
      | [] => [[b]]
      | piece :: rest => (b :: piece) :: rest

/-- Go: `ConstructCompositeKey`. -/
def ConstructCompositeKey (chaincodeID key : Bytes) : Bytes :=
  (chaincodeID ++ [stateKeyDelimiter]) ++ key

/-- Go: `DecodeCompositeKey`; `none` when `split[1]` is out of range, where the
Go code panics. -/
def DecodeCompositeKey (compositeKey : Bytes) : Option (Bytes × Bytes) :=
  match bytesSplit stateKeyDelimiter compositeKey with
  | a :: b :: _ => some (a, b)
  | _ => none

/-! ## State.TxFinish (openchain/ledger/statemgmt/state/state.go) -/

/-- The operations of `statemgmt.StateDelta` that `State` calls; the type is
declared outside the files modelled here, so its values `Δ` and these
operations are parameters. -/
structure DeltaOps (Δ : Type) where
  NewStateDelta : Δ
  IsEmpty : Δ → Bool
  ApplyChanges : Δ → Δ → Δ
  ComputeCryptoHash : Δ → Bytes

/-- The fields of `State` that `TxBegin`, `TxFinish` and `GetTxStateDeltaHash`
read or write.  In `txStateDeltaHash` the value `none` is a `nil` byte slice. -/
structure State (Δ : Type) where
  stateDelta : Δ
  currentTxStateDelta : Δ
  currentTxUUID : String
  txStateDeltaHash : List (String × Option Bytes)
  updateStateImpl : Bool

/-- Go: `State.txInProgress`. -/
def txInProgress {Δ : Type} (state : State Δ) : Bool :=
  decide (state.currentTxUUID ≠ "")

/-- Go: `State.TxBegin`; `none` is the panic. -/
def TxBegin {Δ : Type} (state : State Δ) (txUUID : String) : Option (State Δ) :=
  if txInProgress state then none
  else some { state with currentTxUUID := txUUID }

/-- Go: `State.TxFinish`; `none` is the panic on a different transaction id. -/
def TxFinish {Δ : Type} (ops : DeltaOps Δ) (state : State Δ) (txUUID : String)
    (txSuccessful : Bool) : Option (State Δ) :=
  if state.currentTxUUID ≠ txUUID then none
  else
    let s1 : State Δ :=
      if txSuccessful then
        if !ops.IsEmpty state.currentTxStateDelta then
          { state with
            stateDelta := ops.ApplyChanges state.stateDelta state.currentTxStateDelta
            txStateDeltaHash := mapSet state.txStateDeltaHash txUUID
              (some (ops.ComputeCryptoHash state.currentTxStateDelta))
            updateStateImpl := true }
        else
          { state with txStateDeltaHash := mapSet state.txStateDeltaHash txUUID none }
      else state
    some { s1 with currentTxStateDelta := ops.NewStateDelta, currentTxUUID := "" }

/-- Go: `State.GetTxStateDeltaHash`. -/
def GetTxStateDeltaHash {Δ : Type} (state : State Δ) : List (String × Option Bytes) :=
  state.txStateDeltaHash

/-! ## ChaincodeSupport.LaunchChaincode (openchain/chaincode/chaincode_support.go) -/

/-- The values of `pb.Transaction_Type`: the three that `LaunchChaincode`
names, and every other value of the enumeration. -/
inductive TransactionType where
  | CHAINCODE_NEW
  | CHAINCODE_EXECUTE
  | CHAINCODE_QUERY
  | other (code : Nat)
deriving DecidableEq

/-- The fields of `pb.Transaction` that `LaunchChaincode` reads (`Type_` is the
Go field `Type`). -/
structure Transaction where
  Type_ : TransactionType
  Payload : Bytes
  Uuid : String
deriving DecidableEq

/-- The part of `pb.ChaincodeID` that `LaunchChaincode` reads. -/
structure ChaincodeID where
  Name : String
deriving DecidableEq

/-- The constructor message `pb.ChaincodeInput`. -/
structure ChaincodeInput where
  Function : String
  Args : List String
deriving DecidableEq

/-- What `LaunchChaincode` reads of a `Handler`: `registered` and the result of
`isRunning()`. -/
structure Handler where
  registered : Bool
  running : Bool
deriving DecidableEq

/-- Go: `handlerMap`: the embedded `sync.RWMutex` (`locked` is true while the
write lock is held) and the map of handlers. -/
structure HandlerMap where
  locked : Bool
  chaincodeMap : List (String × Handler)
deriving DecidableEq

/-- The fields of `ChaincodeSupport` that `LaunchChaincode` reads. -/
structure ChaincodeSupport where
  handlerMap : HandlerMap
  userRunsCC : Bool
deriving DecidableEq

/-- A call of `Lock` or `Unlock` on the handler map made by `LaunchChaincode`
itself. -/
inductive LockOp where
  | lock
  | unlock
deriving DecidableEq

/-- The three results of `LaunchChaincode`; `nil` is `none`, and an error is
its text. -/
structure LaunchReturn where
  cID : Option ChaincodeID
  cMsg : Option ChaincodeInput
  err : Option String
deriving DecidableEq

/-- How a call of `LaunchChaincode` ends: it returns, with the state reached
and the lock calls it made; or the Go runtime stops the program (`Unlock` of a
mutex that is not locked is a fatal error); or it waits in `Lock` for a lock
held elsewhere. -/
inductive LaunchOutcome where
  | returned (cs : ChaincodeSupport) (ops : List LockOp) (ret : LaunchReturn)
  | fatal (msg : String)
  | blocked
deriving DecidableEq

/-- Functions called by `LaunchChaincode` and defined outside it: the two uses
of `proto.Unmarshal`, `launchAndWaitForRegister`, `sendInitOrReady` and
`stopChaincode`. -/
structure LaunchEnv where
  unmarshalDeployment : Bytes → Except String (ChaincodeID × ChaincodeInput)
  unmarshalInvocation : Bytes → Except String (ChaincodeID × ChaincodeInput)
  launchAndWaitForRegister : ChaincodeSupport → ChaincodeID → String →
    ChaincodeSupport × Option String
  sendInitOrReady : ChaincodeSupport → String → String → Option String → List String →
    ChaincodeSupport × Option String
  stopChaincode : ChaincodeSupport → ChaincodeID → ChaincodeSupport × Option String

/-- The text of `fmt.Errorf("invalid transaction type: %d", t.Type)`, the
number being left out for the three named types, which never reach it. -/
def invalidTypeError (ty : TransactionType) : String :=
  match ty with
  | TransactionType.other code => "invalid transaction type: " ++ toString code
  | _ => "invalid transaction type"

/-- The part of `LaunchChaincode` after "from here on": the launch, the init
message and the stop on failure; `ops` are the lock calls made so far. -/
def launchAndInit (env : LaunchEnv) (cs : ChaincodeSupport) (t : Transaction)
    (ops : List LockOp) (cID : ChaincodeID) (cMsg : ChaincodeInput) (f : Option String)
    (initargs : List String) (handler : Option Handler) : LaunchOutcome :=
  let launched : ChaincodeSupport × Option String :=
    if !cs.userRunsCC && handler.isNone then env.launchAndWaitForRegister cs cID t.Uuid
    else (cs, none)
  match launched.2 with
  | some err => LaunchOutcome.returned launched.1 ops ⟨some cID, some cMsg, some err⟩
  | none =>
    let sent := env.sendInitOrReady launched.1 t.Uuid cID.Name f initargs
    match sent.2 with
    | some err =>
      let stopped := env.stopChaincode sent.1 cID
      LaunchOutcome.returned stopped.1 ops
        ⟨some cID, some cMsg, some ("Failed to init chaincode(" ++ err ++ ")")⟩
    | none => LaunchOutcome.returned sent.1 ops ⟨some cID, some cMsg, none⟩

/-- The part of `LaunchChaincode` from `chaincode := cID.Name` on. -/
def launchNamed (env : LaunchEnv) (cs : ChaincodeSupport) (t : Transaction)
    (cID : ChaincodeID) (cMsg : ChaincodeInput) (f : Option String) (initargs : List String) :
    LaunchOutcome :=
  if cs.handlerMap.locked then LaunchOutcome.blocked
  else
    let handler := mapGet cs.handlerMap.chaincodeMap cID.Name
    match handler with
    | some h =>
      if !h.registered then
        LaunchOutcome.returned cs [LockOp.lock, LockOp.unlock]
          ⟨some cID, some cMsg,
            some ("premature execution - chaincode (" ++ cID.Name ++ ") is being launched")⟩
      else if h.running then
        LaunchOutcome.returned cs [LockOp.lock, LockOp.unlock] ⟨some cID, some cMsg, none⟩
      else launchAndInit env cs t [LockOp.lock, LockOp.unlock] cID cMsg f initargs handler
    | none => launchAndInit env cs t [LockOp.lock, LockOp.unlock] cID cMsg f initargs handler

/-- Go: `ChaincodeSupport.LaunchChaincode`. -/
def LaunchChaincode (env : LaunchEnv) (cs : ChaincodeSupport) (t : Transaction) :
    LaunchOutcome :=
  if t.Type_ = TransactionType.CHAINCODE_NEW then
    match env.unmarshalDeployment t.Payload with
    | Except.error err => LaunchOutcome.returned cs [] ⟨none, none, some err⟩
    | Except.ok spec => launchNamed env cs t spec.1 spec.2 (some spec.2.Function) spec.2.Args
  else if t.Type_ = TransactionType.CHAINCODE_EXECUTE
      ∨ t.Type_ = TransactionType.CHAINCODE_QUERY then
    match env.unmarshalInvocation t.Payload with
    | Except.error err => LaunchOutcome.returned cs [] ⟨none, none, some err⟩
    | Except.ok spec => launchNamed env cs t spec.1 spec.2 none []
  else if cs.handlerMap.locked then
    LaunchOutcome.returned { cs with handlerMap := { cs.handlerMap with locked := false } }
      [LockOp.unlock] ⟨none, none, some (invalidTypeError t.Type_)⟩
  else LaunchOutcome.fatal "sync: Unlock of unlocked RWMutex"

/-! ## Concrete inputs -/

/-- A view-change with no P-set and no Q-set entry, from replica `i`, for view
`2` with low watermark `0`. -/
def plainVc (i : Nat) : ViewChange := ⟨2, 0, [⟨0, "s0"⟩], [], [], i⟩

/-- A view-change of replica `3` whose only P-set entry is at sequence number
`2` and whose Q-set entries are at sequence number `1`. -/
def forgedVc : ViewChange :=
  ⟨2, 0, [⟨0, "s0"⟩], [⟨2, "a", 0⟩], [⟨1, "a", 0⟩, ⟨1, "a", 1⟩], 3⟩

/-- The view-changes of four replicas (`f = 1`), one of them `forgedVc`. -/
def forgedVset : List ViewChange := [forgedVc, plainVc 0, plainVc 1, plainVc 2]

/-- A view-change of replica `i` for view `1` with low watermark `0` and the
checkpoints `cset`. -/
def checkpointVc (i : Nat) (cset : List ViewChange_C) : ViewChange := ⟨1, 0, cset, [], [], i⟩

/-- Four replicas (`f = 1`): replicas `0` and `1` hold the checkpoint
`(10, "s10")`, replicas `2` and `3` have not reached it; all have `H = 0`. -/
def laggingVset : List ViewChange :=
  [checkpointVc 0 [⟨0, "s0"⟩, ⟨10, "s10"⟩], checkpointVc 1 [⟨0, "s0"⟩, ⟨10, "s10"⟩],
   checkpointVc 2 [⟨0, "s0"⟩], checkpointVc 3 [⟨0, "s0"⟩]]

/-- Three replicas each holding the prepared request `(n = 1, "a", v = 0)`. -/
def preparedVset : List ViewChange :=
  [⟨1, 0, [⟨0, "s0"⟩], [⟨1, "a", 0⟩], [⟨1, "a", 0⟩], 0⟩,
   ⟨1, 0, [⟨0, "s0"⟩], [⟨1, "a", 0⟩], [⟨1, "a", 0⟩], 2⟩,
   ⟨1, 0, [⟨0, "s0"⟩], [⟨1, "a", 0⟩], [⟨1, "a", 0⟩], 3⟩]

/-- Collaborators that accept every signature and hold no certificate. -/
def idleEnv : Env :=
  { verify := fun _ => true
    prepared := fun _ _ _ _ => false
    prePrepared := fun _ _ _ _ => false
    recvRequest := fun s _ => s }

/-- Replica `0` of four (`f = 1`, `L = 4`), waiting in view `1`. -/
def waitingReplica : PbftCore :=
  { id := 0, f := 1, replicaCount := 4, L := 4, view := 1, h := 0, seqNo := 0
    activeView := false, lastNewViewTimeout := 2
    certStore := [], viewChangeStore := [], newViewStore := []
    pset := [], qset := [], chkpts := [(0, "s0")], reqStore := [], outstandingReqs := [] }

/-- A NEW-VIEW for view `1` from its primary, replica `1`, whose `Vset` is one
view-change of replica `1` listed three times. -/
def repeatedNewView : NewView :=
  { View := 1, Vset := [checkpointVc 1 [⟨0, "s0"⟩], checkpointVc 1 [⟨0, "s0"⟩],
      checkpointVc 1 [⟨0, "s0"⟩]], Xset := [], ReplicaId := 1 }

/-- A NEW-VIEW for view `1` from its primary with the view-changes of replicas
`1`, `2` and `3`. -/
def honestNewView : NewView :=
  { View := 1, Vset := [checkpointVc 1 [⟨0, "s0"⟩], checkpointVc 2 [⟨0, "s0"⟩],
      checkpointVc 3 [⟨0, "s0"⟩]], Xset := [], ReplicaId := 1 }

/-- The replica `waitingReplica` after it has stored `repeatedNewView`. -/
def repeatedStored : PbftCore :=
  { waitingReplica with newViewStore := [(1, repeatedNewView)] }

/-- The replica `waitingReplica` after it has stored `honestNewView`. -/
def honestStored : PbftCore :=
  { waitingReplica with newViewStore := [(1, honestNewView)] }

/-- Three of the view-changes of `forgedVset`: too few for rule B at `n = 2`. -/
def shortVset : List ViewChange := [forgedVc, plainVc 0, plainVc 1]

/-- Collaborators for which a certificate is prepared when it holds at least
two prepares and pre-prepared as soon as it holds a pre-prepare. -/
def countingEnv : Env :=
  { verify := fun _ => true
    prepared := fun cs _ v n =>
      match mapGet cs (v, n) with
      | some cert => decide (2 ≤ cert.prepare.length)
      | none => false
    prePrepared := fun _ _ _ _ => true
    recvRequest := fun s _ => s }

/-- Replica `0` in view `1` holding, for sequence number `1`, a prepared
certificate of view `0` for `"a"` and one of view `1` for `"b"`, and a
pre-prepare without prepares at sequence number `2`. -/
def preparedReplica : PbftCore :=
  { waitingReplica with
    activeView := true
    certStore :=
      [((0, 1), ⟨some ⟨0, 1, "a", 0⟩, [⟨0, 1, "a", 1⟩, ⟨0, 1, "a", 2⟩], [], false, false⟩),
       ((1, 1), ⟨some ⟨1, 1, "b", 1⟩, [⟨1, 1, "b", 2⟩, ⟨1, 1, "b", 3⟩], [], true, false⟩),
       ((1, 2), ⟨some ⟨1, 2, "c", 1⟩, [], [], true, false⟩)] }

/-- A replica in the last view a `uint64` can hold, with a prepared
certificate of that view for sequence number `1`. -/
def lastViewReplica : PbftCore :=
  { waitingReplica with
    view := U64 - 1
    activeView := true
    certStore :=
      [((U64 - 1, 1),
        ⟨some ⟨U64 - 1, 1, "a", 3⟩, [⟨U64 - 1, 1, "a", 1⟩, ⟨U64 - 1, 1, "a", 2⟩], [],
          false, false⟩)] }

/-- A replica in view `1` whose certificate store holds a prepared certificate
of view `3` for sequence number `1`. -/
def aheadReplica : PbftCore :=
  { waitingReplica with
    certStore :=
      [((3, 1), ⟨some ⟨3, 1, "a", 3⟩, [⟨3, 1, "a", 1⟩, ⟨3, 1, "a", 2⟩], [], false, false⟩)] }

/-- A replica with `h = 10` and `L = 4` whose `chkpts` holds a pair below `h`
and a pair above `h + L`. -/
def staleReplica : PbftCore :=
  { waitingReplica with h := 10, chkpts := [(0, "s0"), (10, "s10"), (50, "s50")] }

/-- Collaborators for which the signature of a view-change of replica `3` does
not verify. -/
def rejectingEnv : Env :=
  { verify := fun vc => decide (vc.ReplicaId ≠ 3)
    prepared := fun _ _ _ _ => false
    prePrepared := fun _ _ _ _ => false
    recvRequest := fun s _ => s }

/-- Replica `0`, active in view `1`, with the NEW-VIEW of view `1` stored. -/
def activeReplica : PbftCore :=
  { honestStored with activeView := true }

/-- A NEW-VIEW for view `1` from its primary, built on `preparedVset`, which
assigns `"a"` to sequence number `1`. -/
def preparedNewView : NewView :=
  { View := 1, Vset := preparedVset, Xset := [(1, "a")], ReplicaId := 1 }

/-- Replica `0` holding `preparedNewView` and the request with digest `"a"`. -/
def preparedStored : PbftCore :=
  { waitingReplica with
    newViewStore := [(1, preparedNewView)]
    reqStore := [("a", ⟨"request a"⟩)] }

/-- Replica `0` holding `preparedNewView` but not the request with digest
`"a"`. -/
def deferredStored : PbftCore :=
  { waitingReplica with newViewStore := [(1, preparedNewView)] }

/-- Replica `0` holding a NEW-VIEW for view `1` with an empty `Vset`. -/
def emptyStored : PbftCore :=
  { waitingReplica with newViewStore := [(1, ⟨1, [], [], 1⟩)] }

/-- Replica `0` in view `1` holding a view-change of replica `2` for view `3`. -/
def amplifyReplica : PbftCore :=
  { waitingReplica with viewChangeStore := [((3, 2), ⟨3, 0, [⟨0, "s0"⟩], [], [], 2⟩)] }

/-- A view-change of replica `3` for view `3`. -/
def laterVc : ViewChange := ⟨3, 0, [⟨0, "s0"⟩], [], [], 3⟩

/-- A state delta taken as the list of its key/value changes, hashed to its
length. -/
def listOps : DeltaOps (List (String × String)) :=
  { NewStateDelta := []
    IsEmpty := fun d => d.isEmpty
    ApplyChanges := fun d c => d ++ c
    ComputeCryptoHash := fun d => [d.length] }

/-- A state in which transaction `"tx1"` is in progress and has written one
key. -/
def writingState : State (List (String × String)) :=
  { stateDelta := [], currentTxStateDelta := [("k", "v")], currentTxUUID := "tx1"
    txStateDeltaHash := [], updateStateImpl := false }

/-- Four replicas (`f = 1`): replica `0` prepared `(n = 1, "a", v = 0)`,
replica `1` pre-prepared it, replicas `2` and `3` have low watermark `5`. -/
def aheadVset : List ViewChange :=
  [⟨2, 0, [⟨0, "s0"⟩], [⟨1, "a", 0⟩], [⟨1, "a", 0⟩], 0⟩,
   ⟨2, 0, [⟨0, "s0"⟩], [], [⟨1, "a", 0⟩], 1⟩,
   ⟨2, 5, [⟨5, "s5"⟩], [], [], 2⟩,
   ⟨2, 5, [⟨5, "s5"⟩], [], [], 3⟩]

/-- A view-change of replica `3` whose Q-set lists the digest `"a"` at sequence
number `1` twice, for views `0` and `1`. -/
def doubledVc : ViewChange :=
  ⟨2, 0, [⟨0, "s0"⟩], [⟨1, "a", 0⟩], [⟨1, "a", 0⟩, ⟨1, "a", 1⟩], 3⟩

/-- The view-changes of four replicas (`f = 1`), one of them `doubledVc`. -/
def doubledVset : List ViewChange := [doubledVc, plainVc 0, plainVc 1, plainVc 2]

/-- A view-change of replica `3` that lists the checkpoint `(0, "s0")` three
times. -/
def repeatedCsetVc : ViewChange := checkpointVc 3 [⟨0, "s0"⟩, ⟨0, "s0"⟩, ⟨0, "s0"⟩]

/-- Three view-changes (`f = 1`) with no P-set and no Q-set entry. -/
def plainVset : List ViewChange := [plainVc 0, plainVc 1, plainVc 2]

/-- Collaborators of `LaunchChaincode` that parse every payload to the
chaincode `"cc"` and never fail. -/
def quietLaunchEnv : LaunchEnv :=
  { unmarshalDeployment := fun _ => Except.ok (⟨"cc"⟩, ⟨"init", []⟩)
    unmarshalInvocation := fun _ => Except.ok (⟨"cc"⟩, ⟨"invoke", []⟩)
    launchAndWaitForRegister := fun cs _ _ => (cs, none)
    sendInitOrReady := fun cs _ _ _ _ => (cs, none)
    stopChaincode := fun cs _ => (cs, none) }

/-- A chaincode support whose handler-map lock is free and whose map is
empty. -/
def freeSupport : ChaincodeSupport := { handlerMap := ⟨false, []⟩, userRunsCC := false }

/-- A chaincode support whose handler-map lock is held, by some other caller. -/
def heldSupport : ChaincodeSupport := { handlerMap := ⟨true, []⟩, userRunsCC := false }

/-- A transaction of a type other than the three that `LaunchChaincode`
names. -/
def otherTypeTx : Transaction := { Type_ := TransactionType.other 2, Payload := [], Uuid := "tx" }

/-- Replica `1` of four (`f = 1`), the primary of view `1`, waiting in view `1`
with the view-changes of replicas `0`, `2` and `3` for view `1` and one of
replica `3` for view `2`. -/
def mixedPrimary : PbftCore :=
  { waitingReplica with
    id := 1
    viewChangeStore :=
      [((1, 0), checkpointVc 0 [⟨0, "s0"⟩]), ((1, 2), checkpointVc 2 [⟨0, "s0"⟩]),
       ((1, 3), checkpointVc 3 [⟨0, "s0"⟩]), ((2, 3), plainVc 3)] }

/-- The replica `waitingReplica` holding the view-changes of replicas `2` and
`3` for view `1`. -/
def twoStored : PbftCore :=
  { waitingReplica with
    viewChangeStore :=
      [((1, 2), checkpointVc 2 [⟨0, "s0"⟩]), ((1, 3), checkpointVc 3 [⟨0, "s0"⟩])] }

/-- Four replicas (`f = 1`): replica `0` prepared `"a"` at sequence number `1`
in view `0`, replica `1` prepared `"b"` there in view `1`, replica `2`
pre-prepared both, replica `3` neither. -/
def splitVset : List ViewChange :=
  [⟨2, 0, [⟨0, "s0"⟩], [⟨1, "a", 0⟩], [⟨1, "a", 0⟩], 0⟩,
   ⟨2, 0, [⟨0, "s0"⟩], [⟨1, "b", 1⟩], [⟨1, "b", 1⟩], 1⟩,
   ⟨2, 0, [⟨0, "s0"⟩], [], [⟨1, "a", 0⟩, ⟨1, "b", 1⟩], 2⟩,
   ⟨2, 0, [⟨0, "s0"⟩], [], [], 3⟩]

/-- The view-changes of `splitVset` with the first two exchanged. -/
def splitVsetSwapped : List ViewChange :=
  [⟨2, 0, [⟨0, "s0"⟩], [⟨1, "b", 1⟩], [⟨1, "b", 1⟩], 1⟩,
   ⟨2, 0, [⟨0, "s0"⟩], [⟨1, "a", 0⟩], [⟨1, "a", 0⟩], 0⟩,
   ⟨2, 0, [⟨0, "s0"⟩], [], [⟨1, "a", 0⟩, ⟨1, "b", 1⟩], 2⟩,
   ⟨2, 0, [⟨0, "s0"⟩], [], [], 3⟩]

/-- The replica `twoStored` with a new-view timeout of `2^62` nanoseconds. -/
def longTimeoutStored : PbftCore :=
  { twoStored with lastNewViewTimeout := 4611686018427387904 }

/-- Three replicas with low watermark `2^64 - 3` that each hold the prepared
request `(n = 2^64 - 2, "a", v = 0)`. -/
def wrappedPreparedVset : List ViewChange :=
  [⟨1, U64 - 3, [⟨U64 - 3, "s"⟩], [⟨U64 - 2, "a", 0⟩], [⟨U64 - 2, "a", 0⟩], 0⟩,
   ⟨1, U64 - 3, [⟨U64 - 3, "s"⟩], [⟨U64 - 2, "a", 0⟩], [⟨U64 - 2, "a", 0⟩], 2⟩,
   ⟨1, U64 - 3, [⟨U64 - 3, "s"⟩], [⟨U64 - 2, "a", 0⟩], [⟨U64 - 2, "a", 0⟩], 3⟩]

/-- Three replicas with low watermark `2^64 - 3` that each hold a P-set entry
at `n = 2^64 - 2` and no Q-set entry. -/
def wrappedPsetVset : List ViewChange :=
  [⟨1, U64 - 3, [⟨U64 - 3, "s"⟩], [⟨U64 - 2, "a", 0⟩], [], 0⟩,
   ⟨1, U64 - 3, [⟨U64 - 3, "s"⟩], [⟨U64 - 2, "a", 0⟩], [], 2⟩,
   ⟨1, U64 - 3, [⟨U64 - 3, "s"⟩], [⟨U64 - 2, "a", 0⟩], [], 3⟩]

/-- A NEW-VIEW for view `1` from its primary with the view-changes of replicas
`1`, `2` and `3`, none of which holds a P-set entry, and an `Xset` that assigns
`"x"` to sequence number `1`. -/
def mismatchNewView : NewView := { honestNewView with Xset := [(1, "x")] }

/-- The replica `waitingReplica` after it has stored `mismatchNewView`. -/
def mismatchStored : PbftCore :=
  { waitingReplica with newViewStore := [(1, mismatchNewView)] }

/-- Replica `0` waiting in the last view a `uint64` can hold, with the
NEW-VIEW of that view, from its primary `3`, built like `mismatchNewView`. -/
def lastViewMismatch : PbftCore :=
  { waitingReplica with
    view := U64 - 1
    newViewStore := [(U64 - 1, { mismatchNewView with View := U64 - 1, ReplicaId := 3 })] }

/-! ## Lemmas on maps -/

theorem mapGet_mapSet {κ α : Type} [DecidableEq κ] (m : List (κ × α)) (k : κ) (v : α) (k1 : κ) :
    mapGet (mapSet m k v) k1 = if k = k1 then some v else mapGet m k1 := by
  induction m with
  | nil => simp [mapSet, mapGet]
  | cons e t ih =>
    obtain ⟨k0, v0⟩ := e
    by_cases h0 : k0 = k
    · subst h0
      by_cases h1 : k0 = k1 <;> simp [mapSet, mapGet, h1]
    · by_cases h1 : k0 = k1
      · subst h1
        have : ¬ k = k0 := fun h => h0 h.symm
        simp [mapSet, mapGet, h0, this]
      · simp [mapSet, mapGet, h0, h1, ih]

theorem mem_mapKeys_mapSet {κ α : Type} [DecidableEq κ] (m : List (κ × α)) (k : κ) (v : α)
    (x : κ) : x ∈ mapKeys (mapSet m k v) ↔ x = k ∨ x ∈ mapKeys m := by
  induction m with
  | nil => simp [mapSet, mapKeys]
  | cons e t ih =>
    obtain ⟨k0, v0⟩ := e
    by_cases h0 : k0 = k
    · subst h0
      simp [mapSet, mapKeys]
    · have ih2 : x ∈ List.map Prod.fst (mapSet t k v) ↔ x = k ∨ x ∈ List.map Prod.fst t := ih
      simp only [mapSet, h0, if_false, mapKeys, List.map_cons, List.mem_cons, ih2]
      tauto

theorem nodup_mapKeys_mapSet {κ α : Type} [DecidableEq κ] (m : List (κ × α)) (k : κ) (v : α)
    (h : (mapKeys m).Nodup) : (mapKeys (mapSet m k v)).Nodup := by
  induction m with
  | nil => simp [mapSet, mapKeys]
  | cons e t ih =>
    obtain ⟨k0, v0⟩ := e
    have h2 : k0 ∉ mapKeys t ∧ (mapKeys t).Nodup := by
      simpa [mapKeys] using h
    by_cases h0 : k0 = k
    · subst h0
      simpa [mapSet, mapKeys] using h
    · have hk : k0 ∉ mapKeys (mapSet t k v) := by
        rw [mem_mapKeys_mapSet]
        rintro (h3 | h3)
        · exact h0 h3
        · exact h2.1 h3
      have := ih h2.2
      simp only [mapSet, h0, if_false]
      simpa [mapKeys] using And.intro hk this

theorem mapGet_eq_none_of_not_mem {κ α : Type} [DecidableEq κ] (m : List (κ × α)) (k : κ)
    (h : k ∉ mapKeys m) : mapGet m k = none := by
  induction m with
  | nil => rfl
  | cons e t ih =>
    obtain ⟨k0, v0⟩ := e
    have h2 : ¬ k = k0 ∧ k ∉ mapKeys t := by simpa [mapKeys] using h
    have h3 : ¬ k0 = k := fun h4 => h2.1 h4.symm
    simp [mapGet, h3, ih h2.2]

theorem mapGet_filter {κ α : Type} [DecidableEq κ] (p : κ × α → Bool) (m : List (κ × α)) (k : κ)
    (h : (mapKeys m).Nodup) :
    mapGet (m.filter p) k = (mapGet m k).bind (fun v => if p (k, v) then some v else none) := by
  induction m with
  | nil => rfl
  | cons e t ih =>
    obtain ⟨k0, v0⟩ := e
    have h2 : k0 ∉ mapKeys t ∧ (mapKeys t).Nodup := by
      simpa [mapKeys] using h
    by_cases h0 : k0 = k
    · subst h0
      have hn := mapGet_eq_none_of_not_mem t k0 h2.1
      by_cases hp : p (k0, v0) = true
      · simp [List.filter, hp, mapGet]
      · have hp2 : p (k0, v0) = false := by simpa using hp
        simp [List.filter, hp2, mapGet, ih h2.2, hn]
    · by_cases hp : p (k0, v0) = true
      · simp [List.filter, hp, mapGet, h0, ih h2.2]
      · have hp2 : p (k0, v0) = false := by simpa using hp
        simp [List.filter, hp2, mapGet, h0, ih h2.2]

/-! ## Lemmas on the loop of assignSequenceNumbers -/

theorem assignLoop_no_exit (f : Nat) (vset : List ViewChange) (bound : Nat)
    (hb : bound + 1 = U64) (fuel : Nat) :
    ∀ (n : Nat) (ml : XSet) (mx : Nat) (r : XSet × Nat), n < U64 →
      assignLoop f vset bound fuel n ml mx ≠ some (some r) := by
  induction fuel with
  | zero => intro n ml mx r _; simp [assignLoop]
  | succ fuel ih =>
    intro n ml mx r hn
    have hle : n ≤ bound := by omega
    have hlt : (n + 1) % U64 < U64 := Nat.mod_lt _ (by unfold U64; positivity)
    unfold assignLoop
    simp only [hle, if_true]
    cases hfa : findRuleA f vset n with
    | some em => exact ih _ _ _ r hlt
    | none =>
      by_cases hq : 2 * f + 1 ≤ nullQuorum vset n
      · simp only [hq, if_true]
        exact ih _ _ _ r hlt
      · simp [hq]

theorem assignLoop_exit (f : Nat) (vset : List ViewChange) (bound : Nat)
    (hb : bound + 1 < U64) (fuel : Nat) :
    ∀ (n : Nat) (ml : XSet) (mx : Nat) (ml1 : XSet) (mx1 : Nat),
      assignLoop f vset bound fuel n ml mx = some (some (ml1, mx1)) →
      (∀ k, n ≤ k → k ≤ bound → slot f vset k ≠ none ∧ mapGet ml1 k = slot f vset k) ∧
      (∀ k, ¬ (n ≤ k ∧ k ≤ bound) → mapGet ml1 k = mapGet ml k) ∧
      ((mapKeys ml).Nodup → (mapKeys ml1).Nodup) := by
  induction fuel with
  | zero => intro n ml mx ml1 mx1 h; simp [assignLoop] at h
  | succ fuel ih =>
    intro n ml mx ml1 mx1 h
    unfold assignLoop at h
    by_cases hle : n ≤ bound
    · have hmod : (n + 1) % U64 = n + 1 := Nat.mod_eq_of_lt (by omega)
      simp only [hle, if_true, hmod] at h
      have key : ∀ (d : String) (mx2 : Nat), slot f vset n = some d →
          assignLoop f vset bound fuel (n + 1) (mapSet ml n d) mx2 = some (some (ml1, mx1)) →
          (∀ k, n ≤ k → k ≤ bound → slot f vset k ≠ none ∧ mapGet ml1 k = slot f vset k) ∧
          (∀ k, ¬ (n ≤ k ∧ k ≤ bound) → mapGet ml1 k = mapGet ml k) ∧
          ((mapKeys ml).Nodup → (mapKeys ml1).Nodup) := by
        intro d mx2 hs hrec
        obtain ⟨h1, h2, h3⟩ := ih _ _ _ _ _ hrec
        refine ⟨?_, ?_, ?_⟩
        · intro k hk1 hk2
          by_cases hkn : k = n
          · subst hkn
            have := h2 k (by omega)
            rw [this, mapGet_mapSet, hs]
            simp
          · exact h1 k (by omega) hk2
        · intro k hk
          by_cases hkn : k = n
          · omega
          · have hne : ¬ n = k := fun h4 => hkn h4.symm
            rw [h2 k (by omega), mapGet_mapSet]
            simp [hne]
        · intro hnd
          exact h3 (nodup_mapKeys_mapSet _ _ _ hnd)
      cases hfa : findRuleA f vset n with
      | some em =>
        rw [hfa] at h
        exact key em.Digest n (by simp [slot, hfa]) h
      | none =>
        rw [hfa] at h
        by_cases hq : 2 * f + 1 ≤ nullQuorum vset n
        · simp only [hq, if_true] at h
          exact key "" mx (by simp [slot, hfa, hq]) h
        · simp [hq] at h
    · simp only [hle, if_false, Option.some.injEq, Prod.mk.injEq] at h
      obtain ⟨h1, _⟩ := h
      subst h1
      refine ⟨?_, ?_, ?_⟩
      · intro k hk1 hk2; omega
      · intro k _; rfl
      · exact id

theorem assignLoop_nil (f : Nat) (vset : List ViewChange) (bound : Nat)
    (hb : bound + 1 < U64) (fuel : Nat) :
    ∀ (n : Nat) (ml : XSet) (mx : Nat),
      assignLoop f vset bound fuel n ml mx = some none →
      ∃ k, n ≤ k ∧ k ≤ bound ∧ slot f vset k = none := by
  induction fuel with
  | zero => intro n ml mx h; simp [assignLoop] at h
  | succ fuel ih =>
    intro n ml mx h
    unfold assignLoop at h
    by_cases hle : n ≤ bound
    · have hmod : (n + 1) % U64 = n + 1 := Nat.mod_eq_of_lt (by omega)
      simp only [hle, if_true, hmod] at h
      cases hfa : findRuleA f vset n with
      | some em =>
        rw [hfa] at h
        obtain ⟨k, h1, h2, h3⟩ := ih _ _ _ h
        exact ⟨k, by omega, h2, h3⟩
      | none =>
        rw [hfa] at h
        by_cases hq : 2 * f + 1 ≤ nullQuorum vset n
        · simp only [hq, if_true] at h
          obtain ⟨k, h1, h2, h3⟩ := ih _ _ _ h
          exact ⟨k, by omega, h2, h3⟩
        · exact ⟨n, le_refl n, hle, by simp [slot, hfa, hq]⟩
    · simp [hle] at h

theorem assignLoop_total (f : Nat) (vset : List ViewChange) (bound : Nat)
    (hb : bound + 1 < U64) (fuel : Nat) :
    ∀ (n : Nat) (ml : XSet) (mx : Nat), bound + 1 - n < fuel →
      assignLoop f vset bound fuel n ml mx ≠ none := by
  induction fuel with
  | zero => intro n ml mx h; omega
  | succ fuel ih =>
    intro n ml mx h
    unfold assignLoop
    by_cases hle : n ≤ bound
    · have hmod : (n + 1) % U64 = n + 1 := Nat.mod_eq_of_lt (by omega)
      simp only [hle, if_true, hmod]
      cases hfa : findRuleA f vset n with
      | some em => exact ih _ _ _ (by omega)
      | none =>
        by_cases hq : 2 * f + 1 ≤ nullQuorum vset n
        · simp only [hq, if_true]
          exact ih _ _ _ (by omega)
        · simp [hq]
    · simp [hle]

/-! ## Facts shared by the statements on assignSequenceNumbers -/

theorem assign_some_unfold (fuel f L : Nat) (vset : List ViewChange) (h : Nat) (X : XSet)
    (hret : assignSequenceNumbers fuel f L vset h = some (some X)) :
    ∃ ml mx, assignLoop f vset ((h + L) % U64) fuel ((h + 1) % U64) [] h = some (some (ml, mx))
      ∧ X = pruneNulls ml mx := by
  unfold assignSequenceNumbers at hret
  cases hl : assignLoop f vset ((h + L) % U64) fuel ((h + 1) % U64) [] h with
  | none => simp [hl] at hret
  | some r =>
    cases r with
    | none => simp [hl] at hret
    | some p =>
      obtain ⟨ml, mx⟩ := p
      simp only [hl, Option.some.injEq] at hret
      exact ⟨ml, mx, rfl, hret.symm⟩

theorem U64_pos : 0 < U64 := by unfold U64; positivity

/-- A normal return of `assignSequenceNumbers` has visited every `n` with
`h < n <= h+L` (the bound being the 64-bit sum): rule A or rule B held there and
the map before pruning holds the value stored at `n`. -/
theorem assign_visited (fuel f L : Nat) (vset : List ViewChange) (h : Nat) (ml : XSet) (mx : Nat)
    (hret : assignLoop f vset ((h + L) % U64) fuel ((h + 1) % U64) [] h = some (some (ml, mx)))
    (n : Nat) (hlo : h < n) (hhi : n ≤ (h + L) % U64) :
    slot f vset n ≠ none ∧ mapGet ml n = slot f vset n ∧ (mapKeys ml).Nodup := by
  have hlt : (h + L) % U64 < U64 := Nat.mod_lt _ U64_pos
  by_cases hb : (h + L) % U64 + 1 = U64
  · exact absurd hret
      (assignLoop_no_exit f vset _ hb fuel _ _ _ _ (Nat.mod_lt _ U64_pos))
  · have hb2 : (h + L) % U64 + 1 < U64 := by omega
    have hs : (h + 1) % U64 = h + 1 := Nat.mod_eq_of_lt (by omega)
    rw [hs] at hret
    obtain ⟨h1, _, h3⟩ := assignLoop_exit f vset _ hb2 fuel _ _ _ _ _ hret
    exact ⟨(h1 n (by omega) hhi).1, (h1 n (by omega) hhi).2, h3 (by simp [mapKeys])⟩

theorem a2Quorum_pos (vset : List ViewChange) (n : Nat) (em : ViewChange_PQ)
    (h : 0 < a2Quorum vset n em) :
    ∃ mp ∈ vset, ∃ emp ∈ mp.Qset, a2Match n em emp = true := by
  induction vset with
  | nil => simp [a2Quorum] at h
  | cons m t ih =>
    by_cases hm : 0 < m.Qset.countP (a2Match n em)
    · obtain ⟨emp, he, hp⟩ := List.countP_pos_iff.mp hm
      exact ⟨m, List.mem_cons_self _ _, emp, he, hp⟩
    · have ht : 0 < a2Quorum t n em := by
        simp only [a2Quorum, List.map_cons, List.sum_cons] at h ⊢
        omega
      obtain ⟨mp, hmp, emp, he, hp⟩ := ih ht
      exact ⟨mp, List.mem_cons_of_mem _ hmp, emp, he, hp⟩

theorem members_le_a2Quorum (vset : List ViewChange) (n : Nat) (em : ViewChange_PQ) :
    vset.countP (fun m => decide (∃ e ∈ m.Qset, a2Match n em e = true)) ≤ a2Quorum vset n em := by
  induction vset with
  | nil => simp [a2Quorum]
  | cons m t ih =>
    simp only [a2Quorum, List.map_cons, List.sum_cons, List.countP_cons] at ih ⊢
    by_cases hm : ∃ e ∈ m.Qset, a2Match n em e = true
    · have : 0 < m.Qset.countP (a2Match n em) := List.countP_pos_iff.mpr hm
      simp only [hm, decide_True, if_true]
      omega
    · simp only [hm, decide_False]
      simp only [Bool.false_eq_true, if_false]
      omega

theorem findRuleA_none_iff (f : Nat) (vset : List ViewChange) (n : Nat) :
    findRuleA f vset n = none ↔
      ∀ m ∈ vset, ∀ em ∈ m.Pset,
        ¬ (2 * f + 1 ≤ a1Quorum vset n em ∧ f + 1 ≤ a2Quorum vset n em) := by
  unfold findRuleA psetEntries
  rw [List.find?_eq_none]
  constructor
  · intro h m hm em hem hc
    have := h em (List.mem_flatMap.mpr ⟨m, hm, hem⟩)
    simp [ruleA, hc.1, hc.2] at this
  · intro h em hem
    obtain ⟨m, hm, hem2⟩ := List.mem_flatMap.mp hem
    have := h m hm em hem2
    simp only [ruleA, Bool.and_eq_true, decide_eq_true_eq]
    exact this

theorem nullCounts_iff (n : Nat) (m : ViewChange) :
    nullCounts n m = true ↔ ∀ e ∈ m.Pset, e.SequenceNumber ≠ n := by
  simp [nullCounts, List.all_eq_true]

theorem nullQuorum_eq (vset : List ViewChange) (n : Nat) :
    nullQuorum vset n = vset.countP (fun m => decide (∀ e ∈ m.Pset, e.SequenceNumber ≠ n)) := by
  unfold nullQuorum
  apply List.countP_congr
  intro m _
  simp [nullCounts_iff]

theorem slot_none_iff (f : Nat) (vset : List ViewChange) (n : Nat) :
    slot f vset n = none ↔
      (∀ m ∈ vset, ∀ em ∈ m.Pset,
        ¬ (2 * f + 1 ≤ a1Quorum vset n em ∧ f + 1 ≤ a2Quorum vset n em)) ∧
      vset.countP (fun m => decide (∀ e ∈ m.Pset, e.SequenceNumber ≠ n)) < 2 * f + 1 := by
  rw [← findRuleA_none_iff, ← nullQuorum_eq]
  unfold slot
  cases hfa : findRuleA f vset n with
  | some em => simp
  | none =>
    by_cases hq : 2 * f + 1 ≤ nullQuorum vset n
    · simp [hq]
    · simp only [hq, if_false, true_and]
      simp only [true_iff]
      omega

/-! ## Rule A keeps a prepared request (C1) -/

/-- C1, amended with `cp + L < 2^64`: let `cp < n <= cp+L` and `d` a non-empty
digest.  If some member of `vset` has the P-set entry `(n, d, v)`, at least
`2f+1` members have `H < n` and only P-set entries at `n` with a view below `v`
or with view `v` and digest `d`, at least `f+1` members hold a Q-set entry
`(n, d, w)` with `w >= v`, and every Q-set entry at `n` has digest `d`, then
every assignment `X` returned by `assignSequenceNumbers vset cp` has
`X[n] = d`. -/
theorem assign_keeps_prepared (fuel f L : Nat) (vset : List ViewChange) (cp n : Nat)
    (d : String) (v : Nat) (X : XSet)
    (hL : cp + L < U64) (hlo : cp < n) (hhi : n ≤ cp + L) (hd : d ≠ "")
    (hP : ∃ m ∈ vset, (⟨n, d, v⟩ : ViewChange_PQ) ∈ m.Pset)
    (hA1 : 2 * f + 1 ≤ vset.countP (fun m => decide (m.H < n ∧
      ∀ e ∈ m.Pset, e.SequenceNumber = n → e.View < v ∨ (e.View = v ∧ e.Digest = d))))
    (hA2 : f + 1 ≤ vset.countP (fun m => decide
      (∃ e ∈ m.Qset, e.SequenceNumber = n ∧ e.Digest = d ∧ v ≤ e.View)))
    (hQ : ∀ m ∈ vset, ∀ e ∈ m.Qset, e.SequenceNumber = n → e.Digest = d)
    (hret : assignSequenceNumbers fuel f L vset cp = some (some X)) :
    mapGet X n = some d := by
  obtain ⟨ml, mx, hloop, hX⟩ := assign_some_unfold fuel f L vset cp X hret
  have hhi2 : n ≤ (cp + L) % U64 := by rw [Nat.mod_eq_of_lt hL]; exact hhi
  obtain ⟨_, hget, hnd⟩ := assign_visited fuel f L vset cp ml mx hloop n hlo hhi2
  -- the entry of hypothesis (i) passes both tests
  obtain ⟨m0, hm0, hem0⟩ := hP
  have h1 : 2 * f + 1 ≤ a1Quorum vset n ⟨n, d, v⟩ := by
    refine le_trans hA1 (List.countP_mono_left ?_)
    intro m _ hm
    simp only [decide_eq_true_eq] at hm
    simp only [a1Counts, Bool.and_eq_true, Bool.not_eq_true', decide_eq_false_iff_not,
      List.all_eq_true, Bool.or_eq_true, decide_eq_true_eq, not_and, Bool.not_eq_false]
    refine ⟨by omega, ?_⟩
    intro e he
    by_cases hne : n = e.SequenceNumber
    · rcases hm.2 e he hne.symm with h3 | h3
      · simp [h3]
      · simp [h3.1, h3.2]
    · simp [hne]
  have h2 : f + 1 ≤ a2Quorum vset n ⟨n, d, v⟩ := by
    refine le_trans hA2 (le_trans (List.countP_mono_left ?_) (members_le_a2Quorum vset n _))
    intro m _ hm
    simp only [decide_eq_true_eq] at hm ⊢
    obtain ⟨e, he, h3, h4, h5⟩ := hm
    exact ⟨e, he, by simp [a2Match, h3, h4, h5]⟩
  have hpass : ruleA f vset n ⟨n, d, v⟩ = true := by simp [ruleA, h1, h2]
  have hmem : (⟨n, d, v⟩ : ViewChange_PQ) ∈ psetEntries vset :=
    List.mem_flatMap.mpr ⟨m0, hm0, hem0⟩
  -- the entry found first has the same digest
  cases hfa : findRuleA f vset n with
  | none =>
    have := (List.find?_eq_none.mp hfa) _ hmem
    exact absurd hpass this
  | some em =>
    have hem : ruleA f vset n em = true := List.find?_some hfa
    have hq : 0 < a2Quorum vset n em := by
      simp only [ruleA, Bool.and_eq_true, decide_eq_true_eq] at hem
      omega
    obtain ⟨mp, hmp, emp, hemp, hmatch⟩ := a2Quorum_pos vset n em hq
    simp only [a2Match, Bool.and_eq_true, decide_eq_true_eq] at hmatch
    have hdig : em.Digest = d := by
      rw [← hmatch.2]
      exact hQ mp hmp emp hemp hmatch.1.1.symm
    have hml : mapGet ml n = some d := by
      rw [hget]
      simp [slot, hfa, hdig]
    rw [hX, pruneNulls, mapGet_filter _ _ _ hnd, hml]
    simp [hd]

/-! ## A failed assignment and the null request (C7, C8) -/

/-- C7: with `cp + L < 2^64 - 1`, `assignSequenceNumbers vset cp` returns `nil`
exactly when some `n` with `cp < n <= cp + L` has no P-set entry of `vset`
passing both the A1 and the A2 test and fewer than `2f+1` members without a
P-set entry at `n`; otherwise it returns a map.  More than `L` iterations of
the loop are never needed. -/
theorem assign_nil_iff (fuel f L : Nat) (vset : List ViewChange) (cp : Nat)
    (hL : cp + L < U64 - 1) (hfuel : L < fuel) :
    (assignSequenceNumbers fuel f L vset cp = some none ↔
      ∃ n, cp < n ∧ n ≤ cp + L ∧
        (∀ m ∈ vset, ∀ em ∈ m.Pset,
          ¬ (2 * f + 1 ≤ a1Quorum vset n em ∧ f + 1 ≤ a2Quorum vset n em)) ∧
        vset.countP (fun m => decide (∀ e ∈ m.Pset, e.SequenceNumber ≠ n)) < 2 * f + 1) ∧
    ((¬ ∃ n, cp < n ∧ n ≤ cp + L ∧
        (∀ m ∈ vset, ∀ em ∈ m.Pset,
          ¬ (2 * f + 1 ≤ a1Quorum vset n em ∧ f + 1 ≤ a2Quorum vset n em)) ∧
        vset.countP (fun m => decide (∀ e ∈ m.Pset, e.SequenceNumber ≠ n)) < 2 * f + 1) →
      ∃ X, assignSequenceNumbers fuel f L vset cp = some (some X)) := by
  have hb : (cp + L) % U64 = cp + L := Nat.mod_eq_of_lt (by omega)
  have hs : (cp + 1) % U64 = cp + 1 := Nat.mod_eq_of_lt (by omega)
  have hb2 : cp + L + 1 < U64 := by omega
  have htot := assignLoop_total f vset (cp + L) hb2 fuel (cp + 1) [] cp (by omega)
  have hiff : assignSequenceNumbers fuel f L vset cp = some none ↔
      ∃ n, cp < n ∧ n ≤ cp + L ∧ slot f vset n = none := by
    unfold assignSequenceNumbers
    rw [hb, hs]
    cases hl : assignLoop f vset (cp + L) fuel (cp + 1) [] cp with
    | none => exact absurd hl htot
    | some r =>
      cases r with
      | none =>
        obtain ⟨k, h1, h2, h3⟩ := assignLoop_nil f vset (cp + L) hb2 fuel _ _ _ hl
        simp only [true_iff]
        exact ⟨k, by omega, h2, h3⟩
      | some p =>
        obtain ⟨ml, mx⟩ := p
        obtain ⟨h1, _, _⟩ := assignLoop_exit f vset (cp + L) hb2 fuel _ _ _ _ _ hl
        constructor
        · intro h; simp at h
        · rintro ⟨k, hk1, hk2, hk3⟩
          exact absurd hk3 (h1 k (by omega) hk2).1
  have hiff2 : assignSequenceNumbers fuel f L vset cp = some none ↔
      ∃ n, cp < n ∧ n ≤ cp + L ∧
        (∀ m ∈ vset, ∀ em ∈ m.Pset,
          ¬ (2 * f + 1 ≤ a1Quorum vset n em ∧ f + 1 ≤ a2Quorum vset n em)) ∧
        vset.countP (fun m => decide (∀ e ∈ m.Pset, e.SequenceNumber ≠ n)) < 2 * f + 1 := by
    rw [hiff]
    constructor
    · rintro ⟨n, h1, h2, h3⟩
      exact ⟨n, h1, h2, (slot_none_iff f vset n).mp h3⟩
    · rintro ⟨n, h1, h2, h3⟩
      exact ⟨n, h1, h2, (slot_none_iff f vset n).mpr h3⟩
  refine ⟨hiff2, ?_⟩
  intro hno
  have hne : assignSequenceNumbers fuel f L vset cp ≠ some none := fun h => hno (hiff2.mp h)
  unfold assignSequenceNumbers at hne ⊢
  rw [hb, hs] at hne ⊢
  cases hl : assignLoop f vset (cp + L) fuel (cp + 1) [] cp with
  | none => exact absurd hl htot
  | some r =>
    cases r with
    | none => simp [hl] at hne
    | some p => exact ⟨_, rfl⟩

/-- C8, amended with `cp + L < 2^64`: if `assignSequenceNumbers vset cp`
returns a map `X`, then at every `n` with `cp < n <= cp+L` at which no P-set
entry of `vset` passes the A1 and A2 tests, at least `2f+1` members of `vset`
have no P-set entry with sequence number `n`, and if `n` is a key of `X` its
value is the empty string. -/
theorem assign_null_rule (fuel f L : Nat) (vset : List ViewChange) (cp : Nat) (X : XSet)
    (hL : cp + L < U64)
    (hret : assignSequenceNumbers fuel f L vset cp = some (some X))
    (n : Nat) (hlo : cp < n) (hhi : n ≤ cp + L)
    (hno : ∀ m ∈ vset, ∀ em ∈ m.Pset,
      ¬ (2 * f + 1 ≤ a1Quorum vset n em ∧ f + 1 ≤ a2Quorum vset n em)) :
    2 * f + 1 ≤ vset.countP (fun m => decide (∀ e ∈ m.Pset, e.SequenceNumber ≠ n)) ∧
    ∀ d, mapGet X n = some d → d = "" := by
  obtain ⟨ml, mx, hloop, hX⟩ := assign_some_unfold fuel f L vset cp X hret
  have hhi2 : n ≤ (cp + L) % U64 := by rw [Nat.mod_eq_of_lt hL]; exact hhi
  obtain ⟨hsome, hget, hnd⟩ := assign_visited fuel f L vset cp ml mx hloop n hlo hhi2
  have hfa : findRuleA f vset n = none := (findRuleA_none_iff f vset n).mpr hno
  have hq : 2 * f + 1 ≤ nullQuorum vset n := by
    by_contra hc
    exact hsome (by simp [slot, hfa, hc])
  have hslot : slot f vset n = some "" := by simp [slot, hfa, hq]
  refine ⟨by rw [← nullQuorum_eq]; exact hq, ?_⟩
  intro d hdX
  rw [hX, pruneNulls, mapGet_filter _ _ _ hnd, hget, hslot] at hdX
  simp only [Option.some_bind] at hdX
  split at hdX
  · exact (Option.some.inj hdX).symm
  · cases hdX

/-! ## correctViewChange (C6) -/

/-- C6: when `vc.H + L < 2^64`, `correctViewChange vc` is true exactly when
every entry `p` of `vc.Pset` and of `vc.Qset` has `p.View < vc.View` and
`vc.H < p.SequenceNumber <= vc.H + L`, and every entry `c` of `vc.Cset` has
`vc.H <= c.SequenceNumber <= vc.H + L`. -/
theorem correctViewChange_iff (L : Nat) (vc : ViewChange) (hL : vc.H + L < 2 ^ 64) :
    correctViewChange L vc = true ↔
      (∀ p, p ∈ vc.Pset ∨ p ∈ vc.Qset →
        p.View < vc.View ∧ vc.H < p.SequenceNumber ∧ p.SequenceNumber ≤ vc.H + L) ∧
      (∀ c ∈ vc.Cset, vc.H ≤ c.SequenceNumber ∧ c.SequenceNumber ≤ vc.H + L) := by
  have hmod : (vc.H + L) % U64 = vc.H + L := Nat.mod_eq_of_lt (by unfold U64; exact hL)
  simp only [correctViewChange, hmod, Bool.and_eq_true, List.all_eq_true, List.mem_append,
    decide_eq_true_eq, gt_iff_lt, ge_iff_le, and_assoc]

/-! ## selectInitialCheckpoint (C5) -/

theorem selectStep_facts (f : Nat) (acc : Nat × Bool) (e : ViewChange_C × List ViewChange)
    (hinv : acc.2 = false → acc.1 = 0) :
    ((selectStep f acc e).2 = false → (selectStep f acc e).1 = 0) ∧
    (selectStep f acc e = acc ∨
      ((f < e.2.length ∧ 2 * f < e.2.countP (fun vc => decide (vc.H ≤ e.1.SequenceNumber))) ∧
        selectStep f acc e = (e.1.SequenceNumber, true))) ∧
    acc.1 ≤ (selectStep f acc e).1 ∧
    (acc.2 = true → (selectStep f acc e).2 = true) ∧
    ((f < e.2.length ∧ 2 * f < e.2.countP (fun vc => decide (vc.H ≤ e.1.SequenceNumber))) →
      e.1.SequenceNumber ≤ (selectStep f acc e).1 ∧ (selectStep f acc e).2 = true) := by
  by_cases h1 : e.2.length ≤ f
  · have hs : selectStep f acc e = acc := by simp [selectStep, h1]
    rw [hs]
    exact ⟨hinv, Or.inl rfl, le_refl _, id, fun h => by omega⟩
  · by_cases h2 : e.2.countP (fun vc => decide (vc.H ≤ e.1.SequenceNumber)) ≤ 2 * f
    · have hs : selectStep f acc e = acc := by simp [selectStep, checkpointQuorum, h1, h2]
      rw [hs]
      exact ⟨hinv, Or.inl rfl, le_refl _, id, fun h => by omega⟩
    · by_cases h3 : acc.1 ≤ e.1.SequenceNumber
      · have hs : selectStep f acc e = (e.1.SequenceNumber, true) := by
          simp only [selectStep, checkpointQuorum, h1, h2, h3, if_true, if_false]
        rw [hs]
        exact ⟨fun h => (by cases h), Or.inr ⟨⟨by omega, by omega⟩, rfl⟩, h3, fun _ => rfl,
          fun _ => ⟨le_refl _, rfl⟩⟩
      · have hs : selectStep f acc e = acc := by
          simp only [selectStep, checkpointQuorum, h1, h2, h3, if_false]
        rw [hs]
        have hok : acc.2 = true := by
          cases hb : acc.2 with
          | true => rfl
          | false => have := hinv hb; omega
        exact ⟨hinv, Or.inl rfl, le_refl _, id, fun _ => ⟨by omega, hok⟩⟩

theorem foldl_selectStep (f : Nat) (order : CheckpointMap) :
    ∀ (acc : Nat × Bool), (acc.2 = false → acc.1 = 0) →
      ((order.foldl (selectStep f) acc).2 = false → (order.foldl (selectStep f) acc).1 = 0) ∧
      (order.foldl (selectStep f) acc = acc ∨
        ∃ e ∈ order,
          (f < e.2.length ∧ 2 * f < e.2.countP (fun vc => decide (vc.H ≤ e.1.SequenceNumber))) ∧
          order.foldl (selectStep f) acc = (e.1.SequenceNumber, true)) ∧
      acc.1 ≤ (order.foldl (selectStep f) acc).1 ∧
      (acc.2 = true → (order.foldl (selectStep f) acc).2 = true) ∧
      (∀ e ∈ order,
        (f < e.2.length ∧ 2 * f < e.2.countP (fun vc => decide (vc.H ≤ e.1.SequenceNumber))) →
        e.1.SequenceNumber ≤ (order.foldl (selectStep f) acc).1 ∧
          (order.foldl (selectStep f) acc).2 = true) := by
  induction order with
  | nil =>
    intro acc hinv
    exact ⟨hinv, Or.inl rfl, le_refl _, id, fun e he => by cases he⟩
  | cons e0 t ih =>
    intro acc hinv
    obtain ⟨s1, s2, s3, s4, s5⟩ := selectStep_facts f acc e0 hinv
    obtain ⟨t1, t2, t3, t4, t5⟩ := ih (selectStep f acc e0) s1
    simp only [List.foldl_cons]
    refine ⟨t1, ?_, le_trans s3 t3, fun h => t4 (s4 h), ?_⟩
    · rcases t2 with t2 | ⟨e, he, hp, hr⟩
      · rcases s2 with s2 | ⟨hp, hr⟩
        · left; rw [t2, s2]
        · right; exact ⟨e0, List.mem_cons_self _ _, hp, by rw [t2, hr]⟩
      · right; exact ⟨e, List.mem_cons_of_mem _ he, hp, hr⟩
    · intro e he hp
      rcases List.mem_cons.mp he with rfl | he
      · obtain ⟨a, b⟩ := s5 hp
        exact ⟨le_trans a t3, t4 b⟩
      · exact t5 e he hp

theorem buildCheckpoints_foldl_nil (vset : List ViewChange) (h : ∀ vc ∈ vset, vc.Cset = []) :
    ∀ m : CheckpointMap,
      vset.foldl (fun m vc => vc.Cset.foldl (fun m0 c => addCheckpoint m0 c vc) m) m = m := by
  induction vset with
  | nil => intro m; rfl
  | cons vc t ih =>
    intro m
    have h1 : vc.Cset = [] := h vc (List.mem_cons_self _ _)
    have h2 : ∀ x ∈ t, x.Cset = [] := fun x hx => h x (List.mem_cons_of_mem _ hx)
    simp only [List.foldl_cons, h1, List.foldl_nil]
    exact ih h2 m

/-- C5: whatever order `order` the candidate map is visited in,
`selectInitialCheckpoint` returns `ok = true` exactly when some entry of the map
passes both tests (its list of attesting view-changes has more than `f` entries
and more than `2f` of them have `H <= n`); the returned sequence number is then
the largest `n` among the passing entries; when no entry passes, in particular
when every `Cset` is empty, the result is `(0, false)`. -/
theorem selectInitialCheckpoint_largest (f : Nat) (vset : List ViewChange)
    (order : CheckpointMap) (hperm : order.Perm (buildCheckpoints vset)) :
    ((selectInitialCheckpointIn f order).2 = true ↔
      ∃ e ∈ buildCheckpoints vset,
        f < e.2.length ∧ 2 * f < e.2.countP (fun vc => decide (vc.H ≤ e.1.SequenceNumber))) ∧
    ((selectInitialCheckpointIn f order).2 = true →
      (∃ e ∈ buildCheckpoints vset,
        (f < e.2.length ∧ 2 * f < e.2.countP (fun vc => decide (vc.H ≤ e.1.SequenceNumber))) ∧
        e.1.SequenceNumber = (selectInitialCheckpointIn f order).1) ∧
      ∀ e ∈ buildCheckpoints vset,
        (f < e.2.length ∧ 2 * f < e.2.countP (fun vc => decide (vc.H ≤ e.1.SequenceNumber))) →
        e.1.SequenceNumber ≤ (selectInitialCheckpointIn f order).1) ∧
    ((¬ ∃ e ∈ buildCheckpoints vset,
        f < e.2.length ∧ 2 * f < e.2.countP (fun vc => decide (vc.H ≤ e.1.SequenceNumber))) →
      selectInitialCheckpointIn f order = (0, false)) ∧
    ((∀ vc ∈ vset, vc.Cset = []) → selectInitialCheckpointIn f order = (0, false)) := by
  have hmem : ∀ e, e ∈ order ↔ e ∈ buildCheckpoints vset := fun e => hperm.mem_iff
  obtain ⟨_, t2, _, _, t5⟩ := foldl_selectStep f order (0, false) (fun _ => rfl)
  have hfold : selectInitialCheckpointIn f order = order.foldl (selectStep f) (0, false) := by
    unfold selectInitialCheckpointIn
    by_cases h0 : order.length = 0
    · have : order = [] := List.length_eq_zero.mp h0
      subst this
      simp
    · simp [h0]
  rw [hfold]
  have hnone : (¬ ∃ e ∈ buildCheckpoints vset,
        f < e.2.length ∧ 2 * f < e.2.countP (fun vc => decide (vc.H ≤ e.1.SequenceNumber))) →
      order.foldl (selectStep f) (0, false) = (0, false) := by
    intro hno
    rcases t2 with t2 | ⟨e, he, hp, _⟩
    · exact t2
    · exact absurd ⟨e, (hmem e).mp he, hp⟩ hno
  refine ⟨⟨?_, ?_⟩, ?_, hnone, ?_⟩
  · intro hok
    rcases t2 with t2 | ⟨e, he, hp, _⟩
    · rw [t2] at hok; cases hok
    · exact ⟨e, (hmem e).mp he, hp⟩
  · rintro ⟨e, he, hp⟩
    exact (t5 e ((hmem e).mpr he) hp).2
  · intro hok
    refine ⟨?_, fun e he hp => (t5 e ((hmem e).mpr he) hp).1⟩
    rcases t2 with t2 | ⟨e, he, hp, hr⟩
    · rw [t2] at hok; cases hok
    · exact ⟨e, (hmem e).mp he, hp, by rw [hr]⟩
  · intro hempty
    apply hnone
    have hb : buildCheckpoints vset = [] := buildCheckpoints_foldl_nil vset hempty []
    rw [hb]
    simp

/-! ## The P and Q sets built by sendViewChange (C10) -/

theorem psetStep_eq_mergeStep (prepared : String → Nat → Nat → Bool)
    (m : List (Nat × ViewChange_PQ)) (e : (Nat × Nat) × MsgCert) :
    psetStep prepared m e = mergeStep (psetKeyed prepared) m e := by
  unfold psetStep mergeStep psetKeyed psetCand
  cases hpp : e.2.prePrepare with
  | none => simp
  | some pp =>
    by_cases hp : prepared pp.RequestDigest e.1.1 e.1.2 = true
    · simp [hp]
    · simp [hp]

theorem qsetStep_eq_mergeStep (prePrepared : String → Nat → Nat → Bool)
    (m : List ((String × Nat) × ViewChange_PQ)) (e : (Nat × Nat) × MsgCert) :
    qsetStep prePrepared m e = mergeStep (qsetKeyed prePrepared) m e := by
  unfold qsetStep mergeStep qsetKeyed qsetCand
  cases hpp : e.2.prePrepare with
  | none => simp
  | some pp =>
    by_cases hp : prePrepared pp.RequestDigest e.1.1 e.1.2 = true
    · simp [hp]
    · simp [hp]

theorem foldl_congr_step {α β : Type} (g1 g2 : β → α → β) (h : ∀ b a, g1 b a = g2 b a)
    (l : List α) : ∀ b, l.foldl g1 b = l.foldl g2 b := by
  induction l with
  | nil => intro b; rfl
  | cons a t ih => intro b; simp only [List.foldl_cons, h, ih]

theorem mergeStep_get_other {E κ : Type} [DecidableEq κ]
    (cand : E → Option (κ × ViewChange_PQ)) (m : List (κ × ViewChange_PQ)) (e : E) (k : κ)
    (h : ∀ c, cand e ≠ some (k, c)) :
    mapGet (mergeStep cand m e) k = mapGet m k := by
  unfold mergeStep
  cases hc : cand e with
  | none => rfl
  | some kc =>
    obtain ⟨k0, c0⟩ := kc
    have hk : ¬ k0 = k := by
      intro hk
      subst hk
      exact h c0 hc
    cases hg : mapGet m k0 with
    | none => simp [hg, mapGet_mapSet, hk]
    | some p =>
      by_cases hv : p.View > c0.View
      · simp [hg, hv]
      · simp [hg, hv, mapGet_mapSet, hk]

theorem mergeStep_get_same {E κ : Type} [DecidableEq κ]
    (cand : E → Option (κ × ViewChange_PQ)) (m : List (κ × ViewChange_PQ)) (e : E) (k : κ)
    (c : ViewChange_PQ) (h : cand e = some (k, c)) :
    (mergeStep cand m e = m ∧ ∃ p, mapGet m k = some p ∧ c.View < p.View) ∨
    (mapGet (mergeStep cand m e) k = some c ∧ ∀ p, mapGet m k = some p → p.View ≤ c.View) := by
  unfold mergeStep
  cases hg : mapGet m k with
  | none =>
    right
    simp [h, hg, mapGet_mapSet]
  | some p =>
    by_cases hv : p.View > c.View
    · left
      simp only [h, hg, hv, if_true, true_and]
      exact ⟨p, rfl, hv⟩
    · right
      simp only [h, hg, hv, if_false, mapGet_mapSet, if_true, true_and]
      intro p0 hp0
      cases hp0
      omega

/-- After the loop, the entry under `k` is the previous one when every
certificate entry for `k` has a smaller view, and otherwise a certificate
entry for `k` whose view is at least that of the others and of the previous
entry. -/
theorem mergeFold_spec {E κ : Type} [DecidableEq κ] (cand : E → Option (κ × ViewChange_PQ))
    (k : κ) (es : List E) :
    ∀ m : List (κ × ViewChange_PQ),
      (mapGet (es.foldl (mergeStep cand) m) k = mapGet m k ∧
        ∀ e ∈ es, ∀ c, cand e = some (k, c) → ∃ p, mapGet m k = some p ∧ c.View < p.View) ∨
      (∃ e ∈ es, ∃ q, cand e = some (k, q) ∧
        mapGet (es.foldl (mergeStep cand) m) k = some q ∧
        (∀ e1 ∈ es, ∀ c, cand e1 = some (k, c) → c.View ≤ q.View) ∧
        ∀ p, mapGet m k = some p → p.View ≤ q.View) := by
  induction es with
  | nil =>
    intro m
    left
    exact ⟨rfl, fun e he => by cases he⟩
  | cons e0 t ih =>
    intro m
    simp only [List.foldl_cons]
    by_cases hc : ∃ c, cand e0 = some (k, c)
    · obtain ⟨c0, hc0⟩ := hc
      rcases mergeStep_get_same cand m e0 k c0 hc0 with ⟨hsame, p, hp, hlt⟩ | ⟨hget, hle⟩
      · rw [hsame]
        rcases ih m with ⟨h1, h2⟩ | ⟨e, he, q, hq, hr, hmax, hprev⟩
        · left
          refine ⟨h1, ?_⟩
          intro e he c hcand
          rcases List.mem_cons.mp he with rfl | he
          · rw [hc0] at hcand
            cases hcand
            exact ⟨p, hp, hlt⟩
          · exact h2 e he c hcand
        · right
          refine ⟨e, List.mem_cons_of_mem _ he, q, hq, hr, ?_, hprev⟩
          intro e1 he1 c hcand
          rcases List.mem_cons.mp he1 with rfl | he1
          · rw [hc0] at hcand
            cases hcand
            have := hprev p hp
            omega
          · exact hmax e1 he1 c hcand
      · right
        rcases ih (mergeStep cand m e0) with ⟨h1, h2⟩ | ⟨e, he, q, hq, hr, hmax, hprev⟩
        · refine ⟨e0, List.mem_cons_self _ _, c0, hc0, by rw [h1, hget], ?_, hle⟩
          intro e1 he1 c hcand
          rcases List.mem_cons.mp he1 with rfl | he1
          · rw [hc0] at hcand
            cases hcand
            exact le_refl _
          · obtain ⟨p, hp, hlt⟩ := h2 e1 he1 c hcand
            rw [hget] at hp
            cases hp
            omega
        · have hcq : c0.View ≤ q.View := hprev c0 hget
          refine ⟨e, List.mem_cons_of_mem _ he, q, hq, hr, ?_, ?_⟩
          · intro e1 he1 c hcand
            rcases List.mem_cons.mp he1 with rfl | he1
            · rw [hc0] at hcand
              cases hcand
              exact hcq
            · exact hmax e1 he1 c hcand
          · intro p hp
            exact le_trans (hle p hp) hcq
    · have hno : ∀ c, cand e0 ≠ some (k, c) := fun c h => hc ⟨c, h⟩
      have hget := mergeStep_get_other cand m e0 k hno
      rcases ih (mergeStep cand m e0) with ⟨h1, h2⟩ | ⟨e, he, q, hq, hr, hmax, hprev⟩
      · left
        refine ⟨by rw [h1, hget], ?_⟩
        intro e he c hcand
        rcases List.mem_cons.mp he with rfl | he
        · exact absurd hcand (hno c)
        · rw [← hget]
          exact h2 e he c hcand
      · right
        refine ⟨e, List.mem_cons_of_mem _ he, q, hq, hr, ?_, ?_⟩
        · intro e1 he1 c hcand
          rcases List.mem_cons.mp he1 with rfl | he1
          · exact absurd hcand (hno c)
          · exact hmax e1 he1 c hcand
        · intro p hp
          rw [← hget] at hp
          exact hprev p hp

/-- The entry under `k` after the loop does not depend on the order in which
the certificates are visited, when two certificates that give entries of the
same view under one key give the same entry. -/
theorem mergeFold_perm {E κ : Type} [DecidableEq κ] (cand : E → Option (κ × ViewChange_PQ))
    (es1 es2 : List E) (hperm : es1.Perm es2)
    (hdist : ∀ e1 ∈ es2, ∀ e2 ∈ es2, ∀ k c1 c2, cand e1 = some (k, c1) →
      cand e2 = some (k, c2) → c1.View = c2.View → c1 = c2)
    (m : List (κ × ViewChange_PQ)) (k : κ) :
    mapGet (es1.foldl (mergeStep cand) m) k = mapGet (es2.foldl (mergeStep cand) m) k := by
  have hmem : ∀ e, e ∈ es1 ↔ e ∈ es2 := fun e => hperm.mem_iff
  rcases mergeFold_spec cand k es1 m with ⟨h1, h2⟩ | ⟨e, he, q, hq, hr, hmax, hprev⟩
  · rcases mergeFold_spec cand k es2 m with ⟨g1, _⟩ | ⟨e, he, q, hq, hr, hmax, hprev⟩
    · rw [h1, g1]
    · obtain ⟨p, hp, hlt⟩ := h2 e ((hmem e).mpr he) q hq
      have := hprev p hp
      omega
  · rcases mergeFold_spec cand k es2 m with ⟨_, g2⟩ | ⟨e2, he2, q2, hq2, hr2, hmax2, _⟩
    · obtain ⟨p, hp, hlt⟩ := g2 e ((hmem e).mp he) q hq
      have := hprev p hp
      omega
    · have h1 : q2.View ≤ q.View := hmax e2 ((hmem e2).mpr he2) q2 hq2
      have h2 : q.View ≤ q2.View := hmax2 e ((hmem e).mp he) q hq
      have : q = q2 := hdist e ((hmem e).mp he) e2 he2 k q q2 hq hq2 (by omega)
      rw [hr, hr2, this]

/-- When some certificate gives an entry for `k`, the entry under `k` after the
loop is the one of greatest view among the previous entry and the certificate
entries for `k`; the previous entry stays exactly when its view is larger than
that of every certificate entry. -/
theorem mergeFold_greatest {E κ : Type} [DecidableEq κ] (cand : E → Option (κ × ViewChange_PQ))
    (store order : List E) (hperm : order.Perm store) (m : List (κ × ViewChange_PQ)) (k : κ)
    (hex : ∃ e ∈ store, ∃ c, cand e = some (k, c)) :
    ∃ q, mapGet (order.foldl (mergeStep cand) m) k = some q ∧
      ((∃ e ∈ store, cand e = some (k, q)) ∨
        (mapGet m k = some q ∧ ∀ e ∈ store, ∀ c, cand e = some (k, c) → c.View < q.View)) ∧
      (∀ e ∈ store, ∀ c, cand e = some (k, c) → c.View ≤ q.View) ∧
      (∀ p, mapGet m k = some p → p.View ≤ q.View) ∧
      (∀ p, mapGet m k = some p →
        (∀ e ∈ store, ∀ c, cand e = some (k, c) → c.View < p.View) → q = p) := by
  have hmem : ∀ e, e ∈ order ↔ e ∈ store := fun e => hperm.mem_iff
  obtain ⟨e0, he0, c0, hc0⟩ := hex
  rcases mergeFold_spec cand k order m with ⟨h1, h2⟩ | ⟨e, he, q, hq, hr, hmax, hprev⟩
  · obtain ⟨p, hp, hlt⟩ := h2 e0 ((hmem e0).mpr he0) c0 hc0
    have hall : ∀ e ∈ store, ∀ c, cand e = some (k, c) → c.View < p.View := by
      intro e he c hc
      obtain ⟨p1, hp1, hlt1⟩ := h2 e ((hmem e).mpr he) c hc
      rw [hp] at hp1
      cases hp1
      exact hlt1
    refine ⟨p, by rw [h1, hp], Or.inr ⟨hp, hall⟩, fun e he c hc => le_of_lt (hall e he c hc), ?_, ?_⟩
    · intro p1 hp1
      rw [hp] at hp1
      cases hp1
      exact le_refl _
    · intro p1 hp1 _
      rw [hp] at hp1
      cases hp1
      rfl
  · refine ⟨q, hr, Or.inl ⟨e, (hmem e).mp he, hq⟩,
      fun e1 he1 c hc => hmax e1 ((hmem e1).mpr he1) c hc, hprev, ?_⟩
    intro p hp hall
    have h1 := hall e ((hmem e).mp he) q hq
    have h2 := hprev p hp
    omega

theorem eq_of_mem_of_key_eq {κ α : Type} (l : List (κ × α)) (h : (mapKeys l).Nodup)
    (a b : κ × α) (ha : a ∈ l) (hb : b ∈ l) (hk : a.1 = b.1) : a = b := by
  induction l with
  | nil => cases ha
  | cons x t ih =>
    have h2 : x.1 ∉ mapKeys t ∧ (mapKeys t).Nodup := by
      simpa [mapKeys] using h
    have hkey : ∀ y ∈ t, y.1 ∈ mapKeys t := fun y hy => List.mem_map_of_mem Prod.fst hy
    rcases List.mem_cons.mp ha with ha1 | ha1
    · rcases List.mem_cons.mp hb with hb1 | hb1
      · rw [ha1, hb1]
      · have : x.1 ∈ mapKeys t := by
          rw [← ha1, hk]
          exact hkey b hb1
        exact absurd this h2.1
    · rcases List.mem_cons.mp hb with hb1 | hb1
      · have : x.1 ∈ mapKeys t := by
          rw [← hb1, ← hk]
          exact hkey a ha1
        exact absurd this h2.1
      · exact ih h2.2 ha1 hb1

theorem psetCand_fields (prepared : String → Nat → Nat → Bool) (e : (Nat × Nat) × MsgCert)
    (c : ViewChange_PQ) (h : psetCand prepared e = some c) :
    c.SequenceNumber = e.1.2 ∧ c.View = e.1.1 := by
  unfold psetCand at h
  cases hpp : e.2.prePrepare with
  | none => simp [hpp] at h
  | some pp =>
    by_cases hp : prepared pp.RequestDigest e.1.1 e.1.2 = true
    · simp only [hpp, hp, Bool.not_true, Bool.false_eq_true, if_false, Option.some.injEq] at h
      subst h
      exact ⟨rfl, rfl⟩
    · simp [hpp, hp] at h

theorem qsetCand_fields (prePrepared : String → Nat → Nat → Bool) (e : (Nat × Nat) × MsgCert)
    (c : ViewChange_PQ) (h : qsetCand prePrepared e = some c) :
    c.SequenceNumber = e.1.2 ∧ c.View = e.1.1 := by
  unfold qsetCand at h
  cases hpp : e.2.prePrepare with
  | none => simp [hpp] at h
  | some pp =>
    by_cases hp : prePrepared pp.RequestDigest e.1.1 e.1.2 = true
    · simp only [hpp, hp, Bool.not_true, Bool.false_eq_true, if_false, Option.some.injEq] at h
      subst h
      exact ⟨rfl, rfl⟩
    · simp [hpp, hp] at h

theorem psetKeyed_iff (prepared : String → Nat → Nat → Bool) (e : (Nat × Nat) × MsgCert)
    (n : Nat) (c : ViewChange_PQ) :
    psetKeyed prepared e = some (n, c) ↔ e.1.2 = n ∧ psetCand prepared e = some c := by
  unfold psetKeyed
  cases h : psetCand prepared e with
  | none => simp
  | some c0 =>
    simp only [Option.map_some', Option.some.injEq, Prod.mk.injEq]

theorem qsetKeyed_iff (prePrepared : String → Nat → Nat → Bool) (e : (Nat × Nat) × MsgCert)
    (d : String) (n : Nat) (c : ViewChange_PQ) :
    qsetKeyed prePrepared e = some ((d, n), c) ↔
      e.1.2 = n ∧ qsetCand prePrepared e = some c ∧ c.Digest = d := by
  unfold qsetKeyed
  cases h : qsetCand prePrepared e with
  | none => simp
  | some c0 =>
    simp only [Option.map_some', Option.some.injEq, Prod.mk.injEq]
    constructor
    · rintro ⟨⟨h1, h2⟩, h3⟩
      subst h3
      exact ⟨h2, rfl, h1⟩
    · rintro ⟨h1, h2, h3⟩
      subst h2
      exact ⟨⟨h3, h1⟩, rfl⟩

theorem psetKeyed_distinct (prepared : String → Nat → Nat → Bool) (store : CertStore)
    (hkeys : (mapKeys store).Nodup) :
    ∀ e1 ∈ store, ∀ e2 ∈ store, ∀ k c1 c2, psetKeyed prepared e1 = some (k, c1) →
      psetKeyed prepared e2 = some (k, c2) → c1.View = c2.View → c1 = c2 := by
  intro e1 he1 e2 he2 k c1 c2 h1 h2 hv
  obtain ⟨a1, b1⟩ := (psetKeyed_iff prepared e1 k c1).mp h1
  obtain ⟨a2, b2⟩ := (psetKeyed_iff prepared e2 k c2).mp h2
  have f1 := psetCand_fields prepared e1 c1 b1
  have f2 := psetCand_fields prepared e2 c2 b2
  have hk : e1.1 = e2.1 := Prod.ext (by rw [← f1.2, ← f2.2, hv]) (by rw [a1, a2])
  have := eq_of_mem_of_key_eq store hkeys e1 e2 he1 he2 hk
  subst this
  rw [b1] at b2
  exact Option.some.inj b2

theorem qsetKeyed_distinct (prePrepared : String → Nat → Nat → Bool) (store : CertStore)
    (hkeys : (mapKeys store).Nodup) :
    ∀ e1 ∈ store, ∀ e2 ∈ store, ∀ k c1 c2, qsetKeyed prePrepared e1 = some (k, c1) →
      qsetKeyed prePrepared e2 = some (k, c2) → c1.View = c2.View → c1 = c2 := by
  intro e1 he1 e2 he2 k c1 c2 h1 h2 hv
  obtain ⟨d, n⟩ := k
  obtain ⟨a1, b1, _⟩ := (qsetKeyed_iff prePrepared e1 d n c1).mp h1
  obtain ⟨a2, b2, _⟩ := (qsetKeyed_iff prePrepared e2 d n c2).mp h2
  have f1 := qsetCand_fields prePrepared e1 c1 b1
  have f2 := qsetCand_fields prePrepared e2 c2 b2
  have hk : e1.1 = e2.1 := Prod.ext (by rw [← f1.2, ← f2.2, hv]) (by rw [a1, a2])
  have := eq_of_mem_of_key_eq store hkeys e1 e2 he1 he2 hk
  subst this
  rw [b1] at b2
  exact Option.some.inj b2

theorem psetLoop_eq (prepared : String → Nat → Nat → Bool) (order : CertStore)
    (m : List (Nat × ViewChange_PQ)) :
    psetLoop prepared order m = order.foldl (mergeStep (psetKeyed prepared)) m :=
  foldl_congr_step _ _ (psetStep_eq_mergeStep prepared) order m

theorem qsetLoop_eq (prePrepared : String → Nat → Nat → Bool) (order : CertStore)
    (m : List ((String × Nat) × ViewChange_PQ)) :
    qsetLoop prePrepared order m = order.foldl (mergeStep (qsetKeyed prePrepared)) m :=
  foldl_congr_step _ _ (qsetStep_eq_mergeStep prePrepared) order m

/-- C10, as the code has it: after `sendViewChange`, whatever the orders
`pOrder` and `qOrder` in which the two loops visit `certStore`: the new `pset`
and `qset` do not depend on these orders; for every `n` with at least one
prepared certificate, `pset[n]` is the entry `(n, d, v)` of greatest view among
the previous `pset[n]` and the prepared certificates at `n`, and a previous
entry of strictly larger view than every prepared certificate at `n` is kept
unchanged; its view is below the new view provided that no certificate and no
previous entry is for a view above the current one and that the view counter
does not wrap; the same holds for `qset`, keyed by `(digest, n)`, and the
pre-prepared certificates. -/
theorem sendViewChange_pset_qset (env : Env) (s : PbftCore) (pOrder qOrder : CertStore)
    (hp : pOrder.Perm s.certStore) (hq : qOrder.Perm s.certStore)
    (hkeys : (mapKeys s.certStore).Nodup) :
    (∀ n, mapGet (sendViewChangeIn env s pOrder qOrder).1.pset n
        = mapGet (sendViewChange env s).1.pset n) ∧
    (∀ k, mapGet (sendViewChangeIn env s pOrder qOrder).1.qset k
        = mapGet (sendViewChange env s).1.qset k) ∧
    (∀ n, (∃ e ∈ s.certStore, e.1.2 = n ∧ ∃ c, psetCand (env.prepared s.certStore) e = some c) →
      ∃ q, mapGet (sendViewChangeIn env s pOrder qOrder).1.pset n = some q ∧
        ((∃ e ∈ s.certStore, e.1.2 = n ∧ psetCand (env.prepared s.certStore) e = some q) ∨
          (mapGet s.pset n = some q ∧ ∀ e ∈ s.certStore, ∀ c, e.1.2 = n →
            psetCand (env.prepared s.certStore) e = some c → c.View < q.View)) ∧
        (∀ e ∈ s.certStore, ∀ c, e.1.2 = n →
          psetCand (env.prepared s.certStore) e = some c → c.View ≤ q.View) ∧
        (∀ p, mapGet s.pset n = some p → p.View ≤ q.View) ∧
        (∀ p, mapGet s.pset n = some p →
          (∀ e ∈ s.certStore, ∀ c, e.1.2 = n →
            psetCand (env.prepared s.certStore) e = some c → c.View < p.View) → q = p) ∧
        ((∀ e ∈ s.certStore, e.1.1 ≤ s.view) →
          (∀ p, mapGet s.pset n = some p → p.View ≤ s.view) → s.view + 1 < U64 →
          q.View < (sendViewChangeIn env s pOrder qOrder).1.view)) ∧
    (∀ d n, (∃ e ∈ s.certStore, e.1.2 = n ∧
          ∃ c, qsetCand (env.prePrepared s.certStore) e = some c ∧ c.Digest = d) →
      ∃ q, mapGet (sendViewChangeIn env s pOrder qOrder).1.qset (d, n) = some q ∧
        ((∃ e ∈ s.certStore, e.1.2 = n ∧
            qsetCand (env.prePrepared s.certStore) e = some q ∧ q.Digest = d) ∨
          (mapGet s.qset (d, n) = some q ∧ ∀ e ∈ s.certStore, ∀ c, e.1.2 = n →
            qsetCand (env.prePrepared s.certStore) e = some c → c.Digest = d →
            c.View < q.View)) ∧
        (∀ e ∈ s.certStore, ∀ c, e.1.2 = n →
          qsetCand (env.prePrepared s.certStore) e = some c → c.Digest = d →
          c.View ≤ q.View) ∧
        (∀ p, mapGet s.qset (d, n) = some p → p.View ≤ q.View) ∧
        (∀ p, mapGet s.qset (d, n) = some p →
          (∀ e ∈ s.certStore, ∀ c, e.1.2 = n →
            qsetCand (env.prePrepared s.certStore) e = some c → c.Digest = d →
            c.View < p.View) → q = p) ∧
        ((∀ e ∈ s.certStore, e.1.1 ≤ s.view) →
          (∀ p, mapGet s.qset (d, n) = some p → p.View ≤ s.view) → s.view + 1 < U64 →
          q.View < (sendViewChangeIn env s pOrder qOrder).1.view)) := by
  have hP : ∀ o, (sendViewChangeIn env s o qOrder).1.pset
      = o.foldl (mergeStep (psetKeyed (env.prepared s.certStore))) s.pset :=
    fun o => psetLoop_eq _ o s.pset
  have hQ : ∀ o, (sendViewChangeIn env s pOrder o).1.qset
      = o.foldl (mergeStep (qsetKeyed (env.prePrepared s.certStore))) s.qset :=
    fun o => qsetLoop_eq _ o s.qset
  have hP0 : (sendViewChange env s).1.pset
      = s.certStore.foldl (mergeStep (psetKeyed (env.prepared s.certStore))) s.pset :=
    psetLoop_eq _ _ s.pset
  have hQ0 : (sendViewChange env s).1.qset
      = s.certStore.foldl (mergeStep (qsetKeyed (env.prePrepared s.certStore))) s.qset :=
    qsetLoop_eq _ _ s.qset
  have hview : (sendViewChangeIn env s pOrder qOrder).1.view = (s.view + 1) % U64 := rfl
  refine ⟨?_, ?_, ?_, ?_⟩
  · intro n
    rw [hP, hP0]
    exact mergeFold_perm _ _ _ hp (psetKeyed_distinct _ _ hkeys) _ _
  · intro k
    rw [hQ, hQ0]
    exact mergeFold_perm _ _ _ hq (qsetKeyed_distinct _ _ hkeys) _ _
  · rintro n ⟨e0, he0, hn0, c0, hc0⟩
    obtain ⟨q, g1, g2, g3, g4, g5⟩ :=
      mergeFold_greatest (psetKeyed (env.prepared s.certStore)) s.certStore pOrder hp s.pset n
        ⟨e0, he0, c0, (psetKeyed_iff _ _ _ _).mpr ⟨hn0, hc0⟩⟩
    have g3a : ∀ e ∈ s.certStore, ∀ c, e.1.2 = n →
        psetCand (env.prepared s.certStore) e = some c → c.View ≤ q.View :=
      fun e he c h1 h2 => g3 e he c ((psetKeyed_iff _ _ _ _).mpr ⟨h1, h2⟩)
    refine ⟨q, by rw [hP]; exact g1, ?_, g3a, g4, ?_, ?_⟩
    · rcases g2 with ⟨e, he, hc⟩ | ⟨hprev, hall⟩
      · exact Or.inl ⟨e, he, (psetKeyed_iff _ _ _ _).mp hc⟩
      · exact Or.inr ⟨hprev, fun e he c h1 h2 =>
          hall e he c ((psetKeyed_iff _ _ _ _).mpr ⟨h1, h2⟩)⟩
    · intro p hp1 hall
      exact g5 p hp1 (fun e he c hc =>
        hall e he c ((psetKeyed_iff _ _ _ _).mp hc).1 ((psetKeyed_iff _ _ _ _).mp hc).2)
    · intro hcert hprevv hov
      rw [hview, Nat.mod_eq_of_lt hov]
      rcases g2 with ⟨e, he, hc⟩ | ⟨hprev, _⟩
      · have hf := psetCand_fields _ e q ((psetKeyed_iff _ _ _ _).mp hc).2
        have := hcert e he
        omega
      · have := hprevv q hprev
        omega
  · rintro d n ⟨e0, he0, hn0, c0, hc0, hd0⟩
    obtain ⟨q, g1, g2, g3, g4, g5⟩ :=
      mergeFold_greatest (qsetKeyed (env.prePrepared s.certStore)) s.certStore qOrder hq s.qset
        (d, n) ⟨e0, he0, c0, (qsetKeyed_iff _ _ _ _ _).mpr ⟨hn0, hc0, hd0⟩⟩
    have g3a : ∀ e ∈ s.certStore, ∀ c, e.1.2 = n →
        qsetCand (env.prePrepared s.certStore) e = some c → c.Digest = d → c.View ≤ q.View :=
      fun e he c h1 h2 h3 => g3 e he c ((qsetKeyed_iff _ _ _ _ _).mpr ⟨h1, h2, h3⟩)
    refine ⟨q, by rw [hQ]; exact g1, ?_, g3a, g4, ?_, ?_⟩
    · rcases g2 with ⟨e, he, hc⟩ | ⟨hprev, hall⟩
      · exact Or.inl ⟨e, he, (qsetKeyed_iff _ _ _ _ _).mp hc⟩
      · exact Or.inr ⟨hprev, fun e he c h1 h2 h3 =>
          hall e he c ((qsetKeyed_iff _ _ _ _ _).mpr ⟨h1, h2, h3⟩)⟩
    · intro p hp1 hall
      exact g5 p hp1 (fun e he c hc =>
        hall e he c ((qsetKeyed_iff _ _ _ _ _).mp hc).1 ((qsetKeyed_iff _ _ _ _ _).mp hc).2.1
          ((qsetKeyed_iff _ _ _ _ _).mp hc).2.2)
    · intro hcert hprevv hov
      rw [hview, Nat.mod_eq_of_lt hov]
      rcases g2 with ⟨e, he, hc⟩ | ⟨hprev, _⟩
      · have hf := qsetCand_fields _ e q ((qsetKeyed_iff _ _ _ _ _).mp hc).2.1
        have := hcert e he
        omega
      · have := hprevv q hprev
        omega

/-! ## Activation of a view by processNewView -/

theorem mem_mapSet {κ α : Type} [DecidableEq κ] (m : List (κ × α)) (k : κ) (v : α)
    (e : κ × α) (h : e ∈ mapSet m k v) : e = (k, v) ∨ e ∈ m := by
  induction m with
  | nil =>
    simp only [mapSet, List.mem_singleton] at h
    exact Or.inl h
  | cons x t ih =>
    obtain ⟨k0, v0⟩ := x
    by_cases h0 : k0 = k
    · simp only [mapSet, h0, if_true, List.mem_cons] at h
      rcases h with h | h
      · exact Or.inl h
      · exact Or.inr (List.mem_cons_of_mem _ h)
    · simp only [mapSet, h0, if_false, List.mem_cons] at h
      rcases h with h | h
      · exact Or.inr (h ▸ List.mem_cons_self _ _)
      · rcases ih h with h1 | h1
        · exact Or.inl h1
        · exact Or.inr (List.mem_cons_of_mem _ h1)

theorem mapGet_mem {κ α : Type} [DecidableEq κ] (m : List (κ × α)) (k : κ) (v : α)
    (h : mapGet m k = some v) : (k, v) ∈ m := by
  induction m with
  | nil => simp [mapGet] at h
  | cons x t ih =>
    obtain ⟨k0, v0⟩ := x
    by_cases h0 : k0 = k
    · simp only [mapGet, h0, if_true, Option.some.injEq] at h
      rw [h0, h]
      exact List.mem_cons_self _ _
    · simp only [mapGet, h0, if_false] at h
      exact List.mem_cons_of_mem _ (ih h)

theorem addCheckpoint_sound (V : List ViewChange) (m : CheckpointMap) (c : ViewChange_C)
    (vc : ViewChange) (hvc : vc ∈ V) (hc : c ∈ vc.Cset)
    (hm : ∀ e ∈ m, ∀ x ∈ e.2, x ∈ V ∧ e.1 ∈ x.Cset) :
    ∀ e ∈ addCheckpoint m c vc, ∀ x ∈ e.2, x ∈ V ∧ e.1 ∈ x.Cset := by
  intro e he x hx
  rcases mem_mapSet m c _ e he with h1 | h1
  · subst h1
    rcases List.mem_append.mp hx with h2 | h2
    · cases hg : mapGet m c with
      | none => simp [hg] at h2
      | some l =>
        simp only [hg, Option.getD_some] at h2
        exact hm (c, l) (mapGet_mem m c l hg) x h2
    · have : x = vc := by simpa using h2
      subst this
      exact ⟨hvc, hc⟩
  · exact hm e h1 x hx

theorem buildCheckpoints_inner_sound (V : List ViewChange) (vc : ViewChange) (hvc : vc ∈ V)
    (cs : List ViewChange_C) (hcs : ∀ c ∈ cs, c ∈ vc.Cset) :
    ∀ m : CheckpointMap, (∀ e ∈ m, ∀ x ∈ e.2, x ∈ V ∧ e.1 ∈ x.Cset) →
      ∀ e ∈ cs.foldl (fun m0 c => addCheckpoint m0 c vc) m, ∀ x ∈ e.2, x ∈ V ∧ e.1 ∈ x.Cset := by
  induction cs with
  | nil => intro m hm; exact hm
  | cons c t ih =>
    intro m hm
    simp only [List.foldl_cons]
    exact ih (fun c1 h1 => hcs c1 (List.mem_cons_of_mem _ h1)) _
      (addCheckpoint_sound V m c vc hvc (hcs c (List.mem_cons_self _ _)) hm)

theorem buildCheckpoints_outer_sound (V : List ViewChange) (vs : List ViewChange)
    (hvs : ∀ vc ∈ vs, vc ∈ V) :
    ∀ m : CheckpointMap, (∀ e ∈ m, ∀ x ∈ e.2, x ∈ V ∧ e.1 ∈ x.Cset) →
      ∀ e ∈ vs.foldl (fun m vc => vc.Cset.foldl (fun m0 c => addCheckpoint m0 c vc) m) m,
        ∀ x ∈ e.2, x ∈ V ∧ e.1 ∈ x.Cset := by
  induction vs with
  | nil => intro m hm; exact hm
  | cons vc t ih =>
    intro m hm
    simp only [List.foldl_cons]
    exact ih (fun v1 h1 => hvs v1 (List.mem_cons_of_mem _ h1)) _
      (buildCheckpoints_inner_sound V vc (hvs vc (List.mem_cons_self _ _)) vc.Cset
        (fun c hc => hc) m hm)

/-- Every view-change in the list of a checkpoint pair is a member of `vset`
whose `Cset` holds that pair. -/
theorem buildCheckpoints_sound (vset : List ViewChange) :
    ∀ e ∈ buildCheckpoints vset, ∀ x ∈ e.2, x ∈ vset ∧ e.1 ∈ x.Cset :=
  buildCheckpoints_outer_sound vset vset (fun _ h => h) [] (fun e he => by cases he)

theorem selectInitialCheckpoint_ok_passes (f : Nat) (vset : List ViewChange)
    (h : (selectInitialCheckpoint f vset).2 = true) :
    ∃ e ∈ buildCheckpoints vset,
      f < e.2.length ∧ 2 * f < e.2.countP (fun vc => decide (vc.H ≤ e.1.SequenceNumber)) := by
  unfold selectInitialCheckpoint selectInitialCheckpointIn at h
  by_cases h0 : (buildCheckpoints vset).length = 0
  · simp [h0] at h
  · simp only [h0, if_false] at h
    obtain ⟨_, t2, _, _, _⟩ :=
      foldl_selectStep f (buildCheckpoints vset) (0, false) (fun _ => rfl)
    rcases t2 with t2 | ⟨e, he, hp, _⟩
    · rw [t2] at h; cases h
    · exact ⟨e, he, hp⟩

theorem processNewView_accept (fuel : Nat) (env : Env) (s : PbftCore) (nv : NewView)
    (r : PbftCore × List Action)
    (hnv : mapGet s.newViewStore s.view = some nv) (hina : s.activeView = false)
    (hrun : processNewView fuel env s = some r) (hact : r.1.activeView = true) :
    (selectInitialCheckpoint s.f nv.Vset).2 = true ∧
    (∃ X, assignSequenceNumbers fuel s.f s.L nv.Vset (selectInitialCheckpoint s.f nv.Vset).1
      = some (some X)) ∧
    (selectInitialCheckpoint s.f nv.Vset).1 ≤ s.h := by
  have hsvc : (sendViewChange env s).1.activeView = false := rfl
  unfold processNewView at hrun
  simp only [hnv, hina, Bool.false_eq_true, if_false] at hrun
  by_cases hok : (selectInitialCheckpoint s.f nv.Vset).2 = true
  · simp only [hok, Bool.not_true, Bool.false_eq_true, if_false] at hrun
    cases ha : assignSequenceNumbers fuel s.f s.L nv.Vset (selectInitialCheckpoint s.f nv.Vset).1 with
    | none => simp [ha] at hrun
    | some res =>
      cases res with
      | none =>
        simp only [ha, Option.some.injEq] at hrun
        rw [← hrun, hsvc] at hact
        cases hact
      | some X =>
        simp only [ha] at hrun
        split at hrun
        · simp only [Option.some.injEq] at hrun
          rw [← hrun, hsvc] at hact
          cases hact
        · split at hrun
          · simp only [Option.some.injEq] at hrun
            rw [← hrun, hina] at hact
            cases hact
          · rename_i hcp
            exact ⟨hok, ⟨X, rfl⟩, by omega⟩
  · have hok2 : (selectInitialCheckpoint s.f nv.Vset).2 = false := by simpa using hok
    simp only [hok2, Bool.not_false, if_true, Option.some.injEq] at hrun
    rw [← hrun, hsvc] at hact
    cases hact

/-! ## Evaluation at concrete inputs -/

/-- C1, as written, fails when `cp + L` exceeds `2^64 - 1`: with `f = 1`,
`L = 4`, `cp = 2^64 - 3` (the checkpoint selected from `wrappedPreparedVset`)
and `n = 2^64 - 2`, the four conditions hold for the digest `"a"`, but the loop
bound wraps to `1`, no `n` is visited and the result is the empty map. -/
theorem assign_keeps_prepared_wrapped :
    U64 - 3 < U64 - 2 ∧ U64 - 2 ≤ (U64 - 3) + 4 ∧
    (∃ m ∈ wrappedPreparedVset, (⟨U64 - 2, "a", 0⟩ : ViewChange_PQ) ∈ m.Pset) ∧
    2 * 1 + 1 ≤ wrappedPreparedVset.countP (fun m => decide (m.H < U64 - 2 ∧
      ∀ e ∈ m.Pset, e.SequenceNumber = U64 - 2 →
        e.View < 0 ∨ (e.View = 0 ∧ e.Digest = "a"))) ∧
    1 + 1 ≤ wrappedPreparedVset.countP (fun m => decide
      (∃ e ∈ m.Qset, e.SequenceNumber = U64 - 2 ∧ e.Digest = "a" ∧ 0 ≤ e.View)) ∧
    (∀ m ∈ wrappedPreparedVset, ∀ e ∈ m.Qset, e.SequenceNumber = U64 - 2 → e.Digest = "a") ∧
    selectInitialCheckpoint 1 wrappedPreparedVset = (U64 - 3, true) ∧
    assignSequenceNumbers 5 1 4 wrappedPreparedVset (U64 - 3) = some (some []) ∧
    mapGet ([] : XSet) (U64 - 2) = none := by
  decide

/-- C1 at three view-changes that each hold the prepared request
`(1, "a", 0)`. -/
theorem assign_keeps_prepared_witness :
    assignSequenceNumbers 5 1 4 preparedVset 0 = some (some [(1, "a")]) ∧
    mapGet ([(1, "a")] : XSet) 1 = some "a" :=
  ⟨by decide,
   assign_keeps_prepared 5 1 4 preparedVset 0 1 "a" 0 [(1, "a")] (by decide) (by decide)
     (by decide) (by decide) (by decide) (by decide) (by decide) (by decide) (by decide)⟩

/-- C3 fails on the code: with `f = 1` and `L = 4`, the view-changes of
`forgedVset` all pass `correctViewChange`, the result assigns `"a"` to sequence
number `1`, and no P-set entry of any member has sequence number `1`. -/
theorem assign_digest_without_pset_entry :
    (∀ m ∈ forgedVset, correctViewChange 4 m = true) ∧
    selectInitialCheckpoint 1 forgedVset = (0, true) ∧
    assignSequenceNumbers 5 1 4 forgedVset 0 = some (some [(1, "a")]) ∧
    mapGet ([(1, "a")] : XSet) 1 = some "a" ∧
    ¬ ∃ m ∈ forgedVset, ∃ e ∈ m.Pset, e.SequenceNumber = 1 ∧ e.Digest = "a" := by
  decide

/-- C4 fails on the code: with `f = 1`, the pair `(10, "s10")` is listed by two
distinct members of `laggingVset` and all four members have `H <= 10`, yet the
checkpoint returned is `0`. -/
theorem selectInitialCheckpoint_lagging :
    1 < (((laggingVset.filter (fun vc => decide ((⟨10, "s10"⟩ : ViewChange_C) ∈ vc.Cset))).map
      (fun vc => vc.ReplicaId)).dedup).length ∧
    2 * 1 + 1 ≤ laggingVset.countP (fun vc => decide (vc.H ≤ 10)) ∧
    selectInitialCheckpoint 1 laggingVset = (0, true) := by
  decide

/-- C5 at `laggingVset`, the candidate map being visited in reverse order. -/
theorem selectInitialCheckpoint_largest_witness :
    (selectInitialCheckpointIn 1 (buildCheckpoints laggingVset).reverse).2 = true ↔
      ∃ e ∈ buildCheckpoints laggingVset,
        1 < e.2.length ∧ 2 * 1 < e.2.countP (fun vc => decide (vc.H ≤ e.1.SequenceNumber)) :=
  (selectInitialCheckpoint_largest 1 laggingVset (buildCheckpoints laggingVset).reverse
    (List.reverse_perm _)).1

/-- C6 at `forgedVc` with `L = 4`. -/
theorem correctViewChange_iff_witness :
    correctViewChange 4 forgedVc = true ↔
      (∀ p, p ∈ forgedVc.Pset ∨ p ∈ forgedVc.Qset →
        p.View < forgedVc.View ∧ forgedVc.H < p.SequenceNumber ∧
          p.SequenceNumber ≤ forgedVc.H + 4) ∧
      (∀ c ∈ forgedVc.Cset, forgedVc.H ≤ c.SequenceNumber ∧ c.SequenceNumber ≤ forgedVc.H + 4) :=
  correctViewChange_iff 4 forgedVc (by decide)

/-- C7 at `shortVset`, where the result is `nil`: some `n` in `(0, 4]` has no
passing P-set entry and fewer than three members without an entry at `n`. -/
theorem assign_nil_iff_witness :
    ∃ n, 0 < n ∧ n ≤ 0 + 4 ∧
      (∀ m ∈ shortVset, ∀ em ∈ m.Pset,
        ¬ (2 * 1 + 1 ≤ a1Quorum shortVset n em ∧ 1 + 1 ≤ a2Quorum shortVset n em)) ∧
      shortVset.countP (fun m => decide (∀ e ∈ m.Pset, e.SequenceNumber ≠ n)) < 2 * 1 + 1 :=
  (assign_nil_iff 5 1 4 shortVset 0 (by decide) (by decide)).1.mp (by decide)

/-- C8, as written, fails when `cp + L` exceeds `2^64 - 1`: with `f = 1`,
`L = 4`, `cp = 2^64 - 3` and `n = 2^64 - 2`, no P-set entry of
`wrappedPsetVset` passes test A2 at `n`, every member has a P-set entry at `n`,
and yet a map is returned: the loop bound wraps to `1` and no `n` is visited. -/
theorem assign_null_rule_wrapped :
    U64 - 3 < U64 - 2 ∧ U64 - 2 ≤ (U64 - 3) + 4 ∧
    selectInitialCheckpoint 1 wrappedPsetVset = (U64 - 3, true) ∧
    assignSequenceNumbers 5 1 4 wrappedPsetVset (U64 - 3) = some (some []) ∧
    (∀ m ∈ wrappedPsetVset, ∀ em ∈ m.Pset,
      ¬ (2 * 1 + 1 ≤ a1Quorum wrappedPsetVset (U64 - 2) em ∧
        1 + 1 ≤ a2Quorum wrappedPsetVset (U64 - 2) em)) ∧
    ¬ (2 * 1 + 1 ≤ wrappedPsetVset.countP
      (fun m => decide (∀ e ∈ m.Pset, e.SequenceNumber ≠ U64 - 2))) := by
  decide

/-- C8 at `preparedVset` and `n = 2`: no entry passes the tests there, the
null rule holds, and `2` is not a key of the result, its null assignment
having been pruned. -/
theorem assign_null_rule_witness :
    assignSequenceNumbers 5 1 4 preparedVset 0 = some (some [(1, "a")]) ∧
    2 * 1 + 1 ≤ preparedVset.countP (fun m => decide (∀ e ∈ m.Pset, e.SequenceNumber ≠ 2)) ∧
    ∀ d, mapGet ([(1, "a")] : XSet) 2 = some d → d = "" :=
  ⟨by decide,
   assign_null_rule 5 1 4 preparedVset 0 [(1, "a")] (by decide) (by decide) 2 (by decide)
     (by decide) (by decide)⟩

/-- C9: replica `0` (`f = 1`) receives `repeatedNewView`, whose `Vset` is one
view-change of replica `1` listed three times; every signature verifies, the
NEW-VIEW is stored and `processNewView` activates view `1`, although the `Vset`
holds view-changes of one replica only, fewer than `2f+1 = 3`. -/
theorem processNewView_repeated_vset :
    (recvNewView 5 idleEnv waitingReplica repeatedNewView).map (fun r => r.1.newViewStore)
      = some [(1, repeatedNewView)] ∧
    repeatedStored.activeView = false ∧
    mapGet repeatedStored.newViewStore repeatedStored.view = some repeatedNewView ∧
    (processNewView 5 idleEnv repeatedStored).map (fun r => r.1.activeView) = some true ∧
    ¬ (2 * repeatedStored.f + 1 ≤
      (((repeatedNewView.Vset.filter (fun vc => decide (vc.View = repeatedNewView.View))).map
        (fun vc => vc.ReplicaId)).dedup).length) := by
  decide

/-- C10 at `preparedReplica`, both loops visiting `certStore` in reverse
order. -/
theorem sendViewChange_pset_qset_witness :
    (∀ n, mapGet (sendViewChangeIn countingEnv preparedReplica preparedReplica.certStore.reverse
        preparedReplica.certStore.reverse).1.pset n
      = mapGet (sendViewChange countingEnv preparedReplica).1.pset n) ∧
    mapGet (sendViewChange countingEnv preparedReplica).1.pset 1 = some ⟨1, "b", 1⟩ :=
  ⟨(sendViewChange_pset_qset countingEnv preparedReplica preparedReplica.certStore.reverse
      preparedReplica.certStore.reverse (List.reverse_perm _) (List.reverse_perm _)
      (by decide)).1,
   by decide⟩

/-- C10 fails on the code in its last part: in the last view of a `uint64` the
new view is `0`, and a certificate of a view above the current one is copied as
it is; in both cases `pset[1]` is built from a prepared certificate and its view
is not below the new view. -/
theorem sendViewChange_view_not_below :
    ((psetCand (countingEnv.prepared lastViewReplica.certStore)
        ((U64 - 1, 1), ⟨some ⟨U64 - 1, 1, "a", 3⟩,
          [⟨U64 - 1, 1, "a", 1⟩, ⟨U64 - 1, 1, "a", 2⟩], [], false, false⟩)).isSome = true ∧
      (sendViewChange countingEnv lastViewReplica).1.view = 0 ∧
      mapGet (sendViewChange countingEnv lastViewReplica).1.pset 1 = some ⟨1, "a", U64 - 1⟩ ∧
      ¬ (U64 - 1 < (sendViewChange countingEnv lastViewReplica).1.view)) ∧
    ((psetCand (countingEnv.prepared aheadReplica.certStore)
        ((3, 1), ⟨some ⟨3, 1, "a", 3⟩, [⟨3, 1, "a", 1⟩, ⟨3, 1, "a", 2⟩], [],
          false, false⟩)).isSome = true ∧
      (sendViewChange countingEnv aheadReplica).1.view = 2 ∧
      mapGet (sendViewChange countingEnv aheadReplica).1.pset 1 = some ⟨1, "a", 3⟩ ∧
      ¬ (3 < (sendViewChange countingEnv aheadReplica).1.view)) := by
  decide

/-! ## The VIEW-CHANGE built by sendViewChange (C11, C12) -/

theorem mapGet_filter_key {κ α : Type} [DecidableEq κ] (p : κ → Bool) (m : List (κ × α))
    (k : κ) :
    mapGet (m.filter (fun e => p e.1)) k = if p k then mapGet m k else none := by
  induction m with
  | nil => simp [mapGet]
  | cons x t ih =>
    obtain ⟨k0, v0⟩ := x
    by_cases hp0 : p k0 = true
    · by_cases h0 : k0 = k
      · subst h0
        simp [List.filter, hp0, mapGet]
      · simp [List.filter, hp0, mapGet, h0, ih]
    · have hp1 : p k0 = false := by simpa using hp0
      by_cases h0 : k0 = k
      · subst h0
        simp [List.filter, hp1, mapGet, ih]
      · simp [List.filter, hp1, mapGet, h0, ih]

/-- C11, as the code has it: the `Cset` of the VIEW-CHANGE handed to
`innerBroadcast` by `sendViewChange` consists of exactly the pairs held in
`chkpts`, none left out; its entries satisfy `h <= n <= h + L`, with `h` the
`H` of the message, when every key of `chkpts` does. -/
theorem sendViewChange_cset (env : Env) (s : PbftCore) (pOrder qOrder : CertStore) :
    ∃ vc, (sendViewChangeIn env s pOrder qOrder).2
        = [Action.stopTimer, Action.innerBroadcast (Message.viewChange vc) true] ∧
      (∀ c : ViewChange_C, c ∈ vc.Cset ↔ (c.SequenceNumber, c.Digest) ∈ s.chkpts) ∧
      ((∀ e ∈ s.chkpts, s.h ≤ e.1 ∧ e.1 ≤ (s.h + s.L) % U64) →
        ∀ c ∈ vc.Cset, vc.H ≤ c.SequenceNumber ∧ c.SequenceNumber ≤ (vc.H + s.L) % U64) := by
  refine ⟨_, rfl, ?_, ?_⟩
  · intro c
    simp only [List.mem_map]
    constructor
    · rintro ⟨e, he, rfl⟩
      exact he
    · intro hc
      exact ⟨(c.SequenceNumber, c.Digest), hc, rfl⟩
  · intro hall c hc
    simp only [List.mem_map] at hc
    obtain ⟨e, he, rfl⟩ := hc
    exact hall e he

/-- The state reached by `sendViewChange` at the call of `innerBroadcast`, in
terms of the new view `(v + 1) mod 2^64`. -/
theorem sendViewChangeIn_facts (env : Env) (s : PbftCore) (pOrder qOrder : CertStore) :
    (sendViewChangeIn env s pOrder qOrder).1.view = (s.view + 1) % U64 ∧
    (s.view + 1 < U64 → (sendViewChangeIn env s pOrder qOrder).1.view = s.view + 1) ∧
    (sendViewChangeIn env s pOrder qOrder).1.activeView = false ∧
    (∀ e, e ∈ (sendViewChangeIn env s pOrder qOrder).1.certStore ↔
      e ∈ s.certStore ∧ (sendViewChangeIn env s pOrder qOrder).1.view ≤ e.1.1) ∧
    (∀ k, mapGet (sendViewChangeIn env s pOrder qOrder).1.certStore k =
      if k.1 < (sendViewChangeIn env s pOrder qOrder).1.view then none
      else mapGet s.certStore k) ∧
    (∀ e, e ∈ (sendViewChangeIn env s pOrder qOrder).1.viewChangeStore ↔
      e ∈ s.viewChangeStore ∧ (sendViewChangeIn env s pOrder qOrder).1.view ≤ e.1.1) ∧
    (∀ k, mapGet (sendViewChangeIn env s pOrder qOrder).1.viewChangeStore k =
      if k.1 < (sendViewChangeIn env s pOrder qOrder).1.view then none
      else mapGet s.viewChangeStore k) ∧
    (sendViewChangeIn env s pOrder qOrder).1.h = s.h ∧
    (sendViewChangeIn env s pOrder qOrder).1.seqNo = s.seqNo ∧
    ∃ vc, (sendViewChangeIn env s pOrder qOrder).2
        = [Action.stopTimer, Action.innerBroadcast (Message.viewChange vc) true] ∧
      vc.View = (sendViewChangeIn env s pOrder qOrder).1.view ∧ vc.H = s.h ∧
      vc.ReplicaId = s.id := by
  have hview : (sendViewChangeIn env s pOrder qOrder).1.view = (s.view + 1) % U64 := rfl
  have hcs : (sendViewChangeIn env s pOrder qOrder).1.certStore
      = s.certStore.filter (fun e => (fun k : Nat × Nat => !decide (k.1 < (s.view + 1) % U64)) e.1) :=
    rfl
  have hvs : (sendViewChangeIn env s pOrder qOrder).1.viewChangeStore
      = s.viewChangeStore.filter
          (fun e => (fun k : Nat × Nat => !decide (k.1 < (s.view + 1) % U64)) e.1) :=
    rfl
  refine ⟨hview, ?_, rfl, ?_, ?_, ?_, ?_, rfl, rfl, _, rfl, rfl, rfl, rfl⟩
  · intro h
    rw [hview, Nat.mod_eq_of_lt h]
  · intro e
    rw [hcs, hview]
    simp [List.mem_filter]
  · intro k
    rw [hcs, hview]
    refine (mapGet_filter_key (fun k : Nat × Nat => !decide (k.1 < (s.view + 1) % U64))
      _ k).trans ?_
    by_cases hk : k.1 < (s.view + 1) % U64 <;> simp [hk]
  · intro e
    rw [hvs, hview]
    simp [List.mem_filter]
  · intro k
    rw [hvs, hview]
    refine (mapGet_filter_key (fun k : Nat × Nat => !decide (k.1 < (s.view + 1) % U64))
      _ k).trans ?_
    by_cases hk : k.1 < (s.view + 1) % U64 <;> simp [hk]

/-! ## recvNewView and processNewView on a NEW-VIEW that is not used (C18, C19) -/

/-- C18: if the replica is active in view `v` and `newViewStore` holds a
NEW-VIEW for `v`, then `recvNewView` applied to any NEW-VIEW for view `v`, and
`processNewView`, leave the state unchanged and make no call. -/
theorem newView_noop_when_active (fuel : Nat) (env : Env) (s : PbftCore) (nv stored : NewView)
    (hact : s.activeView = true) (hst : mapGet s.newViewStore s.view = some stored)
    (hv : nv.View = s.view) :
    recvNewView fuel env s nv = some (s, []) ∧ processNewView fuel env s = some (s, []) := by
  constructor
  · unfold recvNewView
    simp [hv, hst]
  · unfold processNewView
    simp [hst, hact]

/-- C19, as the code has it: when `recvNewView` receives, for a view
`nv.View >= view` with `nv.View > 0` and no NEW-VIEW stored for it, a NEW-VIEW
from the primary of `nv.View` whose `Vset` contains a view-change with an
invalid signature, it returns with the state unchanged and sends nothing. -/
theorem recvNewView_invalid_signature (fuel : Nat) (env : Env) (s : PbftCore) (nv : NewView)
    (vc : ViewChange) (hvc : vc ∈ nv.Vset) (hsig : env.verify vc = false) :
    recvNewView fuel env s nv = some (s, []) := by
  unfold recvNewView
  have hall : nv.Vset.all env.verify = false := by
    rw [List.all_eq_false]
    exact ⟨vc, hvc, by simp [hsig]⟩
  by_cases h1 : (decide (nv.View > 0) && decide (nv.View ≥ s.view)
        && decide (primary s nv.View = nv.ReplicaId)
        && (mapGet s.newViewStore nv.View).isNone) = true
  · simp only [h1, Bool.not_true, Bool.false_eq_true, if_false, hall, Bool.not_false, if_true]
  · have h2 : (decide (nv.View > 0) && decide (nv.View ≥ s.view)
        && decide (primary s nv.View = nv.ReplicaId)
        && (mapGet s.newViewStore nv.View).isNone) = false := Bool.eq_false_iff.mpr h1
    simp only [h2, Bool.not_false, if_true]

/-! ## Composite keys (C20) -/

theorem bytesSplit_no_sep (sep : Nat) (l : Bytes) (h : sep ∉ l) : bytesSplit sep l = [l] := by
  induction l with
  | nil => rfl
  | cons b t ih =>
    have h2 : ¬ b = sep ∧ sep ∉ t := by
      constructor
      · intro hb
        exact h (hb ▸ List.mem_cons_self _ _)
      · intro ht
        exact h (List.mem_cons_of_mem _ ht)
    simp [bytesSplit, h2.1, ih h2.2]

theorem bytesSplit_cons_ne (sep x : Nat) (l : Bytes) (h : ¬ x = sep) :
    bytesSplit sep (x :: l) =
      match bytesSplit sep l with
      | [] => [[x]]
      | piece :: rest => (x :: piece) :: rest := by
  simp [bytesSplit, h]

theorem bytesSplit_append_sep (sep : Nat) (a b : Bytes) (h : sep ∉ a) :
    bytesSplit sep ((a ++ [sep]) ++ b) = a :: bytesSplit sep b := by
  induction a with
  | nil => simp [bytesSplit]
  | cons x t ih =>
    have h2 : ¬ x = sep ∧ sep ∉ t := by
      constructor
      · intro hb
        exact h (hb ▸ List.mem_cons_self _ _)
      · intro ht
        exact h (List.mem_cons_of_mem _ ht)
    have ih2 := ih h2.2
    have hc : ((x :: t) ++ [sep]) ++ b = x :: ((t ++ [sep]) ++ b) := rfl
    rw [hc, bytesSplit_cons_ne sep x _ h2.1, ih2]

theorem decode_construct (a b : Bytes) (ha : stateKeyDelimiter ∉ a) (hb : stateKeyDelimiter ∉ b) :
    DecodeCompositeKey (ConstructCompositeKey a b) = some (a, b) := by
  unfold DecodeCompositeKey ConstructCompositeKey
  rw [bytesSplit_append_sep _ a b ha, bytesSplit_no_sep _ b hb]

/-- C20: for byte strings `chaincodeID` and `key` without a `0x00` byte,
`DecodeCompositeKey (ConstructCompositeKey chaincodeID key)` is
`(chaincodeID, key)`, and `ConstructCompositeKey` is injective on such pairs. -/
theorem compositeKey_roundtrip (chaincodeID key chaincodeID2 key2 : Bytes)
    (h1 : 0 ∉ chaincodeID) (h2 : 0 ∉ key) (h3 : 0 ∉ chaincodeID2) (h4 : 0 ∉ key2) :
    DecodeCompositeKey (ConstructCompositeKey chaincodeID key) = some (chaincodeID, key) ∧
    (ConstructCompositeKey chaincodeID key = ConstructCompositeKey chaincodeID2 key2 →
      chaincodeID = chaincodeID2 ∧ key = key2) := by
  refine ⟨decode_construct _ _ h1 h2, ?_⟩
  intro heq
  have e1 := decode_construct chaincodeID key h1 h2
  have e2 := decode_construct chaincodeID2 key2 h3 h4
  rw [heq, e2] at e1
  simp only [Option.some.injEq, Prod.mk.injEq] at e1
  exact ⟨e1.1.symm, e1.2.symm⟩

/-! ## Equality of assignments -/

theorem mapGet_of_mem_nodup {κ α : Type} [DecidableEq κ] (m : List (κ × α))
    (h : (mapKeys m).Nodup) (k : κ) (v : α) (hm : (k, v) ∈ m) : mapGet m k = some v := by
  induction m with
  | nil => cases hm
  | cons x t ih =>
    obtain ⟨k0, v0⟩ := x
    have h2 : k0 ∉ mapKeys t ∧ (mapKeys t).Nodup := by
      simpa [mapKeys] using h
    rcases List.mem_cons.mp hm with h1 | h1
    · simp only [Prod.mk.injEq] at h1
      simp [mapGet, h1.1, h1.2]
    · have hk : k ∈ mapKeys t := List.mem_map_of_mem Prod.fst h1
      have hne : ¬ k0 = k := by
        intro h3
        exact h2.1 (h3 ▸ hk)
      simp [mapGet, hne, ih h2.2 h1]

theorem mem_mapKeys_iff {κ α : Type} [DecidableEq κ] (m : List (κ × α)) (k : κ) :
    k ∈ mapKeys m ↔ mapGet m k ≠ none := by
  constructor
  · intro hk hnone
    obtain ⟨e, he, hke⟩ := List.mem_map.mp hk
    induction m with
    | nil => cases he
    | cons x t ih =>
      obtain ⟨k0, v0⟩ := x
      by_cases h0 : k0 = k
      · simp [mapGet, h0] at hnone
      · simp only [mapGet, h0, if_false] at hnone
        rcases List.mem_cons.mp he with h1 | h1
        · exact h0 (by rw [← hke, h1])
        · exact ih (List.mem_map.mpr ⟨e, h1, hke⟩) hnone h1
  · intro h
    by_contra hk
    exact h (mapGet_eq_none_of_not_mem m k hk)

/-- On maps, `reflect.DeepEqual` is equality of the lookups under every key. -/
theorem deepEqual_iff (a b : XSet) (ha : (mapKeys a).Nodup) (hb : (mapKeys b).Nodup) :
    deepEqual a b = true ↔ ∀ k, mapGet a k = mapGet b k := by
  unfold deepEqual
  simp only [Bool.and_eq_true, decide_eq_true_eq, List.all_eq_true]
  constructor
  · rintro ⟨hlen, hall⟩ k
    have hsub : mapKeys a ⊆ mapKeys b := by
      intro x hx
      obtain ⟨e, he, hxe⟩ := List.mem_map.mp hx
      rw [mem_mapKeys_iff, ← hxe, hall e he]
      simp
    have hperm : (mapKeys a).Perm (mapKeys b) :=
      (List.subperm_of_subset ha hsub).perm_of_length_le (by simp [mapKeys, hlen])
    cases hg : mapGet a k with
    | some v =>
      have := hall (k, v) (mapGet_mem a k v hg)
      exact this.symm
    | none =>
      have hk : k ∉ mapKeys a := fun h => (mem_mapKeys_iff a k).mp h hg
      have hk2 : k ∉ mapKeys b := fun h => hk (hperm.mem_iff.mpr h)
      exact (mapGet_eq_none_of_not_mem b k hk2).symm
  · intro heq
    have hperm : (mapKeys a).Perm (mapKeys b) := by
      rw [List.perm_ext_iff_of_nodup ha hb]
      intro k
      rw [mem_mapKeys_iff, mem_mapKeys_iff, heq k]
    refine ⟨by simpa [mapKeys] using hperm.length_eq, ?_⟩
    intro e he
    rw [← heq e.1]
    exact mapGet_of_mem_nodup a ha e.1 e.2 he

theorem assignLoop_nodup (f : Nat) (vset : List ViewChange) (bound : Nat) (hb : bound < U64)
    (fuel n : Nat) (hn : n < U64) (ml : XSet) (mx : Nat) (ml1 : XSet) (mx1 : Nat)
    (h : assignLoop f vset bound fuel n ml mx = some (some (ml1, mx1)))
    (hnd : (mapKeys ml).Nodup) : (mapKeys ml1).Nodup := by
  by_cases hb1 : bound + 1 = U64
  · exact absurd h (assignLoop_no_exit f vset bound hb1 fuel n ml mx _ hn)
  · exact (assignLoop_exit f vset bound (by omega) fuel n ml mx ml1 mx1 h).2.2 hnd

/-- The map returned by `assignSequenceNumbers` has pairwise distinct keys. -/
theorem assign_some_nodup (fuel f L : Nat) (vset : List ViewChange) (h : Nat) (X : XSet)
    (hret : assignSequenceNumbers fuel f L vset h = some (some X)) : (mapKeys X).Nodup := by
  obtain ⟨ml, mx, hloop, hX⟩ := assign_some_unfold fuel f L vset h X hret
  have hnd := assignLoop_nodup f vset _ (Nat.mod_lt _ U64_pos) fuel _ (Nat.mod_lt _ U64_pos)
    [] h ml mx hloop (by simp [mapKeys])
  rw [hX]
  unfold pruneNulls mapKeys
  exact (hnd.sublist (List.Sublist.map _ (List.filter_sublist _)))

/-- The test of `processNewView` on the recomputed assignment `X` is passed
exactly when `X` and `xset` are the same map. -/
theorem xset_test_iff (X xset : XSet) (hX : (mapKeys X).Nodup) (hx : (mapKeys xset).Nodup) :
    (!(decide (X.length = 0) && decide (xset.length = 0)) && !deepEqual X xset) = false ↔
      ∀ k, mapGet X k = mapGet xset k := by
  rw [← deepEqual_iff X xset hX hx]
  by_cases h0 : X.length = 0 ∧ xset.length = 0
  · have h1 : X = [] := List.length_eq_zero.mp h0.1
    have h2 : xset = [] := List.length_eq_zero.mp h0.2
    subst h1 h2
    simp [deepEqual]
  · have h1 : (decide (X.length = 0) && decide (xset.length = 0)) = false := by
      rw [Bool.eq_false_iff]
      intro h
      simp only [Bool.and_eq_true, decide_eq_true_eq] at h
      exact h0 h
    rw [h1]
    cases deepEqual X xset <;> simp

/-! ## Deferral in processNewView (C17) -/

theorem missingRequest_iff (s : PbftCore) (xset : XSet) :
    missingRequest s xset = true ↔
      ∃ e ∈ xset, s.h < e.1 ∧ e.2 ≠ "" ∧ mapGet s.reqStore e.2 = none := by
  unfold missingRequest
  simp only [List.any_eq_true, Bool.and_eq_true, Bool.not_eq_true', decide_eq_false_iff_not,
    not_le, Option.isNone_iff_eq_none, and_assoc, ne_eq]

/-- The steps of `processNewView` once the checkpoint and the assignment have
been derived. -/
theorem processNewView_derived (fuel : Nat) (env : Env) (s : PbftCore) (nv : NewView) (X : XSet)
    (hnv : mapGet s.newViewStore s.view = some nv) (hina : s.activeView = false)
    (hok : (selectInitialCheckpoint s.f nv.Vset).2 = true)
    (hX : assignSequenceNumbers fuel s.f s.L nv.Vset (selectInitialCheckpoint s.f nv.Vset).1
      = some (some X)) :
    processNewView fuel env s =
      if (!(decide (X.length = 0) && decide (nv.Xset.length = 0)) && !deepEqual X nv.Xset) = true
      then some (sendViewChange env s)
      else if s.h < (selectInitialCheckpoint s.f nv.Vset).1 then some (s, [])
      else if missingRequest s nv.Xset = true then some (s, [])
      else some (acceptNewView env s nv) := by
  unfold processNewView
  simp only [hnv, hina, hok, hX, Bool.false_eq_true, if_false, Bool.not_true]

/-- C17: when `processNewView` has derived a checkpoint `cp` and an assignment
equal to `nv.Xset`, and `h < cp` or some `(n, d)` of `nv.Xset` with `n > h` and
`d` not empty has `d` absent from `reqStore`, it returns with the whole state
unchanged and makes no call; when `h >= cp` and every entry of `nv.Xset` has
`n <= h`, an empty digest or its request in `reqStore`, it does not defer but
goes on to accept the NEW-VIEW. -/
theorem processNewView_defers (fuel : Nat) (env : Env) (s : PbftCore) (nv : NewView) (X : XSet)
    (hnv : mapGet s.newViewStore s.view = some nv) (hina : s.activeView = false)
    (hnd : (mapKeys nv.Xset).Nodup)
    (hok : (selectInitialCheckpoint s.f nv.Vset).2 = true)
    (hX : assignSequenceNumbers fuel s.f s.L nv.Vset (selectInitialCheckpoint s.f nv.Vset).1
      = some (some X))
    (heq : ∀ k, mapGet X k = mapGet nv.Xset k) :
    ((s.h < (selectInitialCheckpoint s.f nv.Vset).1 ∨
        ∃ e ∈ nv.Xset, s.h < e.1 ∧ e.2 ≠ "" ∧ mapGet s.reqStore e.2 = none) →
      processNewView fuel env s = some (s, [])) ∧
    ((selectInitialCheckpoint s.f nv.Vset).1 ≤ s.h →
      (∀ e ∈ nv.Xset, e.1 ≤ s.h ∨ e.2 = "" ∨ mapGet s.reqStore e.2 ≠ none) →
      processNewView fuel env s = some (acceptNewView env s nv)) := by
  have hcond := (xset_test_iff X nv.Xset (assign_some_nodup _ _ _ _ _ X hX) hnd).mpr heq
  have hstep := processNewView_derived fuel env s nv X hnv hina hok hX
  simp only [hcond, Bool.false_eq_true, if_false] at hstep
  constructor
  · rintro (h | h)
    · rw [hstep]
      simp [h]
    · rw [hstep]
      have hm : missingRequest s nv.Xset = true := (missingRequest_iff s nv.Xset).mpr h
      by_cases hc : s.h < (selectInitialCheckpoint s.f nv.Vset).1 <;> simp [hc, hm]
  · intro hcp hall
    have hm : missingRequest s nv.Xset = false := by
      rw [Bool.eq_false_iff]
      intro hm
      obtain ⟨e, he, h1, h2, h3⟩ := (missingRequest_iff s nv.Xset).mp hm
      rcases hall e he with h | h | h
      · omega
      · exact h2 h
      · exact h h3
    have hc : ¬ s.h < (selectInitialCheckpoint s.f nv.Vset).1 := by omega
    rw [hstep]
    simp [hc, hm]

/-! ## The loops of processNewView that store pre-prepares and send prepares -/

theorem installPrePrepare_certStore (t : PbftCore) (x : Nat × String) :
    (installPrePrepare t x).certStore =
      mapSet t.certStore (t.view, x.1)
        { ((mapGet t.certStore (t.view, x.1)).getD emptyCert) with
          prePrepare := some ⟨t.view, x.1, x.2, t.id⟩ } := rfl

theorem sendPrepare_certStore (acc : PbftCore × List Action) (x : Nat × String) :
    (sendPrepare acc x).1.certStore =
      mapSet acc.1.certStore (acc.1.view, x.1)
        { ((mapGet acc.1.certStore (acc.1.view, x.1)).getD emptyCert) with
          prepare := ((mapGet acc.1.certStore (acc.1.view, x.1)).getD emptyCert).prepare
            ++ [⟨acc.1.view, x.1, x.2, acc.1.id⟩]
          sentPrepare := true } := rfl

theorem installPrePrepare_fold_frame (xs : XSet) :
    ∀ t : PbftCore,
      (xs.foldl installPrePrepare t).view = t.view ∧
      (xs.foldl installPrePrepare t).id = t.id ∧
      (xs.foldl installPrePrepare t).h = t.h ∧
      (xs.foldl installPrePrepare t).activeView = t.activeView ∧
      (xs.foldl installPrePrepare t).newViewStore = t.newViewStore ∧
      (xs.foldl installPrePrepare t).replicaCount = t.replicaCount ∧
      (xs.foldl installPrePrepare t).viewChangeStore = t.viewChangeStore := by
  induction xs with
  | nil => intro t; exact ⟨rfl, rfl, rfl, rfl, rfl, rfl, rfl⟩
  | cons x r ih =>
    intro t
    obtain ⟨a, b, c, d, e, f, g⟩ := ih (installPrePrepare t x)
    simp only [List.foldl_cons]
    exact ⟨a, b, c, d, e, f, g⟩

theorem installPrePrepare_fold_seqNo (xs : XSet) :
    ∀ t : PbftCore,
      t.seqNo ≤ (xs.foldl installPrePrepare t).seqNo ∧
      (∀ e ∈ xs, e.1 ≤ (xs.foldl installPrePrepare t).seqNo) ∧
      ((xs.foldl installPrePrepare t).seqNo = t.seqNo ∨
        ∃ e ∈ xs, (xs.foldl installPrePrepare t).seqNo = e.1) := by
  induction xs with
  | nil => intro t; exact ⟨le_refl _, fun e he => (by cases he), Or.inl rfl⟩
  | cons x r ih =>
    intro t
    obtain ⟨a, b, c⟩ := ih (installPrePrepare t x)
    simp only [List.foldl_cons]
    have hstep : (installPrePrepare t x).seqNo = if x.1 > t.seqNo then x.1 else t.seqNo := rfl
    have h1 : t.seqNo ≤ (installPrePrepare t x).seqNo := by
      rw [hstep]; split <;> omega
    have h2 : x.1 ≤ (installPrePrepare t x).seqNo := by
      rw [hstep]; split <;> omega
    refine ⟨le_trans h1 a, ?_, ?_⟩
    · intro e he
      rcases List.mem_cons.mp he with rfl | he
      · exact le_trans h2 a
      · exact b e he
    · rcases c with c | ⟨e, he, hc⟩
      · by_cases hx : x.1 > t.seqNo
        · right
          exact ⟨x, List.mem_cons_self _ _, by rw [c, hstep]; simp [hx]⟩
        · left
          rw [c, hstep]; simp [hx]
      · right
        exact ⟨e, List.mem_cons_of_mem _ he, hc⟩

theorem installPrePrepare_fold_other (xs : XSet) (k : Nat × Nat) :
    ∀ t : PbftCore, (∀ e ∈ xs, (t.view, e.1) ≠ k) →
      mapGet (xs.foldl installPrePrepare t).certStore k = mapGet t.certStore k := by
  induction xs with
  | nil => intro t _; rfl
  | cons x r ih =>
    intro t hne
    simp only [List.foldl_cons]
    have hv : (installPrePrepare t x).view = t.view := rfl
    rw [ih (installPrePrepare t x) (fun e he => by rw [hv]; exact hne e (List.mem_cons_of_mem _ he))]
    have hx : ¬ (t.view, x.1) = k := hne x (List.mem_cons_self _ _)
    rw [installPrePrepare_certStore, mapGet_mapSet]
    simp [hx]

theorem installPrePrepare_fold_cert (xs : XSet) :
    ∀ t : PbftCore, (mapKeys xs).Nodup → ∀ e ∈ xs,
      ∃ cert, mapGet (xs.foldl installPrePrepare t).certStore (t.view, e.1) = some cert ∧
        cert.prePrepare = some ⟨t.view, e.1, e.2, t.id⟩ := by
  induction xs with
  | nil => intro t _ e he; cases he
  | cons x r ih =>
    intro t hnd e he
    have h2 : x.1 ∉ mapKeys r ∧ (mapKeys r).Nodup := by
      simpa [mapKeys] using hnd
    simp only [List.foldl_cons]
    have hv : (installPrePrepare t x).view = t.view := rfl
    have hi : (installPrePrepare t x).id = t.id := rfl
    rcases List.mem_cons.mp he with rfl | he
    · have hother := installPrePrepare_fold_other r (t.view, e.1) (installPrePrepare t e)
        (by
          intro e1 he1 heq
          have : e1.1 = e.1 := by
            have := congrArg Prod.snd heq
            simpa using this
          exact h2.1 (this ▸ List.mem_map_of_mem Prod.fst he1))
      rw [hother]
      rw [installPrePrepare_certStore, mapGet_mapSet]
      simp only [if_true]
      exact ⟨_, rfl, rfl⟩
    · obtain ⟨cert, hc1, hc2⟩ := ih (installPrePrepare t x) h2.2 e he
      rw [hv] at hc1
      rw [hv, hi] at hc2
      exact ⟨cert, hc1, hc2⟩

theorem sendPrepare_fold_frame (xs : XSet) :
    ∀ acc : PbftCore × List Action,
      (xs.foldl sendPrepare acc).1.view = acc.1.view ∧
      (xs.foldl sendPrepare acc).1.id = acc.1.id ∧
      (xs.foldl sendPrepare acc).1.h = acc.1.h ∧
      (xs.foldl sendPrepare acc).1.activeView = acc.1.activeView ∧
      (xs.foldl sendPrepare acc).1.newViewStore = acc.1.newViewStore ∧
      (xs.foldl sendPrepare acc).1.seqNo = acc.1.seqNo ∧
      (xs.foldl sendPrepare acc).1.viewChangeStore = acc.1.viewChangeStore := by
  induction xs with
  | nil => intro acc; exact ⟨rfl, rfl, rfl, rfl, rfl, rfl, rfl⟩
  | cons x r ih =>
    intro acc
    obtain ⟨a, b, c, d, e, f, g⟩ := ih (sendPrepare acc x)
    simp only [List.foldl_cons]
    exact ⟨a, b, c, d, e, f, g⟩

/-- The calls made by the loop that sends the prepares: one `innerBroadcast`
of a prepare per entry, in order. -/
theorem sendPrepare_fold_actions (xs : XSet) :
    ∀ acc : PbftCore × List Action,
      (xs.foldl sendPrepare acc).2 = acc.2 ++ xs.map (fun e =>
        Action.innerBroadcast (Message.prepare ⟨acc.1.view, e.1, e.2, acc.1.id⟩) true) := by
  induction xs with
  | nil => intro acc; simp
  | cons x r ih =>
    intro acc
    simp only [List.foldl_cons, List.map_cons]
    rw [ih (sendPrepare acc x)]
    have hv : (sendPrepare acc x).1.view = acc.1.view := rfl
    have hi : (sendPrepare acc x).1.id = acc.1.id := rfl
    have ha : (sendPrepare acc x).2 = acc.2 ++
        [Action.innerBroadcast (Message.prepare ⟨acc.1.view, x.1, x.2, acc.1.id⟩) true] := rfl
    rw [hv, hi, ha]
    simp

theorem sendPrepare_keeps_prePrepare (acc : PbftCore × List Action) (x : Nat × String)
    (k : Nat × Nat) (c : MsgCert) (h : mapGet acc.1.certStore k = some c) :
    ∃ c1, mapGet (sendPrepare acc x).1.certStore k = some c1 ∧ c1.prePrepare = c.prePrepare := by
  rw [sendPrepare_certStore, mapGet_mapSet]
  by_cases hk : (acc.1.view, x.1) = k
  · subst hk
    simp only [if_true, h, Option.getD_some]
    exact ⟨_, rfl, rfl⟩
  · simp only [hk, if_false]
    exact ⟨c, h, rfl⟩

theorem sendPrepare_fold_keeps_prePrepare (xs : XSet) (k : Nat × Nat) :
    ∀ (acc : PbftCore × List Action) (c : MsgCert), mapGet acc.1.certStore k = some c →
      ∃ c1, mapGet (xs.foldl sendPrepare acc).1.certStore k = some c1 ∧
        c1.prePrepare = c.prePrepare := by
  induction xs with
  | nil => intro acc c h; exact ⟨c, h, rfl⟩
  | cons x r ih =>
    intro acc c h
    obtain ⟨c1, h1, h2⟩ := sendPrepare_keeps_prePrepare acc x k c h
    obtain ⟨c2, h3, h4⟩ := ih (sendPrepare acc x) c1 h1
    simp only [List.foldl_cons]
    exact ⟨c2, h3, h4.trans h2⟩

theorem sendPrepare_keeps_sent (acc : PbftCore × List Action) (x : Nat × String)
    (k : Nat × Nat) (c : MsgCert) (p : Prepare) (h : mapGet acc.1.certStore k = some c)
    (hs : c.sentPrepare = true) (hp : p ∈ c.prepare) :
    ∃ c1, mapGet (sendPrepare acc x).1.certStore k = some c1 ∧ c1.sentPrepare = true ∧
      p ∈ c1.prepare := by
  rw [sendPrepare_certStore, mapGet_mapSet]
  by_cases hk : (acc.1.view, x.1) = k
  · subst hk
    simp only [if_true, h, Option.getD_some]
    exact ⟨_, rfl, rfl, List.mem_append_left _ hp⟩
  · simp only [hk, if_false]
    exact ⟨c, h, hs, hp⟩

theorem sendPrepare_fold_keeps_sent (xs : XSet) (k : Nat × Nat) (p : Prepare) :
    ∀ (acc : PbftCore × List Action) (c : MsgCert), mapGet acc.1.certStore k = some c →
      c.sentPrepare = true → p ∈ c.prepare →
      ∃ c1, mapGet (xs.foldl sendPrepare acc).1.certStore k = some c1 ∧
        c1.sentPrepare = true ∧ p ∈ c1.prepare := by
  induction xs with
  | nil => intro acc c h hs hp; exact ⟨c, h, hs, hp⟩
  | cons x r ih =>
    intro acc c h hs hp
    obtain ⟨c1, h1, h2, h3⟩ := sendPrepare_keeps_sent acc x k c p h hs hp
    simp only [List.foldl_cons]
    exact ih (sendPrepare acc x) c1 h1 h2 h3

theorem sendPrepare_fold_sent (xs : XSet) :
    ∀ (acc : PbftCore × List Action), ∀ e ∈ xs,
      ∃ c1, mapGet (xs.foldl sendPrepare acc).1.certStore (acc.1.view, e.1) = some c1 ∧
        c1.sentPrepare = true ∧ (⟨acc.1.view, e.1, e.2, acc.1.id⟩ : Prepare) ∈ c1.prepare := by
  induction xs with
  | nil => intro acc e he; cases he
  | cons x r ih =>
    intro acc e he
    simp only [List.foldl_cons]
    have hv : (sendPrepare acc x).1.view = acc.1.view := rfl
    have hi : (sendPrepare acc x).1.id = acc.1.id := rfl
    rcases List.mem_cons.mp he with rfl | he
    · have hnow : ∃ c, mapGet (sendPrepare acc e).1.certStore (acc.1.view, e.1) = some c ∧
          c.sentPrepare = true ∧ (⟨acc.1.view, e.1, e.2, acc.1.id⟩ : Prepare) ∈ c.prepare := by
        rw [sendPrepare_certStore, mapGet_mapSet]
        simp only [if_true]
        exact ⟨_, rfl, rfl, List.mem_append_right _ (List.mem_singleton_self _)⟩
      obtain ⟨c, h1, h2, h3⟩ := hnow
      exact sendPrepare_fold_keeps_sent r _ _ (sendPrepare acc e) c h1 h2 h3
    · have := ih (sendPrepare acc x) e he
      rw [hv, hi] at this
      exact this

/-! ## Rejected and accepted NEW-VIEW in processNewView (C15, C16) -/

theorem acceptNewView_backup (env : Env) (s : PbftCore) (nv : NewView)
    (hb : primary s s.view ≠ s.id) :
    acceptNewView env s nv =
      ((nv.Xset.foldl sendPrepare
          (nv.Xset.foldl installPrePrepare
            { s with
              activeView := true
              newViewStore := mapDel s.newViewStore ((s.view + (U64 - 1)) % U64) }, [])).1,
       (nv.Xset.foldl sendPrepare
          (nv.Xset.foldl installPrePrepare
            { s with
              activeView := true
              newViewStore := mapDel s.newViewStore ((s.view + (U64 - 1)) % U64) }, [])).2
        ++ [Action.consumerViewChange s.view]) := by
  obtain ⟨i1, i2, _, _, _, i6, _⟩ := installPrePrepare_fold_frame nv.Xset
    { s with
      activeView := true
      newViewStore := mapDel s.newViewStore ((s.view + (U64 - 1)) % U64) }
  obtain ⟨p1, _, _, _, _, _, _⟩ := sendPrepare_fold_frame nv.Xset
    (nv.Xset.foldl installPrePrepare
      { s with
        activeView := true
        newViewStore := mapDel s.newViewStore ((s.view + (U64 - 1)) % U64) }, [])
  have hprim : primary (nv.Xset.foldl installPrePrepare
      { s with
        activeView := true
        newViewStore := mapDel s.newViewStore ((s.view + (U64 - 1)) % U64) })
      (nv.Xset.foldl installPrePrepare
      { s with
        activeView := true
        newViewStore := mapDel s.newViewStore ((s.view + (U64 - 1)) % U64) }).view
      ≠ (nv.Xset.foldl installPrePrepare
      { s with
        activeView := true
        newViewStore := mapDel s.newViewStore ((s.view + (U64 - 1)) % U64) }).id := by
    unfold primary
    rw [i1, i2, i6]
    exact hb
  unfold acceptNewView
  simp only [hprim, ne_eq, not_false_eq_true, if_true]
  rw [p1, i1]

theorem acceptNewView_no_viewChange (env : Env) (s : PbftCore) (nv : NewView)
    (vc : ViewChange) (b : Bool) :
    Action.innerBroadcast (Message.viewChange vc) b ∉ (acceptNewView env s nv).2 := by
  unfold acceptNewView
  simp only
  split
  · rw [sendPrepare_fold_actions]
    simp
  · simp

/-- C15, amended with `view + 1 < 2^64`: for a replica that is not active and
holds the NEW-VIEW `nv` for its view: if `selectInitialCheckpoint` fails on
`nv.Vset`, or `assignSequenceNumbers` returns `nil`, or the recomputed
assignment differs from `nv.Xset` as a map, `processNewView` calls
`sendViewChange`, which raises the view by one, leaves `activeView` false and
hands a VIEW-CHANGE to `innerBroadcast`; if the recomputed assignment equals
`nv.Xset`, `processNewView` hands no VIEW-CHANGE to `innerBroadcast`. -/
theorem processNewView_rejects (fuel : Nat) (env : Env) (s : PbftCore) (nv : NewView)
    (hnv : mapGet s.newViewStore s.view = some nv) (hina : s.activeView = false)
    (hnd : (mapKeys nv.Xset).Nodup) (hv : s.view + 1 < U64) :
    ((selectInitialCheckpoint s.f nv.Vset).2 = false →
      processNewView fuel env s = some (sendViewChange env s)) ∧
    ((selectInitialCheckpoint s.f nv.Vset).2 = true →
      assignSequenceNumbers fuel s.f s.L nv.Vset (selectInitialCheckpoint s.f nv.Vset).1
        = some none →
      processNewView fuel env s = some (sendViewChange env s)) ∧
    (∀ X, (selectInitialCheckpoint s.f nv.Vset).2 = true →
      assignSequenceNumbers fuel s.f s.L nv.Vset (selectInitialCheckpoint s.f nv.Vset).1
        = some (some X) →
      (¬ ∀ k, mapGet X k = mapGet nv.Xset k) →
      processNewView fuel env s = some (sendViewChange env s)) ∧
    ((sendViewChange env s).1.view = s.view + 1 ∧
      (sendViewChange env s).1.activeView = false ∧
      ∃ vc, (sendViewChange env s).2
        = [Action.stopTimer, Action.innerBroadcast (Message.viewChange vc) true]) ∧
    (∀ X, (selectInitialCheckpoint s.f nv.Vset).2 = true →
      assignSequenceNumbers fuel s.f s.L nv.Vset (selectInitialCheckpoint s.f nv.Vset).1
        = some (some X) →
      (∀ k, mapGet X k = mapGet nv.Xset k) →
      ∀ r, processNewView fuel env s = some r →
        ∀ vc b, Action.innerBroadcast (Message.viewChange vc) b ∉ r.2) := by
  refine ⟨?_, ?_, ?_, ⟨Nat.mod_eq_of_lt hv, rfl, _, rfl⟩, ?_⟩
  · intro hok
    unfold processNewView
    simp [hnv, hina, hok]
  · intro hok hnil
    unfold processNewView
    simp [hnv, hina, hok, hnil]
  · intro X hok hX hne
    have hstep := processNewView_derived fuel env s nv X hnv hina hok hX
    have hcond : (!(decide (X.length = 0) && decide (nv.Xset.length = 0))
        && !deepEqual X nv.Xset) = true := by
      rw [← Bool.not_eq_false]
      intro hf
      exact hne ((xset_test_iff X nv.Xset (assign_some_nodup _ _ _ _ _ X hX) hnd).mp hf)
    rw [hstep]
    simp only [hcond, if_true]
  · intro X hok hX heq r hr vc b
    have hstep := processNewView_derived fuel env s nv X hnv hina hok hX
    have hcond := (xset_test_iff X nv.Xset (assign_some_nodup _ _ _ _ _ X hX) hnd).mpr heq
    simp only [hcond, Bool.false_eq_true, if_false] at hstep
    rw [hstep] at hr
    split at hr
    · cases hr
      simp
    · split at hr
      · cases hr
        simp
      · cases hr
        exact acceptNewView_no_viewChange env s nv vc b

theorem processNewView_takes_accept (fuel : Nat) (env : Env) (s : PbftCore) (nv : NewView)
    (X : XSet)
    (hnv : mapGet s.newViewStore s.view = some nv) (hina : s.activeView = false)
    (hnd : (mapKeys nv.Xset).Nodup)
    (hok : (selectInitialCheckpoint s.f nv.Vset).2 = true)
    (hX : assignSequenceNumbers fuel s.f s.L nv.Vset (selectInitialCheckpoint s.f nv.Vset).1
      = some (some X))
    (heq : ∀ k, mapGet X k = mapGet nv.Xset k)
    (hcp : (selectInitialCheckpoint s.f nv.Vset).1 ≤ s.h)
    (hreq : ∀ e ∈ nv.Xset, e.1 ≤ s.h ∨ e.2 = "" ∨ mapGet s.reqStore e.2 ≠ none) :
    processNewView fuel env s = some (acceptNewView env s nv) := by
  have hcond := (xset_test_iff X nv.Xset (assign_some_nodup _ _ _ _ _ X hX) hnd).mpr heq
  have hstep := processNewView_derived fuel env s nv X hnv hina hok hX
  simp only [hcond, Bool.false_eq_true, if_false] at hstep
  have hm : missingRequest s nv.Xset = false := by
    rw [Bool.eq_false_iff]
    intro hm
    obtain ⟨e, he, h1, h2, h3⟩ := (missingRequest_iff s nv.Xset).mp hm
    rcases hreq e he with h | h | h
    · omega
    · exact h2 h
    · exact h h3
  have hc : ¬ s.h < (selectInitialCheckpoint s.f nv.Vset).1 := by omega
  rw [hstep]
  simp [hc, hm]

/-- C16: when the `processNewView` of a replica that is not the primary of its
view `v` accepts the NEW-VIEW `nv`: `activeView` becomes true; for every
`(n, d)` of `nv.Xset`, `certStore[(v, n)]` holds the pre-prepare `(v, n, d)`,
has `sentPrepare` set and contains the prepare `(v, n, d)` of the local
replica, and exactly one prepare is handed to `innerBroadcast` for `n`, that
one; `seqNo` becomes the maximum of its old value and the keys of `nv.Xset`;
`view` and `h` are unchanged; `newViewStore` has no entry for `v - 1`. -/
theorem processNewView_accepts (fuel : Nat) (env : Env) (s : PbftCore) (nv : NewView) (X : XSet)
    (hnv : mapGet s.newViewStore s.view = some nv) (hina : s.activeView = false)
    (hnd : (mapKeys nv.Xset).Nodup) (hbackup : primary s s.view ≠ s.id)
    (hok : (selectInitialCheckpoint s.f nv.Vset).2 = true)
    (hX : assignSequenceNumbers fuel s.f s.L nv.Vset (selectInitialCheckpoint s.f nv.Vset).1
      = some (some X))
    (heq : ∀ k, mapGet X k = mapGet nv.Xset k)
    (hcp : (selectInitialCheckpoint s.f nv.Vset).1 ≤ s.h)
    (hreq : ∀ e ∈ nv.Xset, e.1 ≤ s.h ∨ e.2 = "" ∨ mapGet s.reqStore e.2 ≠ none) :
    ∃ r, processNewView fuel env s = some r ∧ r.1.activeView = true ∧
      (∀ e ∈ nv.Xset,
        (∃ cert, mapGet r.1.certStore (s.view, e.1) = some cert ∧
          cert.prePrepare = some ⟨s.view, e.1, e.2, s.id⟩ ∧
          cert.sentPrepare = true ∧
          (⟨s.view, e.1, e.2, s.id⟩ : Prepare) ∈ cert.prepare) ∧
        List.count (Action.innerBroadcast (Message.prepare ⟨s.view, e.1, e.2, s.id⟩) true) r.2
          = 1 ∧
        ∀ p b, Action.innerBroadcast (Message.prepare p) b ∈ r.2 →
          p.SequenceNumber = e.1 → p = ⟨s.view, e.1, e.2, s.id⟩ ∧ b = true) ∧
      s.seqNo ≤ r.1.seqNo ∧ (∀ e ∈ nv.Xset, e.1 ≤ r.1.seqNo) ∧
      (r.1.seqNo = s.seqNo ∨ ∃ e ∈ nv.Xset, r.1.seqNo = e.1) ∧
      r.1.view = s.view ∧ r.1.h = s.h ∧
      mapGet r.1.newViewStore ((s.view + (U64 - 1)) % U64) = none ∧
      (1 ≤ s.view → s.view < U64 → mapGet r.1.newViewStore (s.view - 1) = none) := by
  refine ⟨acceptNewView env s nv,
    processNewView_takes_accept fuel env s nv X hnv hina hnd hok hX heq hcp hreq, ?_⟩
  rw [acceptNewView_backup env s nv hbackup]
  obtain ⟨i1, i2, i3, i4, i5, _, _⟩ := installPrePrepare_fold_frame nv.Xset
    { s with
      activeView := true
      newViewStore := mapDel s.newViewStore ((s.view + (U64 - 1)) % U64) }
  obtain ⟨q1, q2, q3⟩ := installPrePrepare_fold_seqNo nv.Xset
    { s with
      activeView := true
      newViewStore := mapDel s.newViewStore ((s.view + (U64 - 1)) % U64) }
  have icert := installPrePrepare_fold_cert nv.Xset
    { s with
      activeView := true
      newViewStore := mapDel s.newViewStore ((s.view + (U64 - 1)) % U64) } hnd
  generalize hS2 : nv.Xset.foldl installPrePrepare
    { s with
      activeView := true
      newViewStore := mapDel s.newViewStore ((s.view + (U64 - 1)) % U64) } = S2
    at i1 i2 i3 i4 i5 q1 q2 q3 icert
  simp only at i1 i2 i3 i4 i5 q1 q2 q3 icert
  obtain ⟨p1, p2, p3, p4, p5, p6, _⟩ := sendPrepare_fold_frame nv.Xset (S2, [])
  have psent := sendPrepare_fold_sent nv.Xset (S2, [])
  have pacts := sendPrepare_fold_actions nv.Xset (S2, [])
  have pkeep := sendPrepare_fold_keeps_prePrepare nv.Xset
  generalize hF : nv.Xset.foldl sendPrepare (S2, []) = F
    at p1 p2 p3 p4 p5 p6 psent pacts pkeep
  simp only [i1, i2, List.nil_append] at p1 p2 p3 p4 p5 p6 psent pacts
  have hdel : mapGet F.1.newViewStore ((s.view + (U64 - 1)) % U64) = none := by
    rw [p5, i5]
    unfold mapDel
    refine (mapGet_filter_key (fun k : Nat => decide (k ≠ (s.view + (U64 - 1)) % U64))
      _ _).trans ?_
    simp
  have hxs : nv.Xset.Nodup := List.Nodup.of_map Prod.fst hnd
  have hinj : Function.Injective (fun e : Nat × String =>
      Action.innerBroadcast (Message.prepare ⟨s.view, e.1, e.2, s.id⟩) true) := by
    intro a b hab
    simp only [Action.innerBroadcast.injEq, Message.prepare.injEq, Prepare.mk.injEq, and_true,
      true_and] at hab
    exact Prod.ext hab.1 hab.2
  refine ⟨by rw [p4, i4], ?_, by rw [p6]; exact q1, fun e he => by rw [p6]; exact q2 e he,
    by rw [p6]; exact q3, by rw [p1], by rw [p3, i3], hdel, ?_⟩
  · intro e he
    refine ⟨?_, ?_, ?_⟩
    · obtain ⟨c0, hc0, hpp⟩ := icert e he
      obtain ⟨c1, hc1, hs1, hp1⟩ := psent e he
      obtain ⟨c2, hc2, hpp2⟩ := pkeep (s.view, e.1) (S2, []) c0 hc0
      rw [hF] at hc2
      rw [hc1] at hc2
      cases hc2
      exact ⟨c1, hc1, hpp2.trans hpp, hs1, hp1⟩
    · rw [pacts, List.count_append]
      have h1 : List.count (Action.innerBroadcast (Message.prepare ⟨s.view, e.1, e.2, s.id⟩) true)
          (nv.Xset.map (fun e : Nat × String =>
            Action.innerBroadcast (Message.prepare ⟨s.view, e.1, e.2, s.id⟩) true)) = 1 := by
        rw [List.count_map_of_injective nv.Xset _ hinj e]
        exact List.count_eq_one_of_mem hxs he
      rw [h1]
      simp
    · intro p b hmem hn
      rw [pacts] at hmem
      rcases List.mem_append.mp hmem with hm | hm
      · obtain ⟨e1, he1, hact⟩ := List.mem_map.mp hm
        simp only [Action.innerBroadcast.injEq, Message.prepare.injEq] at hact
        obtain ⟨hp, hb⟩ := hact
        have hk : e1.1 = e.1 := by
          rw [← hn, ← hp]
        have hee : e1 = e := eq_of_mem_of_key_eq nv.Xset hnd e1 e he1 he hk
        rw [← hp, hee]
        exact ⟨rfl, hb.symm⟩
      · simp at hm
  · intro h1 h2
    have : (s.view + (U64 - 1)) % U64 = s.view - 1 := by
      have h3 : s.view + (U64 - 1) = (s.view - 1) + U64 := by omega
      rw [h3, Nat.add_mod_right, Nat.mod_eq_of_lt (by omega)]
    rw [← this]
    exact hdel

/-! ## Amplification in recvViewChange (C14) -/

theorem amplify_fold (view : Nat) (order : List ((Nat × Nat) × ViewChange)) :
    ∀ acc : List (Nat × Bool) × Nat, (mapKeys acc.1).Nodup → (acc.2 = 0 ∨ view < acc.2) →
      (mapKeys (order.foldl (amplifyStep view) acc).1).Nodup ∧
      (∀ id, id ∈ mapKeys (order.foldl (amplifyStep view) acc).1 ↔
        id ∈ mapKeys acc.1 ∨ ∃ e ∈ order, view < e.1.1 ∧ e.1.2 = id) ∧
      ((order.foldl (amplifyStep view) acc).2 = acc.2 ∨
        ∃ e ∈ order, view < e.1.1 ∧ (order.foldl (amplifyStep view) acc).2 = e.1.1) ∧
      (∀ e ∈ order, view < e.1.1 →
        (order.foldl (amplifyStep view) acc).2 ≤ e.1.1 ∧
          (order.foldl (amplifyStep view) acc).2 ≠ 0) ∧
      (acc.2 ≠ 0 → (order.foldl (amplifyStep view) acc).2 ≤ acc.2 ∧
        (order.foldl (amplifyStep view) acc).2 ≠ 0) := by
  induction order with
  | nil =>
    intro acc hnd _
    refine ⟨hnd, fun id => by simp, Or.inl rfl, fun e he => (by cases he), fun h => ⟨le_refl _, h⟩⟩
  | cons x t ih =>
    intro acc hnd hinv
    simp only [List.foldl_cons]
    by_cases hx : x.1.1 ≤ view
    · have hs : amplifyStep view acc x = acc := by simp [amplifyStep, hx]
      rw [hs]
      obtain ⟨a, b, c, d, e⟩ := ih acc hnd hinv
      refine ⟨a, ?_, ?_, ?_, e⟩
      · intro id
        rw [b id]
        constructor
        · rintro (h | ⟨e1, he1, h1, h2⟩)
          · exact Or.inl h
          · exact Or.inr ⟨e1, List.mem_cons_of_mem _ he1, h1, h2⟩
        · rintro (h | ⟨e1, he1, h1, h2⟩)
          · exact Or.inl h
          · rcases List.mem_cons.mp he1 with rfl | he1
            · omega
            · exact Or.inr ⟨e1, he1, h1, h2⟩
      · rcases c with c | ⟨e1, he1, h1, h2⟩
        · exact Or.inl c
        · exact Or.inr ⟨e1, List.mem_cons_of_mem _ he1, h1, h2⟩
      · intro e1 he1 h1
        rcases List.mem_cons.mp he1 with rfl | he1
        · omega
        · exact d e1 he1 h1
    · have hgt : view < x.1.1 := by omega
      have hs1 : (amplifyStep view acc x).1 = mapSet acc.1 x.1.2 true := by
        simp [amplifyStep, hx]
      have hs2 : (amplifyStep view acc x).2
          = if acc.2 = 0 ∨ x.1.1 < acc.2 then x.1.1 else acc.2 := by
        simp [amplifyStep, hx]
      have hne : (amplifyStep view acc x).2 ≠ 0 := by
        rw [hs2]; split <;> omega
      have hle : (amplifyStep view acc x).2 ≤ x.1.1 := by
        rw [hs2]; split <;> omega
      have hle2 : acc.2 ≠ 0 → (amplifyStep view acc x).2 ≤ acc.2 := by
        intro h; rw [hs2]; split <;> omega
      have hor : (amplifyStep view acc x).2 = acc.2 ∨ (amplifyStep view acc x).2 = x.1.1 := by
        rw [hs2]; split
        · exact Or.inr rfl
        · exact Or.inl rfl
      have hinv2 : (amplifyStep view acc x).2 = 0 ∨ view < (amplifyStep view acc x).2 := by
        right
        rcases hor with h | h
        · rcases hinv with h0 | h0
          · rw [h] at hne; exact absurd h0 hne
          · rw [h]; exact h0
        · rw [h]; exact hgt
      have hnd2 : (mapKeys (amplifyStep view acc x).1).Nodup := by
        rw [hs1]; exact nodup_mapKeys_mapSet _ _ _ hnd
      obtain ⟨a, b, c, d, e⟩ := ih (amplifyStep view acc x) hnd2 hinv2
      refine ⟨a, ?_, ?_, ?_, ?_⟩
      · intro id
        rw [b id, hs1, mem_mapKeys_mapSet]
        constructor
        · rintro ((h | h) | ⟨e1, he1, h1, h2⟩)
          · exact Or.inr ⟨x, List.mem_cons_self _ _, hgt, h.symm⟩
          · exact Or.inl h
          · exact Or.inr ⟨e1, List.mem_cons_of_mem _ he1, h1, h2⟩
        · rintro (h | ⟨e1, he1, h1, h2⟩)
          · exact Or.inl (Or.inr h)
          · rcases List.mem_cons.mp he1 with rfl | he1
            · exact Or.inl (Or.inl h2.symm)
            · exact Or.inr ⟨e1, he1, h1, h2⟩
      · rcases c with c | ⟨e1, he1, h1, h2⟩
        · rcases hor with h | h
          · exact Or.inl (c.trans h)
          · exact Or.inr ⟨x, List.mem_cons_self _ _, hgt, c.trans h⟩
        · exact Or.inr ⟨e1, List.mem_cons_of_mem _ he1, h1, h2⟩
      · intro e1 he1 h1
        rcases List.mem_cons.mp he1 with rfl | he1
        · exact ⟨le_trans (e hne).1 hle, (e hne).2⟩
        · exact d e1 he1 h1
      · intro h
        exact ⟨le_trans (e hne).1 (hle2 h), (e hne).2⟩

/-- The number of entries of `replicas` after the loop is the number of
distinct replica ids among the keys of view-changes for a view above `view`. -/
theorem amplifyLoop_length (view : Nat) (order : List ((Nat × Nat) × ViewChange)) :
    (amplifyLoop view order).1.length =
      (((order.filter (fun e => decide (view < e.1.1))).map (fun e => e.1.2)).dedup).length := by
  obtain ⟨a, b, _, _, _⟩ := amplify_fold view order ([], 0) (by simp [mapKeys]) (Or.inl rfl)
  have hperm : (mapKeys (amplifyLoop view order).1).Perm
      (((order.filter (fun e => decide (view < e.1.1))).map (fun e => e.1.2)).dedup) := by
    unfold amplifyLoop
    rw [List.perm_ext_iff_of_nodup a (List.nodup_dedup _)]
    intro id
    have := b id
    rw [this, List.mem_dedup, List.mem_map]
    simp only [mapKeys, List.map_nil, List.not_mem_nil, false_or, List.mem_filter,
      decide_eq_true_eq]
    constructor
    · rintro ⟨e, he, h1, h2⟩
      exact ⟨e, ⟨he, h1⟩, h2⟩
    · rintro ⟨e, ⟨he, h1⟩, h2⟩
      exact ⟨e, he, h1, h2⟩
  have := hperm.length_eq
  simpa [mapKeys] using this

theorem sendViewChange_message (env : Env) (t : PbftCore) :
    ∃ vc, (sendViewChange env t).2
        = [Action.stopTimer, Action.innerBroadcast (Message.viewChange vc) true] ∧
      vc.View = (t.view + 1) % U64 ∧ vc.H = t.h ∧ vc.ReplicaId = t.id :=
  ⟨_, rfl, rfl, rfl, rfl⟩

theorem recvViewChange_stored (fuel : Nat) (env : Env) (s : PbftCore) (vc : ViewChange)
    (hsig : env.verify vc = true) (hview : s.view ≤ vc.View)
    (hcorr : correctViewChange s.L vc = true)
    (hnew : mapGet s.viewChangeStore (vc.View, vc.ReplicaId) = none) :
    recvViewChange fuel env s vc =
      if (amplifyLoop s.view (storeViewChange s vc).viewChangeStore).1.length ≥ s.f + 1 then
        some (sendViewChange env
          { storeViewChange s vc with
            view := ((amplifyLoop s.view (storeViewChange s vc).viewChangeStore).2
              + (U64 - 1)) % U64 })
      else afterAmplification fuel env (storeViewChange s vc) vc := by
  unfold recvViewChange
  have hc : (decide (vc.View ≥ s.view) && correctViewChange s.L vc
      && (mapGet s.viewChangeStore (vc.View, vc.ReplicaId)).isNone) = true := by
    simp [hview, hcorr, hnew]
  simp only [hsig, hc, Bool.not_true, Bool.false_eq_true, if_false]
  rfl

/-- C14: when, after an accepted view-change has been stored,
`viewChangeStore` holds view-changes for views above the local view from at
least `f+1` distinct replicas, `recvViewChange` sends the replica's own
VIEW-CHANGE for the smallest such view `m`: the view becomes `m` and
`activeView` false; with fewer than `f+1` such replicas the amplification step
leaves the view unchanged and the handler goes on with the stored state. -/
theorem recvViewChange_amplification (fuel : Nat) (env : Env) (s : PbftCore) (vc : ViewChange)
    (hsig : env.verify vc = true) (hview : s.view ≤ vc.View)
    (hcorr : correctViewChange s.L vc = true)
    (hnew : mapGet s.viewChangeStore (vc.View, vc.ReplicaId) = none)
    (hu : ∀ e ∈ s.viewChangeStore, e.1.1 < U64) (hvu : vc.View < U64) :
    (s.f + 1 ≤ ((((storeViewChange s vc).viewChangeStore.filter
        (fun e => decide (s.view < e.1.1))).map (fun e => e.1.2)).dedup).length →
      ∃ m r, recvViewChange fuel env s vc = some r ∧
        (∃ e ∈ (storeViewChange s vc).viewChangeStore, s.view < e.1.1 ∧ e.1.1 = m) ∧
        (∀ e ∈ (storeViewChange s vc).viewChangeStore, s.view < e.1.1 → m ≤ e.1.1) ∧
        r.1.view = m ∧ r.1.activeView = false ∧
        ∃ own, r.2 = [Action.stopTimer, Action.innerBroadcast (Message.viewChange own) true] ∧
          own.View = m ∧ own.ReplicaId = s.id) ∧
    (((((storeViewChange s vc).viewChangeStore.filter
        (fun e => decide (s.view < e.1.1))).map (fun e => e.1.2)).dedup).length < s.f + 1 →
      recvViewChange fuel env s vc = afterAmplification fuel env (storeViewChange s vc) vc ∧
      (storeViewChange s vc).view = s.view) := by
  have hstep := recvViewChange_stored fuel env s vc hsig hview hcorr hnew
  rw [amplifyLoop_length] at hstep
  constructor
  · intro hge
    obtain ⟨_, b, c, d, _⟩ := amplify_fold s.view (storeViewChange s vc).viewChangeStore ([], 0)
      (by simp [mapKeys]) (Or.inl rfl)
    have hpos : 0 < ((((storeViewChange s vc).viewChangeStore.filter
        (fun e => decide (s.view < e.1.1))).map (fun e => e.1.2)).dedup).length := by omega
    obtain ⟨id, hid⟩ := List.exists_mem_of_length_pos hpos
    rw [List.mem_dedup, List.mem_map] at hid
    obtain ⟨e0, he0, _⟩ := hid
    rw [List.mem_filter] at he0
    have he0v : s.view < e0.1.1 := by simpa using he0.2
    have hm := d e0 he0.1 he0v
    have hex : ∃ e ∈ (storeViewChange s vc).viewChangeStore, s.view < e.1.1 ∧
        e.1.1 = (amplifyLoop s.view (storeViewChange s vc).viewChangeStore).2 := by
      rcases c with c | ⟨e1, he1, h1, h2⟩
      · exact absurd c hm.2
      · exact ⟨e1, he1, h1, h2.symm⟩
    have hbound : (amplifyLoop s.view (storeViewChange s vc).viewChangeStore).2 < U64 := by
      obtain ⟨e1, he1, _, h2⟩ := hex
      rw [← h2]
      rcases mem_mapSet _ _ _ _ he1 with h | h
      · rw [h]; exact hvu
      · exact hu e1 h
    have hm0 : (amplifyLoop s.view (storeViewChange s vc).viewChangeStore).2 ≠ 0 := hm.2
    have hback : (((amplifyLoop s.view (storeViewChange s vc).viewChangeStore).2 + (U64 - 1)) % U64
        + 1) % U64 = (amplifyLoop s.view (storeViewChange s vc).viewChangeStore).2 := by
      generalize (amplifyLoop s.view (storeViewChange s vc).viewChangeStore).2 = m at hbound hm0
      have h3 : m + (U64 - 1) = (m - 1) + U64 := by omega
      rw [h3, Nat.add_mod_right, Nat.mod_eq_of_lt (by omega : m - 1 < U64)]
      have h4 : m - 1 + 1 = m := by omega
      rw [h4, Nat.mod_eq_of_lt hbound]
    obtain ⟨own, ho1, ho2, _, ho4⟩ := sendViewChange_message env
      { storeViewChange s vc with
        view := ((amplifyLoop s.view (storeViewChange s vc).viewChangeStore).2
          + (U64 - 1)) % U64 }
    refine ⟨(amplifyLoop s.view (storeViewChange s vc).viewChangeStore).2, _, ?_, hex,
      fun e he hv => (d e he hv).1, ?_, rfl, own, ho1, ?_, ho4⟩
    · rw [hstep]
      simp only [ge_iff_le, hge, if_true]
    · exact hback
    · rw [ho2]
      exact hback
  · intro hlt
    refine ⟨?_, rfl⟩
    rw [hstep]
    have : ¬ (s.f + 1 ≤ ((((storeViewChange s vc).viewChangeStore.filter
        (fun e => decide (s.view < e.1.1))).map (fun e => e.1.2)).dedup).length) := by omega
    simp only [ge_iff_le, this, if_false]

/-! ## Dropped and repeated view-changes in recvViewChange (C13) -/

theorem resubmit_fold_frame (env : Env)
    (hreq : ∀ t q, (env.recvRequest t q).view = t.view ∧
      (env.recvRequest t q).viewChangeStore = t.viewChangeStore)
    (xs : List (String × Request)) :
    ∀ t : PbftCore, (xs.foldl (resubmit env) t).view = t.view ∧
      (xs.foldl (resubmit env) t).viewChangeStore = t.viewChangeStore := by
  induction xs with
  | nil => intro t; exact ⟨rfl, rfl⟩
  | cons x r ih =>
    intro t
    simp only [List.foldl_cons]
    have hstep : (resubmit env t x).view = t.view ∧
        (resubmit env t x).viewChangeStore = t.viewChangeStore := by
      unfold resubmit
      split
      · exact ⟨rfl, rfl⟩
      · exact hreq t x.2
    obtain ⟨a, b⟩ := ih (resubmit env t x)
    exact ⟨a.trans hstep.1, b.trans hstep.2⟩

theorem acceptNewView_frame (env : Env)
    (hreq : ∀ t q, (env.recvRequest t q).view = t.view ∧
      (env.recvRequest t q).viewChangeStore = t.viewChangeStore)
    (s : PbftCore) (nv : NewView) :
    (acceptNewView env s nv).1.view = s.view ∧
    (acceptNewView env s nv).1.viewChangeStore = s.viewChangeStore := by
  obtain ⟨i1, _, _, _, _, _, i7⟩ := installPrePrepare_fold_frame nv.Xset
    { s with
      activeView := true
      newViewStore := mapDel s.newViewStore ((s.view + (U64 - 1)) % U64) }
  unfold acceptNewView
  simp only
  split
  · obtain ⟨p1, _, _, _, _, _, p7⟩ := sendPrepare_fold_frame nv.Xset
      (nv.Xset.foldl installPrePrepare
        { s with
          activeView := true
          newViewStore := mapDel s.newViewStore ((s.view + (U64 - 1)) % U64) }, [])
    exact ⟨p1.trans i1, p7.trans i7⟩
  · obtain ⟨r1, r2⟩ := resubmit_fold_frame env hreq
      (nv.Xset.foldl installPrePrepare
        { s with
          activeView := true
          newViewStore := mapDel s.newViewStore ((s.view + (U64 - 1)) % U64) }).outstandingReqs
      (nv.Xset.foldl installPrePrepare
        { s with
          activeView := true
          newViewStore := mapDel s.newViewStore ((s.view + (U64 - 1)) % U64) })
    exact ⟨r1.trans i1, r2.trans i7⟩

/-- A view-change stored under `k` is, after `sendViewChange`, still stored or
for a view below the new one. -/
theorem sendViewChange_keeps (env : Env) (t : PbftCore) (k : Nat × Nat)
    (h : mapGet t.viewChangeStore k ≠ none) :
    mapGet (sendViewChange env t).1.viewChangeStore k ≠ none ∨
      k.1 < (sendViewChange env t).1.view := by
  have hvs : (sendViewChange env t).1.viewChangeStore
      = t.viewChangeStore.filter
          (fun e => (fun k : Nat × Nat => !decide (k.1 < (t.view + 1) % U64)) e.1) := rfl
  have hview : (sendViewChange env t).1.view = (t.view + 1) % U64 := rfl
  rw [hvs, hview]
  by_cases hk : k.1 < (t.view + 1) % U64
  · exact Or.inr hk
  · left
    have := mapGet_filter_key (fun k : Nat × Nat => !decide (k.1 < (t.view + 1) % U64))
      t.viewChangeStore k
    rw [this]
    simp only [hk, decide_False, Bool.not_false, if_true]
    exact h

theorem processNewView_cases (fuel : Nat) (env : Env) (t : PbftCore)
    (r : PbftCore × List Action) (h : processNewView fuel env t = some r) :
    r = (t, []) ∨ r = sendViewChange env t ∨ ∃ nv, r = acceptNewView env t nv := by
  unfold processNewView at h
  split at h
  · exact Or.inl (Option.some.inj h).symm
  · rename_i nv _
    split at h
    · exact Or.inl (Option.some.inj h).symm
    · simp only at h
      split at h
      · exact Or.inr (Or.inl (Option.some.inj h).symm)
      · split at h
        · cases h
        · exact Or.inr (Or.inl (Option.some.inj h).symm)
        · split at h
          · exact Or.inr (Or.inl (Option.some.inj h).symm)
          · split at h
            · exact Or.inl (Option.some.inj h).symm
            · split at h
              · exact Or.inl (Option.some.inj h).symm
              · exact Or.inr (Or.inr ⟨nv, (Option.some.inj h).symm⟩)

theorem processNewView_keeps (fuel : Nat) (env : Env)
    (hreq : ∀ t q, (env.recvRequest t q).view = t.view ∧
      (env.recvRequest t q).viewChangeStore = t.viewChangeStore)
    (t : PbftCore) (k : Nat × Nat) (hk : mapGet t.viewChangeStore k ≠ none)
    (r : PbftCore × List Action) (h : processNewView fuel env t = some r) :
    mapGet r.1.viewChangeStore k ≠ none ∨ k.1 < r.1.view := by
  rcases processNewView_cases fuel env t r h with h1 | h1 | ⟨nv, h1⟩
  · rw [h1]; exact Or.inl hk
  · rw [h1]; exact sendViewChange_keeps env t k hk
  · rw [h1, (acceptNewView_frame env hreq t nv).2]
    exact Or.inl hk

theorem sendNewView_keeps (fuel : Nat) (env : Env)
    (hreq : ∀ t q, (env.recvRequest t q).view = t.view ∧
      (env.recvRequest t q).viewChangeStore = t.viewChangeStore)
    (t : PbftCore) (k : Nat × Nat) (hk : mapGet t.viewChangeStore k ≠ none)
    (r : PbftCore × List Action) (h : sendNewView fuel env t = some r) :
    mapGet r.1.viewChangeStore k ≠ none ∨ k.1 < r.1.view := by
  unfold sendNewView at h
  split at h
  · cases h; exact Or.inl hk
  · simp only at h
    split at h
    · cases h; exact Or.inl hk
    · split at h
      · cases h
      · cases h; exact Or.inl hk
      · rename_i msgList _
        simp only [Option.map_eq_some'] at h
        obtain ⟨r1, hr1, hr⟩ := h
        rw [← hr]
        refine processNewView_keeps fuel env hreq _ k ?_ r1 hr1
        exact hk

theorem afterAmplification_keeps (fuel : Nat) (env : Env)
    (hreq : ∀ t q, (env.recvRequest t q).view = t.view ∧
      (env.recvRequest t q).viewChangeStore = t.viewChangeStore)
    (t : PbftCore) (vc : ViewChange) (k : Nat × Nat) (hk : mapGet t.viewChangeStore k ≠ none)
    (r : PbftCore × List Action) (h : afterAmplification fuel env t vc = some r) :
    mapGet r.1.viewChangeStore k ≠ none ∨ k.1 < r.1.view := by
  unfold afterAmplification at h
  simp only [Option.map_eq_some'] at h
  obtain ⟨r1, hr1, hr⟩ := h
  rw [← hr]
  by_cases hq : vc.View = t.view ∧
      t.viewChangeStore.countP (fun e => decide (e.1.1 = t.view)) = 2 * t.f + 1
  · simp only [hq, and_self, if_true] at hr1
    split at hr1
    · refine sendNewView_keeps fuel env hreq _ k ?_ r1 hr1
      exact hk
    · refine processNewView_keeps fuel env hreq _ k ?_ r1 hr1
      exact hk
  · simp only [hq, if_false] at hr1
    split at hr1
    · exact sendNewView_keeps fuel env hreq t k hk r1 hr1
    · exact processNewView_keeps fuel env hreq t k hk r1 hr1

theorem recvViewChange_drop (fuel : Nat) (env : Env) (s : PbftCore) (vc : ViewChange)
    (h : env.verify vc = false ∨ vc.View < s.view ∨ correctViewChange s.L vc = false ∨
      mapGet s.viewChangeStore (vc.View, vc.ReplicaId) ≠ none) :
    recvViewChange fuel env s vc = some (s, []) := by
  unfold recvViewChange
  by_cases hsig : env.verify vc = true
  · have hc : (decide (vc.View ≥ s.view) && correctViewChange s.L vc
        && (mapGet s.viewChangeStore (vc.View, vc.ReplicaId)).isNone) = false := by
      rcases h with h | h | h | h
      · rw [h] at hsig; cases hsig
      · have : ¬ vc.View ≥ s.view := by omega
        simp [this]
      · simp [h]
      · cases hg : mapGet s.viewChangeStore (vc.View, vc.ReplicaId) with
        | none => exact absurd hg h
        | some v => simp
    simp only [hsig, hc, Bool.not_true, Bool.false_eq_true, if_false, Bool.not_false, if_true]
  · have hsig2 : env.verify vc = false := by simpa using hsig
    simp only [hsig2, Bool.not_false, if_true]

/-- C13: `recvViewChange vc` leaves the whole state unchanged and makes no
call when the signature of `vc` does not verify, when `vc.View` is below the
local view, when `correctViewChange vc` is false, or when `viewChangeStore`
already holds a view-change under `(vc.View, vc.ReplicaId)`; so delivering the
same view-change again directly after a first delivery changes nothing, the
request handler called by the primary leaving the view and the view-change
store as they are. -/
theorem recvViewChange_drops (fuel : Nat) (env : Env) (s : PbftCore) (vc : ViewChange) :
    ((env.verify vc = false ∨ vc.View < s.view ∨ correctViewChange s.L vc = false ∨
        mapGet s.viewChangeStore (vc.View, vc.ReplicaId) ≠ none) →
      recvViewChange fuel env s vc = some (s, [])) ∧
    ((∀ t q, (env.recvRequest t q).view = t.view ∧
        (env.recvRequest t q).viewChangeStore = t.viewChangeStore) →
      ∀ r, recvViewChange fuel env s vc = some r →
        ∀ fuel2, recvViewChange fuel2 env r.1 vc = some (r.1, [])) := by
  refine ⟨recvViewChange_drop fuel env s vc, ?_⟩
  intro hreq r hr fuel2
  by_cases hdrop : env.verify vc = false ∨ vc.View < s.view ∨ correctViewChange s.L vc = false ∨
      mapGet s.viewChangeStore (vc.View, vc.ReplicaId) ≠ none
  · have h1 := recvViewChange_drop fuel env s vc hdrop
    rw [h1] at hr
    cases hr
    exact recvViewChange_drop fuel2 env s vc hdrop
  · simp only [not_or, Bool.not_eq_false, not_lt, ne_eq, not_not] at hdrop
    obtain ⟨hsig, hview, hcorr, hnew⟩ := hdrop
    have hstep := recvViewChange_stored fuel env s vc hsig hview hcorr hnew
    have hst : mapGet (storeViewChange s vc).viewChangeStore (vc.View, vc.ReplicaId) ≠ none := by
      unfold storeViewChange
      simp [mapGet_mapSet]
    have hJ : mapGet r.1.viewChangeStore (vc.View, vc.ReplicaId) ≠ none ∨ vc.View < r.1.view := by
      rw [hstep] at hr
      split at hr
      · cases hr
        exact sendViewChange_keeps env _ (vc.View, vc.ReplicaId) hst
      · exact afterAmplification_keeps fuel env hreq _ vc (vc.View, vc.ReplicaId) hst r hr
    apply recvViewChange_drop
    rcases hJ with h | h
    · exact Or.inr (Or.inr (Or.inr h))
    · exact Or.inr (Or.inl h)

/-! ## Evaluation at concrete inputs (C11 to C20) -/

/-- C11 fails on the code: with `h = 10` and `L = 4`, `chkpts` holding the
sequence numbers `0`, `10` and `50`, the `Cset` of the VIEW-CHANGE handed to
`innerBroadcast` holds all three pairs, two of them outside `[h, h + L]`. -/
theorem sendViewChange_cset_unfiltered :
    (sendViewChange idleEnv staleReplica).2
      = [Action.stopTimer,
         Action.innerBroadcast (Message.viewChange
           ⟨2, 10, [⟨0, "s0"⟩, ⟨10, "s10"⟩, ⟨50, "s50"⟩], [], [], 0⟩) true] ∧
    ¬ (staleReplica.h ≤ 0) ∧ ¬ (50 ≤ staleReplica.h + staleReplica.L) := by
  decide

/-- C13 at a view-change for view `2` delivered twice to a replica in view
`1`: the second delivery changes nothing. -/
theorem recvViewChange_drops_witness :
    recvViewChange 5 idleEnv waitingReplica (plainVc 2)
      = some (storeViewChange waitingReplica (plainVc 2), []) ∧
    recvViewChange 5 idleEnv (storeViewChange waitingReplica (plainVc 2)) (plainVc 2)
      = some (storeViewChange waitingReplica (plainVc 2), []) :=
  ⟨by decide,
   (recvViewChange_drops 5 idleEnv waitingReplica (plainVc 2)).2 (fun _ _ => ⟨rfl, rfl⟩)
     (storeViewChange waitingReplica (plainVc 2), []) (by decide) 5⟩

/-- C14 at a replica in view `1` (`f = 1`) that holds a view-change of replica
`2` for view `3` and receives one of replica `3` for view `3`. -/
theorem recvViewChange_amplification_witness :
    ∃ r, recvViewChange 5 idleEnv amplifyReplica laterVc = some r ∧ r.1.view = 3 ∧
      r.1.activeView = false := by
  obtain ⟨m, r, h1, ⟨e, he, _, hm⟩, _, h4, h5, _⟩ :=
    (recvViewChange_amplification 5 idleEnv amplifyReplica laterVc (by decide) (by decide)
      (by decide) (by decide) (by decide) (by decide)).1 (by decide)
  have hm3 : m = 3 := by
    have hall : ∀ x ∈ (storeViewChange amplifyReplica laterVc).viewChangeStore, x.1.1 = 3 := by
      decide
    rw [← hm]
    exact hall e he
  exact ⟨r, h1, by rw [h4, hm3], h5⟩

/-- C15, as written, fails in the last view of a `uint64`: `lastViewMismatch`
is not active and holds a NEW-VIEW for its view whose `Xset` differs from the
recomputed, empty assignment; `processNewView` calls `sendViewChange`, and the
view becomes `0`, not the view increased by one. -/
theorem processNewView_rejects_wraps :
    lastViewMismatch.activeView = false ∧
    (mapGet lastViewMismatch.newViewStore lastViewMismatch.view).map (fun nv => nv.Xset)
      = some [(1, "x")] ∧
    selectInitialCheckpoint lastViewMismatch.f mismatchNewView.Vset = (0, true) ∧
    assignSequenceNumbers 5 lastViewMismatch.f lastViewMismatch.L mismatchNewView.Vset 0
      = some (some []) ∧
    processNewView 5 idleEnv lastViewMismatch = some (sendViewChange idleEnv lastViewMismatch) ∧
    (sendViewChange idleEnv lastViewMismatch).1.view = 0 ∧
    (sendViewChange idleEnv lastViewMismatch).1.view ≠ lastViewMismatch.view + 1 := by
  decide

/-- C15 at `mismatchStored`, whose NEW-VIEW carries the `Xset` `{1: "x"}` while
the recomputed assignment is empty: `processNewView` calls `sendViewChange`,
the view goes from `1` to `2` and `activeView` is false. -/
theorem processNewView_rejects_witness :
    assignSequenceNumbers 5 mismatchStored.f mismatchStored.L mismatchNewView.Vset
      (selectInitialCheckpoint mismatchStored.f mismatchNewView.Vset).1 = some (some []) ∧
    processNewView 5 idleEnv mismatchStored = some (sendViewChange idleEnv mismatchStored) ∧
    (sendViewChange idleEnv mismatchStored).1.view = mismatchStored.view + 1 ∧
    (sendViewChange idleEnv mismatchStored).1.activeView = false := by
  obtain ⟨_, _, h3, h4, _⟩ := processNewView_rejects 5 idleEnv mismatchStored mismatchNewView
    (by decide) (by decide) (by decide) (by decide)
  exact ⟨by decide,
    h3 [] (by decide) (by decide) (fun h => absurd (h 1) (by decide)), h4.1, h4.2.1⟩

/-- C16 at replica `0` holding `preparedNewView` and the request `"a"`. -/
theorem processNewView_accepts_witness :
    ∃ r, processNewView 5 idleEnv preparedStored = some r ∧ r.1.activeView = true ∧
      r.1.seqNo = 1 := by
  obtain ⟨r, h1, h2, _, h4, h5, h6, _⟩ :=
    processNewView_accepts 5 idleEnv preparedStored preparedNewView [(1, "a")] (by decide)
      (by decide) (by decide) (by decide) (by decide) (by decide) (fun _ => rfl) (by decide)
      (by decide)
  refine ⟨r, h1, h2, ?_⟩
  have hle : 1 ≤ r.1.seqNo := h5 (1, "a") (by decide)
  rcases h6 with h | ⟨e, he, h⟩
  · have h0 : preparedStored.seqNo = 0 := by decide
    omega
  · have hall : ∀ x ∈ preparedNewView.Xset, x.1 = 1 := by decide
    rw [h, hall e he]

/-- C17 at replica `0` holding `preparedNewView` without the request `"a"`:
the state is unchanged. -/
theorem processNewView_defers_witness :
    processNewView 5 idleEnv deferredStored = some (deferredStored, []) :=
  (processNewView_defers 5 idleEnv deferredStored preparedNewView [(1, "a")] (by decide)
    (by decide) (by decide) (by decide) (by decide) (fun _ => rfl)).1
    (Or.inr ⟨(1, "a"), by decide, by decide, by decide, by decide⟩)

/-- C18 at a replica active in view `1` with the NEW-VIEW of view `1` stored. -/
theorem newView_noop_when_active_witness :
    recvNewView 5 idleEnv activeReplica repeatedNewView = some (activeReplica, []) ∧
    processNewView 5 idleEnv activeReplica = some (activeReplica, []) :=
  newView_noop_when_active 5 idleEnv activeReplica repeatedNewView honestNewView (by decide)
    (by decide) (by decide)

/-- C19 fails on the code: replica `0`, in view `1` with no NEW-VIEW stored,
receives from the primary of view `1` a NEW-VIEW whose `Vset` holds a
view-change of replica `3` with an invalid signature; its view stays `1` and it
makes no call, so no VIEW-CHANGE is sent. -/
theorem recvNewView_invalid_signature_dropped :
    honestNewView.View ≥ waitingReplica.view ∧ honestNewView.View > 0 ∧
    mapGet waitingReplica.newViewStore honestNewView.View = none ∧
    primary waitingReplica honestNewView.View = honestNewView.ReplicaId ∧
    (∃ vc ∈ honestNewView.Vset, rejectingEnv.verify vc = false) ∧
    (recvNewView 5 rejectingEnv waitingReplica honestNewView).map (fun r => (r.1.view, r.2))
      = some (1, []) := by
  decide

/-- C19 as amended, at the same input: the state is unchanged. -/
theorem recvNewView_invalid_signature_witness :
    recvNewView 5 rejectingEnv waitingReplica honestNewView = some (waitingReplica, []) :=
  recvNewView_invalid_signature 5 rejectingEnv waitingReplica honestNewView
    (checkpointVc 3 [⟨0, "s0"⟩]) (by decide) (by decide)

/-- C20 at the pairs `("c1", "k")` and `("c", "1k")`. -/
theorem compositeKey_roundtrip_witness :
    DecodeCompositeKey (ConstructCompositeKey [99, 49] [107]) = some ([99, 49], [107]) ∧
    (ConstructCompositeKey [99, 49] [107] = ConstructCompositeKey [99] [49, 107] →
      ([99, 49] : Bytes) = [99] ∧ ([107] : Bytes) = [49, 107]) :=
  compositeKey_roundtrip [99, 49] [107] [99] [49, 107] (by decide) (by decide) (by decide)
    (by decide)

/-! ## Finishing a transaction -/

/-- C21: when the transaction passed to `TxFinish` is the one in progress, a
successful finish returns, records under the transaction id the hash of the
transaction's changes, or a nil entry when there are none, and merges the
changes into `stateDelta`; a failed finish returns and changes neither the
recorded hashes nor `stateDelta`; in both cases the current-transaction delta
is a new empty delta and no transaction is in progress afterwards. -/
theorem TxFinish_records {Δ : Type} (ops : DeltaOps Δ) (state : State Δ) (txUUID : String)
    (hcur : state.currentTxUUID = txUUID) :
    (∃ s1, TxFinish ops state txUUID true = some s1 ∧
      mapGet (GetTxStateDeltaHash s1) txUUID
        = some (if ops.IsEmpty state.currentTxStateDelta then none
                else some (ops.ComputeCryptoHash state.currentTxStateDelta)) ∧
      (∀ k, k ≠ txUUID →
        mapGet (GetTxStateDeltaHash s1) k = mapGet (GetTxStateDeltaHash state) k) ∧
      s1.stateDelta = (if ops.IsEmpty state.currentTxStateDelta then state.stateDelta
        else ops.ApplyChanges state.stateDelta state.currentTxStateDelta) ∧
      s1.currentTxStateDelta = ops.NewStateDelta ∧ txInProgress s1 = false) ∧
    (∃ s2, TxFinish ops state txUUID false = some s2 ∧
      GetTxStateDeltaHash s2 = GetTxStateDeltaHash state ∧
      s2.stateDelta = state.stateDelta ∧
      s2.currentTxStateDelta = ops.NewStateDelta ∧ txInProgress s2 = false) := by
  subst hcur
  constructor
  · by_cases he : ops.IsEmpty state.currentTxStateDelta = true
    · simp only [TxFinish, ne_eq, not_true_eq_false, if_false, he, Bool.not_true, if_true,
        Bool.false_eq_true]
      refine ⟨_, rfl, ?_, ?_, rfl, rfl, by simp [txInProgress]⟩
      · simp [GetTxStateDeltaHash, mapGet_mapSet]
      · intro k hk
        simp [GetTxStateDeltaHash, mapGet_mapSet, Ne.symm hk]
    · have he2 : ops.IsEmpty state.currentTxStateDelta = false := Bool.eq_false_iff.mpr he
      simp only [TxFinish, ne_eq, not_true_eq_false, if_false, he2, Bool.not_false, if_true,
        Bool.false_eq_true]
      refine ⟨_, rfl, ?_, ?_, rfl, rfl, by simp [txInProgress]⟩
      · simp [GetTxStateDeltaHash, mapGet_mapSet]
      · intro k hk
        simp [GetTxStateDeltaHash, mapGet_mapSet, Ne.symm hk]
  · simp only [TxFinish, ne_eq, not_true_eq_false, if_false, Bool.false_eq_true]
    exact ⟨_, rfl, rfl, rfl, rfl, by simp [txInProgress]⟩

/-- C21, at a concrete input: transaction `"tx1"` of `writingState`. -/
theorem TxFinish_records_witness :
    writingState.currentTxUUID = "tx1" ∧
    ((∃ s1, TxFinish listOps writingState "tx1" true = some s1 ∧
      mapGet (GetTxStateDeltaHash s1) "tx1"
        = some (if listOps.IsEmpty writingState.currentTxStateDelta then none
                else some (listOps.ComputeCryptoHash writingState.currentTxStateDelta)) ∧
      (∀ k, k ≠ "tx1" →
        mapGet (GetTxStateDeltaHash s1) k = mapGet (GetTxStateDeltaHash writingState) k) ∧
      s1.stateDelta = (if listOps.IsEmpty writingState.currentTxStateDelta
        then writingState.stateDelta
        else listOps.ApplyChanges writingState.stateDelta writingState.currentTxStateDelta) ∧
      s1.currentTxStateDelta = listOps.NewStateDelta ∧ txInProgress s1 = false) ∧
    (∃ s2, TxFinish listOps writingState "tx1" false = some s2 ∧
      GetTxStateDeltaHash s2 = GetTxStateDeltaHash writingState ∧
      s2.stateDelta = writingState.stateDelta ∧
      s2.currentTxStateDelta = listOps.NewStateDelta ∧ txInProgress s2 = false)) :=
  ⟨rfl, TxFinish_records listOps writingState "tx1" rfl⟩

/-! ## The two tests of Rule A -/

/-- C22, as written, fails: with `f = 1` and `aheadVset`, three members either
have a low watermark of at least `1` or hold no conflicting P-set entry, but
the A1 loop counts only two, and Rule A does not select the entry. -/
theorem a1_skips_high_watermark :
    2 * 1 + 1 ≤ aheadVset.countP (fun m => decide (m.H ≥ 1 ∨
      ∀ e ∈ m.Pset, e.SequenceNumber = 1 →
        e.View < 0 ∨ (e.View = 0 ∧ e.Digest = "a"))) ∧
    a1Quorum aheadVset 1 ⟨1, "a", 0⟩ = 2 ∧
    1 + 1 ≤ a2Quorum aheadVset 1 ⟨1, "a", 0⟩ ∧
    ruleA 1 aheadVset 1 ⟨1, "a", 0⟩ = false := by
  decide

/-- C22, amended: the A1 loop counts exactly the members whose low watermark
is below `n` and whose every P-set entry at `n` has a view below `v'`, or view
`v'` and digest `d`; a member with `H ≥ n` is never counted. -/
theorem a1Quorum_counts (vset : List ViewChange) (n : Nat) (em : ViewChange_PQ) :
    a1Quorum vset n em = vset.countP (fun m => decide (m.H < n ∧
      ∀ e ∈ m.Pset, e.SequenceNumber = n →
        e.View < em.View ∨ (e.View = em.View ∧ e.Digest = em.Digest))) ∧
    (∀ f, ruleA f vset n em = true → 2 * f + 1 ≤ (vset.filter (fun m => decide (m.H < n))).length) := by
  have hiff : ∀ m : ViewChange, a1Counts n em m = decide (m.H < n ∧
      ∀ e ∈ m.Pset, e.SequenceNumber = n →
        e.View < em.View ∨ (e.View = em.View ∧ e.Digest = em.Digest)) := by
    intro m
    rw [Bool.eq_iff_iff]
    simp only [a1Counts, Bool.and_eq_true, Bool.not_eq_true', decide_eq_false_iff_not,
      List.all_eq_true, Bool.or_eq_true, decide_eq_true_eq, Bool.not_eq_false', not_le,
      ge_iff_le, Bool.and_eq_false_iff, Bool.or_eq_false_iff]
    constructor
    · rintro ⟨h1, h2⟩
      refine ⟨h1, fun e he hn => ?_⟩
      rcases h2 e he with h | h
      · exact absurd hn.symm h
      · exact h
    · rintro ⟨h1, h2⟩
      refine ⟨h1, fun e he => ?_⟩
      by_cases hn : n = e.SequenceNumber
      · exact Or.inr (h2 e he hn.symm)
      · exact Or.inl hn
  have hq : a1Quorum vset n em = vset.countP (fun m => decide (m.H < n ∧
      ∀ e ∈ m.Pset, e.SequenceNumber = n →
        e.View < em.View ∨ (e.View = em.View ∧ e.Digest = em.Digest))) := by
    unfold a1Quorum
    exact congrArg (fun p => List.countP p vset) (funext hiff)
  refine ⟨hq, fun f hr => ?_⟩
  simp only [ruleA, Bool.and_eq_true, decide_eq_true_eq] at hr
  refine le_trans hr.1 ?_
  rw [hq, List.countP_eq_length_filter]
  apply List.Sublist.length_le
  apply List.monotone_filter_right
  intro m hm
  simp only [decide_eq_true_eq] at hm ⊢
  exact hm.1

/-- C23: with `f = 1` and `doubledVset`, a single member holds Q-set entries
for `(1, "a")`, yet the A2 loop reaches `2 = f + 1`, both tests succeed, and
`"a"` is assigned to sequence number `1`. -/
theorem a2_counts_entries :
    doubledVset.countP (fun m => m.Qset.any (a2Match 1 ⟨1, "a", 0⟩)) = 1 ∧
    a2Quorum doubledVset 1 ⟨1, "a", 0⟩ = 2 ∧
    ruleA 1 doubledVset 1 ⟨1, "a", 0⟩ = true ∧
    assignSequenceNumbers 5 1 1 doubledVset 0 = some (some [(1, "a")]) := by
  decide

/-! ## Weak certificates count listings -/

/-- C24: with `f = 1`, the single view-change `repeatedCsetVc`, which passes
`correctViewChange` and lists `(0, "s0")` three times, makes
`selectInitialCheckpoint` return `(0, true)`, although for every digest at most
one member of the set carries the pair. -/
theorem selectInitialCheckpoint_repeated_listing :
    correctViewChange 4 repeatedCsetVc = true ∧
    selectInitialCheckpoint 1 [repeatedCsetVc] = (0, true) ∧
    (∀ d : String, [repeatedCsetVc].countP (fun m => decide ((⟨0, d⟩ : ViewChange_C) ∈ m.Cset)) ≤ 1) :=
  ⟨by decide, by decide, fun _ => List.countP_le_length _⟩

/-! ## Termination of the loop over `n` -/

theorem assignLoop_never (f : Nat) (vset : List ViewChange) (bound : Nat)
    (hb : bound + 1 = U64) (hs : ∀ n, slot f vset n ≠ none) (fuel : Nat) :
    ∀ (n : Nat) (ml : XSet) (mx : Nat), n < U64 →
      assignLoop f vset bound fuel n ml mx = none := by
  induction fuel with
  | zero => intro n ml mx _; simp [assignLoop]
  | succ fuel ih =>
    intro n ml mx hn
    have hle : n ≤ bound := by omega
    have hlt : (n + 1) % U64 < U64 := Nat.mod_lt _ U64_pos
    unfold assignLoop
    simp only [hle, if_true]
    cases hfa : findRuleA f vset n with
    | some em => exact ih _ _ _ hlt
    | none =>
      by_cases hq : 2 * f + 1 ≤ nullQuorum vset n
      · simp only [hq, if_true]
        exact ih _ _ _ hlt
      · exact absurd (by simp [slot, hfa, hq]) (hs n)

theorem slot_plainVset (n : Nat) : slot 1 plainVset n = some "" := by
  simp [slot, findRuleA, psetEntries, nullQuorum, nullCounts, plainVset, plainVc]

/-- C29: with `f = 1`, `L = 1`, `h = 2^64 - 2` and three view-changes without
P-set entry, the bound `h + L` is `2^64 - 1`, every `n` receives the null
request, and the loop over `n` has not ended after any number of iterations. -/
theorem assign_never_returns (fuel : Nat) :
    assignSequenceNumbers fuel 1 1 plainVset (U64 - 2) = none := by
  have hb : (U64 - 2 + 1) % U64 + 1 = U64 := by decide
  have h := assignLoop_never 1 plainVset ((U64 - 2 + 1) % U64) hb
    (fun n => by rw [slot_plainVset]; exact Option.some_ne_none _) fuel
    ((U64 - 2 + 1) % U64) [] (U64 - 2) (Nat.mod_lt _ U64_pos)
  unfold assignSequenceNumbers
  rw [h]

/-! ## The lock of the handler map -/

/-- C30: for a transaction of a type other than the three named ones,
`LaunchChaincode` on a support whose handler-map lock is free ends in the fatal
error of `Unlock` on an unlocked mutex and returns nothing; on a support whose
lock is held elsewhere it returns the error after a single `Unlock` with no
`Lock` before it, and the lock held by the other caller is released. -/
theorem LaunchChaincode_unlocks_first (env : LaunchEnv) (cs : ChaincodeSupport) (code : Nat)
    (payload : Bytes) (uuid : String) :
    LaunchChaincode env cs ⟨TransactionType.other code, payload, uuid⟩
      = (if cs.handlerMap.locked then
          LaunchOutcome.returned { cs with handlerMap := { cs.handlerMap with locked := false } }
            [LockOp.unlock] ⟨none, none, some (invalidTypeError (TransactionType.other code))⟩
        else LaunchOutcome.fatal "sync: Unlock of unlocked RWMutex") ∧
    LaunchChaincode quietLaunchEnv freeSupport otherTypeTx
      = LaunchOutcome.fatal "sync: Unlock of unlocked RWMutex" ∧
    LaunchChaincode quietLaunchEnv heldSupport otherTypeTx
      = LaunchOutcome.returned freeSupport [LockOp.unlock]
          ⟨none, none, some "invalid transaction type: 2"⟩ := by
  refine ⟨?_, by decide, by decide⟩
  simp [LaunchChaincode]

/-! ## The NEW-VIEW built by sendNewView -/

theorem acceptNewView_actions (env : Env) (s : PbftCore) (nv : NewView) :
    ∀ a ∈ (acceptNewView env s nv).2,
      (∃ p, a = Action.innerBroadcast (Message.prepare p) true) ∨
        ∃ v, a = Action.consumerViewChange v := by
  unfold acceptNewView
  simp only
  split
  · rw [sendPrepare_fold_actions]
    intro a ha
    simp only [List.nil_append, List.mem_append, List.mem_map, List.mem_singleton] at ha
    rcases ha with ⟨e, _, he⟩ | ha
    · exact Or.inl ⟨_, he.symm⟩
    · exact Or.inr ⟨_, ha⟩
  · intro a ha
    simp only [List.nil_append, List.mem_singleton] at ha
    exact Or.inr ⟨_, ha⟩

theorem processNewView_actions (fuel : Nat) (env : Env) (t : PbftCore)
    (r : PbftCore × List Action) (h : processNewView fuel env t = some r) :
    (∀ d, Action.startTimer d ∉ r.2) ∧
    (∀ nv b, Action.innerBroadcast (Message.newView nv) b ∉ r.2) := by
  rcases processNewView_cases fuel env t r h with h1 | h1 | ⟨nv, h1⟩
  · rw [h1]; simp
  · obtain ⟨vc, hv, _⟩ := sendViewChange_message env t
    rw [h1, hv]; simp
  · rw [h1]
    constructor
    · intro d hd
      rcases acceptNewView_actions env t nv _ hd with ⟨p, hp⟩ | ⟨v, hv⟩
      · cases hp
      · cases hv
    · intro nv2 b hd
      rcases acceptNewView_actions env t nv _ hd with ⟨p, hp⟩ | ⟨v, hv⟩
      · cases hp
      · cases hv

theorem processNewView_after_store (fuel : Nat) (env : Env) (s : PbftCore) (msgList : XSet)
    (hsel : (selectInitialCheckpoint s.f (getViewChanges s)).2 = true)
    (hasg : assignSequenceNumbers fuel s.f s.L (getViewChanges s)
      (selectInitialCheckpoint s.f (getViewChanges s)).1 = some (some msgList)) :
    processNewView fuel env
      { s with
        newViewStore := mapSet s.newViewStore s.view
          (⟨s.view, getViewChanges s, msgList, s.id⟩ : NewView) }
      ≠ none := by
  unfold processNewView
  simp only [mapGet_mapSet, if_true, hsel, Bool.not_true, Bool.false_eq_true, if_false, hasg]
  split
  · exact Option.some_ne_none _
  · split
    · exact Option.some_ne_none _
    · split
      · exact Option.some_ne_none _
      · split
        · exact Option.some_ne_none _
        · exact Option.some_ne_none _

/-- C26, as written, fails: the primary `mixedPrimary` of view `1` builds a
NEW-VIEW whose `Vset` contains the stored view-change of replica `3` for view
`2`. -/
theorem sendNewView_other_view :
    (sendNewView 5 idleEnv mixedPrimary).map (fun r => r.2.head?)
      = some (some (Action.innerBroadcast (Message.newView
          { View := 1
            Vset := [checkpointVc 0 [⟨0, "s0"⟩], checkpointVc 2 [⟨0, "s0"⟩],
              checkpointVc 3 [⟨0, "s0"⟩], plainVc 3]
            Xset := []
            ReplicaId := 1 }) false)) ∧
    (plainVc 3).View ≠ mixedPrimary.view := by
  decide

/-- C26, amended: the `Vset` of the NEW-VIEW built by `sendNewView` is the list
of all stored view-changes, whatever their view, so it contains every
view-change stored for the current view; the NEW-VIEW is built and broadcast
first when no NEW-VIEW is stored for the current view and both
`selectInitialCheckpoint` and `assignSequenceNumbers` succeed; when a NEW-VIEW
is already stored for the current view, or `selectInitialCheckpoint` fails, or
`assignSequenceNumbers` returns nil, `sendNewView` broadcasts nothing and
leaves the state unchanged. -/
theorem sendNewView_vset (fuel : Nat) (env : Env) (s : PbftCore) :
    (∀ r, sendNewView fuel env s = some r →
      ∀ nv b, Action.innerBroadcast (Message.newView nv) b ∈ r.2 →
        b = false ∧ nv.View = s.view ∧ nv.ReplicaId = s.id ∧ nv.Vset = getViewChanges s ∧
        (∀ vc, vc ∈ nv.Vset ↔ ∃ k, (k, vc) ∈ s.viewChangeStore) ∧
        (∀ k vc, (k, vc) ∈ s.viewChangeStore → k.1 = s.view → vc ∈ nv.Vset)) ∧
    (∀ msgList, mapGet s.newViewStore s.view = none →
      (selectInitialCheckpoint s.f (getViewChanges s)).2 = true →
      assignSequenceNumbers fuel s.f s.L (getViewChanges s)
        (selectInitialCheckpoint s.f (getViewChanges s)).1 = some (some msgList) →
      ∃ r rest, sendNewView fuel env s = some r ∧
        r.2 = Action.innerBroadcast (Message.newView
          { View := s.view, Vset := getViewChanges s, Xset := msgList, ReplicaId := s.id })
          false :: rest) ∧
    ((mapGet s.newViewStore s.view ≠ none ∨
        (selectInitialCheckpoint s.f (getViewChanges s)).2 = false ∨
        assignSequenceNumbers fuel s.f s.L (getViewChanges s)
          (selectInitialCheckpoint s.f (getViewChanges s)).1 = some none) →
      sendNewView fuel env s = some (s, [])) := by
  have hmem : ∀ vc, vc ∈ getViewChanges s ↔ ∃ k, (k, vc) ∈ s.viewChangeStore := by
    intro vc
    unfold getViewChanges
    rw [List.mem_map]
    constructor
    · rintro ⟨e, he, rfl⟩
      exact ⟨e.1, he⟩
    · rintro ⟨k, hk⟩
      exact ⟨(k, vc), hk, rfl⟩
  refine ⟨?_, ?_, ?_⟩
  · intro r hr nv b hb
    unfold sendNewView at hr
    split at hr
    · cases hr; cases hb
    · simp only at hr
      split at hr
      · cases hr; cases hb
      · split at hr
        · cases hr
        · cases hr; cases hb
        · rename_i msgList _
          simp only [Option.map_eq_some'] at hr
          obtain ⟨r1, hr1, hr⟩ := hr
          rw [← hr] at hb
          rcases List.mem_cons.mp hb with hb | hb
          · cases hb
            exact ⟨rfl, rfl, rfl, rfl, hmem, fun k vc hk _ => (hmem vc).mpr ⟨k, hk⟩⟩
          · exact absurd hb ((processNewView_actions fuel env _ r1 hr1).2 nv b)
  · intro msgList hnv hsel hasg
    have hne := processNewView_after_store fuel env s msgList hsel hasg
    cases hp : processNewView fuel env
      { s with
        newViewStore := mapSet s.newViewStore s.view
          (⟨s.view, getViewChanges s, msgList, s.id⟩ : NewView) } with
    | none => exact absurd hp hne
    | some r1 =>
      refine ⟨(r1.1, Action.innerBroadcast (Message.newView
        ⟨s.view, getViewChanges s, msgList, s.id⟩) false :: r1.2), r1.2, ?_, rfl⟩
      unfold sendNewView
      simp only [hnv, Option.isSome_none, Bool.false_eq_true, if_false, hsel, Bool.not_true, hasg,
        hp, Option.map_some']
  · intro h
    unfold sendNewView
    by_cases h1 : (mapGet s.newViewStore s.view).isSome = true
    · simp [h1]
    · simp only [h1, if_false]
      by_cases h2 : (selectInitialCheckpoint s.f (getViewChanges s)).2 = true
      · rcases h with h | h | h
        · exact absurd (Option.isSome_iff_ne_none.mpr h) h1
        · rw [h] at h2; cases h2
        · simp only [h2, Bool.not_true, Bool.false_eq_true, if_false, h]
      · have h3 : (selectInitialCheckpoint s.f (getViewChanges s)).2 = false :=
          Bool.eq_false_iff.mpr h2
        simp [h3]

/-! ## The new-view timer in recvViewChange -/

theorem installPrePrepare_fold_timeout (xs : XSet) :
    ∀ t : PbftCore,
      (xs.foldl installPrePrepare t).lastNewViewTimeout = t.lastNewViewTimeout := by
  induction xs with
  | nil => intro t; rfl
  | cons x r ih =>
    intro t
    simp only [List.foldl_cons]
    exact ih (installPrePrepare t x)

theorem sendPrepare_fold_timeout (xs : XSet) :
    ∀ acc : PbftCore × List Action,
      (xs.foldl sendPrepare acc).1.lastNewViewTimeout = acc.1.lastNewViewTimeout := by
  induction xs with
  | nil => intro acc; rfl
  | cons x r ih =>
    intro acc
    simp only [List.foldl_cons]
    exact ih (sendPrepare acc x)

theorem resubmit_fold_timeout (env : Env)
    (hreq : ∀ t q, (env.recvRequest t q).lastNewViewTimeout = t.lastNewViewTimeout)
    (xs : List (String × Request)) :
    ∀ t : PbftCore,
      (xs.foldl (resubmit env) t).lastNewViewTimeout = t.lastNewViewTimeout := by
  induction xs with
  | nil => intro t; rfl
  | cons x r ih =>
    intro t
    simp only [List.foldl_cons]
    have hstep : (resubmit env t x).lastNewViewTimeout = t.lastNewViewTimeout := by
      unfold resubmit
      split
      · rfl
      · exact hreq t x.2
    exact (ih (resubmit env t x)).trans hstep

theorem acceptNewView_timeout (env : Env)
    (hreq : ∀ t q, (env.recvRequest t q).lastNewViewTimeout = t.lastNewViewTimeout)
    (s : PbftCore) (nv : NewView) :
    (acceptNewView env s nv).1.lastNewViewTimeout = s.lastNewViewTimeout := by
  have i1 := installPrePrepare_fold_timeout nv.Xset
    { s with
      activeView := true
      newViewStore := mapDel s.newViewStore ((s.view + (U64 - 1)) % U64) }
  unfold acceptNewView
  simp only
  split
  · exact (sendPrepare_fold_timeout nv.Xset _).trans i1
  · exact (resubmit_fold_timeout env hreq _ _).trans i1

theorem processNewView_timeout (fuel : Nat) (env : Env)
    (hreq : ∀ t q, (env.recvRequest t q).lastNewViewTimeout = t.lastNewViewTimeout)
    (t : PbftCore) (r : PbftCore × List Action) (h : processNewView fuel env t = some r) :
    r.1.lastNewViewTimeout = t.lastNewViewTimeout := by
  rcases processNewView_cases fuel env t r h with h1 | h1 | ⟨nv, h1⟩
  · rw [h1]
  · rw [h1]; rfl
  · rw [h1]; exact acceptNewView_timeout env hreq t nv

theorem sendNewView_timeout (fuel : Nat) (env : Env)
    (hreq : ∀ t q, (env.recvRequest t q).lastNewViewTimeout = t.lastNewViewTimeout)
    (t : PbftCore) (r : PbftCore × List Action) (h : sendNewView fuel env t = some r) :
    r.1.lastNewViewTimeout = t.lastNewViewTimeout ∧ ∀ d, Action.startTimer d ∉ r.2 := by
  unfold sendNewView at h
  split at h
  · cases h; exact ⟨rfl, by simp⟩
  · simp only at h
    split at h
    · cases h; exact ⟨rfl, by simp⟩
    · split at h
      · cases h
      · cases h; exact ⟨rfl, by simp⟩
      · simp only [Option.map_eq_some'] at h
        obtain ⟨r1, hr1, hr⟩ := h
        rw [← hr]
        have hp := processNewView_timeout fuel env hreq _ r1 hr1
        refine ⟨hp, ?_⟩
        intro d hd
        rcases List.mem_cons.mp hd with hd | hd
        · cases hd
        · exact (processNewView_actions fuel env _ r1 hr1).1 d hd

theorem nextHandler_timeout (fuel : Nat) (env : Env)
    (hreq : ∀ t q, (env.recvRequest t q).lastNewViewTimeout = t.lastNewViewTimeout)
    (t : PbftCore) (r : PbftCore × List Action)
    (h : (if primary t t.view = t.id then sendNewView fuel env t
      else processNewView fuel env t) = some r) :
    r.1.lastNewViewTimeout = t.lastNewViewTimeout ∧ ∀ d, Action.startTimer d ∉ r.2 := by
  split at h
  · exact sendNewView_timeout fuel env hreq t r h
  · exact ⟨processNewView_timeout fuel env hreq t r h,
      (processNewView_actions fuel env t r h).1⟩

theorem wrapInt64_of_fits (x : Int) (hlo : -9223372036854775808 ≤ x)
    (hhi : x < 9223372036854775808) : wrapInt64 x = x := by
  unfold wrapInt64
  omega

/-- C27, as written, fails: `longTimeoutStored` accepts the third view-change
for its view `1` without amplification, starts the timer with its timeout
`2^62`, and the `int64` product leaves `lastNewViewTimeout` at `-2^63`, which is
not twice `2^62`. -/
theorem recvViewChange_timer_wraps :
    idleEnv.verify (checkpointVc 1 [⟨0, "s0"⟩]) = true ∧
    correctViewChange longTimeoutStored.L (checkpointVc 1 [⟨0, "s0"⟩]) = true ∧
    mapGet longTimeoutStored.viewChangeStore (1, 1) = none ∧
    (amplifyLoop longTimeoutStored.view
      (storeViewChange longTimeoutStored (checkpointVc 1 [⟨0, "s0"⟩])).viewChangeStore).1.length
        < longTimeoutStored.f + 1 ∧
    (checkpointVc 1 [⟨0, "s0"⟩]).View = longTimeoutStored.view ∧
    (storeViewChange longTimeoutStored (checkpointVc 1 [⟨0, "s0"⟩])).viewChangeStore.countP
        (fun e => decide (e.1.1 = longTimeoutStored.view)) = 2 * longTimeoutStored.f + 1 ∧
    (recvViewChange 5 idleEnv longTimeoutStored (checkpointVc 1 [⟨0, "s0"⟩])).map
        (fun r => (r.1.lastNewViewTimeout, r.2))
      = some (-9223372036854775808, [Action.startTimer 4611686018427387904]) ∧
    (-9223372036854775808 : Int) ≠ 2 * longTimeoutStored.lastNewViewTimeout := by
  decide

/-- C27, amended: in a call of `recvViewChange` that accepts `vc` and does not
take the amplification branch, with `recvRequest` leaving `lastNewViewTimeout`
alone: when `vc.View` is the local view and the view-changes stored for the
local view, counted after storing `vc`, number exactly `2f+1`, the first call
made is `startTimer` with the value `t` of `lastNewViewTimeout` before the
call, no other timer is started, and `lastNewViewTimeout` is afterwards the
`int64` product `2 * t`, which is twice `t` when `-2^62 ≤ t < 2^62`; in every
other case no timer is started and `lastNewViewTimeout` is unchanged. -/
theorem recvViewChange_timer (fuel : Nat) (env : Env) (s : PbftCore) (vc : ViewChange)
    (hreq : ∀ t q, (env.recvRequest t q).lastNewViewTimeout = t.lastNewViewTimeout)
    (hsig : env.verify vc = true) (hview : s.view ≤ vc.View)
    (hcorr : correctViewChange s.L vc = true)
    (hnew : mapGet s.viewChangeStore (vc.View, vc.ReplicaId) = none)
    (hamp : (amplifyLoop s.view (storeViewChange s vc).viewChangeStore).1.length < s.f + 1)
    (r : PbftCore × List Action) (hr : recvViewChange fuel env s vc = some r) :
    ((vc.View = s.view ∧
        (storeViewChange s vc).viewChangeStore.countP (fun e => decide (e.1.1 = s.view))
          = 2 * s.f + 1) →
      (∃ rest, r.2 = Action.startTimer s.lastNewViewTimeout :: rest ∧
        ∀ d, Action.startTimer d ∉ rest) ∧
      r.1.lastNewViewTimeout = wrapInt64 (2 * s.lastNewViewTimeout) ∧
      (-4611686018427387904 ≤ s.lastNewViewTimeout →
        s.lastNewViewTimeout < 4611686018427387904 →
        r.1.lastNewViewTimeout = 2 * s.lastNewViewTimeout)) ∧
    (¬ (vc.View = s.view ∧
        (storeViewChange s vc).viewChangeStore.countP (fun e => decide (e.1.1 = s.view))
          = 2 * s.f + 1) →
      (∀ d, Action.startTimer d ∉ r.2) ∧
      r.1.lastNewViewTimeout = s.lastNewViewTimeout) := by
  rw [recvViewChange_stored fuel env s vc hsig hview hcorr hnew] at hr
  have hna : ¬ (amplifyLoop s.view (storeViewChange s vc).viewChangeStore).1.length ≥ s.f + 1 := by
    omega
  simp only [hna, if_false] at hr
  unfold afterAmplification at hr
  simp only [Option.map_eq_some'] at hr
  obtain ⟨r1, hr1, hr2⟩ := hr
  have hv : (storeViewChange s vc).view = s.view := rfl
  have hf : (storeViewChange s vc).f = s.f := rfl
  have ht : (storeViewChange s vc).lastNewViewTimeout = s.lastNewViewTimeout := rfl
  rw [hv, hf, ht] at hr1 hr2
  constructor
  · intro hc
    simp only [hc, and_self, if_true] at hr1 hr2
    obtain ⟨h1, h2⟩ := nextHandler_timeout fuel env hreq _ r1 hr1
    have h3 : r1.1.lastNewViewTimeout = wrapInt64 (2 * s.lastNewViewTimeout) := h1
    rw [← hr2]
    refine ⟨⟨r1.2, rfl, h2⟩, h3, ?_⟩
    intro hlo hhi
    exact h3.trans (wrapInt64_of_fits _ (by omega) (by omega))
  · intro hc
    simp only [hc, if_false] at hr1 hr2
    obtain ⟨h1, h2⟩ := nextHandler_timeout fuel env hreq _ r1 hr1
    rw [← hr2]
    exact ⟨by simpa using h2, h1⟩

/-- C27 at `twoStored`, which receives the third view-change for its view `1`:
the timer is started with `2` and the timeout becomes `4`. -/
theorem recvViewChange_timer_witness :
    recvViewChange 5 idleEnv twoStored (checkpointVc 1 [⟨0, "s0"⟩])
      = some ({ storeViewChange twoStored (checkpointVc 1 [⟨0, "s0"⟩]) with
                lastNewViewTimeout := 4 }, [Action.startTimer 2]) ∧
    ((∃ rest, [Action.startTimer 2] = Action.startTimer twoStored.lastNewViewTimeout :: rest ∧
        ∀ d, Action.startTimer d ∉ rest) ∧
      (4 : Int) = wrapInt64 (2 * twoStored.lastNewViewTimeout) ∧
      (-4611686018427387904 ≤ twoStored.lastNewViewTimeout →
        twoStored.lastNewViewTimeout < 4611686018427387904 →
        (4 : Int) = 2 * twoStored.lastNewViewTimeout)) :=
  ⟨by decide,
   (recvViewChange_timer 5 idleEnv twoStored (checkpointVc 1 [⟨0, "s0"⟩]) (fun _ _ => rfl)
     (by decide) (by decide) (by decide) (by decide) (by decide)
     ({ storeViewChange twoStored (checkpointVc 1 [⟨0, "s0"⟩]) with lastNewViewTimeout := 4 },
       [Action.startTimer 2]) (by decide)).1 ⟨by decide, by decide⟩⟩

/-! ## The keys of the assignment -/

theorem assignLoop_maxN (f : Nat) (vset : List ViewChange) (bound : Nat)
    (hb : bound + 1 < U64) (fuel : Nat) :
    ∀ (n : Nat) (ml : XSet) (mx : Nat) (ml1 : XSet) (mx1 : Nat),
      assignLoop f vset bound fuel n ml mx = some (some (ml1, mx1)) →
      (mx1 = mx ∧ ∀ k, n ≤ k → k ≤ bound → findRuleA f vset k = none) ∨
      (n ≤ mx1 ∧ mx1 ≤ bound ∧ (findRuleA f vset mx1).isSome = true ∧
        ∀ k, mx1 < k → k ≤ bound → findRuleA f vset k = none) := by
  induction fuel with
  | zero => intro n ml mx ml1 mx1 h; simp [assignLoop] at h
  | succ fuel ih =>
    intro n ml mx ml1 mx1 h
    unfold assignLoop at h
    by_cases hle : n ≤ bound
    · have hmod : (n + 1) % U64 = n + 1 := Nat.mod_eq_of_lt (by omega)
      simp only [hle, if_true, hmod] at h
      cases hfa : findRuleA f vset n with
      | some em =>
        simp only [hfa] at h
        rcases ih _ _ _ _ _ h with ⟨h1, h2⟩ | ⟨h1, h2, h3, h4⟩
        · refine Or.inr ⟨by omega, by omega, ?_, ?_⟩
          · rw [h1, hfa]; rfl
          · intro k hk hk2
            exact h2 k (by omega) hk2
        · exact Or.inr ⟨by omega, h2, h3, h4⟩
      | none =>
        simp only [hfa] at h
        by_cases hq : 2 * f + 1 ≤ nullQuorum vset n
        · simp only [hq, if_true] at h
          rcases ih _ _ _ _ _ h with ⟨h1, h2⟩ | ⟨h1, h2, h3, h4⟩
          · refine Or.inl ⟨h1, ?_⟩
            intro k hk hk2
            by_cases hkn : k = n
            · rw [hkn]; exact hfa
            · exact h2 k (by omega) hk2
          · exact Or.inr ⟨by omega, h2, h3, h4⟩
        · simp [hq] at h
    · simp only [hle, if_false, Option.some.injEq, Prod.mk.injEq] at h
      refine Or.inl ⟨h.2.symm, ?_⟩
      intro k hk hk2
      omega

theorem slot_of_findRuleA_none (f : Nat) (vset : List ViewChange) (n : Nat)
    (hfa : findRuleA f vset n = none) (hs : slot f vset n ≠ none) : slot f vset n = some "" := by
  unfold slot at hs ⊢
  rw [hfa] at hs ⊢
  by_cases hq : 2 * f + 1 ≤ nullQuorum vset n
  · simp [hq]
  · simp [hq] at hs

theorem pruneNulls_get (ml : XSet) (mx : Nat) (hnd : (mapKeys ml).Nodup) (k : Nat) :
    mapGet (pruneNulls ml mx) k
      = (mapGet ml k).bind (fun v =>
          if !(decide (k > mx) && decide (v = "")) then some v else none) := by
  rw [pruneNulls, mapGet_filter _ _ _ hnd]

theorem assign_keys (fuel f L : Nat) (vset : List ViewChange) (cp : Nat) (X : XSet)
    (hcp : cp + 1 < U64)
    (hret : assignSequenceNumbers fuel f L vset cp = some (some X)) :
    ∃ maxN,
      ((maxN = cp ∧ ∀ k, cp < k → k ≤ (cp + L) % U64 → findRuleA f vset k = none) ∨
        (cp < maxN ∧ maxN ≤ (cp + L) % U64 ∧ (findRuleA f vset maxN).isSome = true ∧
          ∀ k, maxN < k → k ≤ (cp + L) % U64 → findRuleA f vset k = none)) ∧
      (∀ k, mapGet X k = if cp < k ∧ k ≤ maxN then slot f vset k else none) ∧
      (∀ k, cp < k → k ≤ maxN → slot f vset k ≠ none) := by
  obtain ⟨ml, mx, hloop, hX⟩ := assign_some_unfold fuel f L vset cp X hret
  have hlt : (cp + L) % U64 < U64 := Nat.mod_lt _ U64_pos
  by_cases hb : (cp + L) % U64 + 1 = U64
  · exact absurd hloop
      (assignLoop_no_exit f vset _ hb fuel _ _ _ _ (Nat.mod_lt _ U64_pos))
  · have hb2 : (cp + L) % U64 + 1 < U64 := by omega
    have hs : (cp + 1) % U64 = cp + 1 := Nat.mod_eq_of_lt hcp
    rw [hs] at hloop
    obtain ⟨h1, h2, h3⟩ := assignLoop_exit f vset _ hb2 fuel _ _ _ _ _ hloop
    have hnd : (mapKeys ml).Nodup := h3 (by simp [mapKeys])
    have hget : ∀ k, mapGet X k = (mapGet ml k).bind (fun v =>
        if !(decide (k > mx) && decide (v = "")) then some v else none) := by
      intro k
      rw [hX]
      exact pruneNulls_get ml mx hnd k
    have hout : ∀ k, ¬ (cp + 1 ≤ k ∧ k ≤ (cp + L) % U64) → mapGet X k = none := by
      intro k hk
      rw [hget, h2 k hk]
      rfl
    have hnull : ∀ k, cp + 1 ≤ k → k ≤ (cp + L) % U64 → mx < k →
        findRuleA f vset k = none → mapGet X k = none := by
      intro k hk1 hk2 hk3 hfa
      obtain ⟨hs1, hs2⟩ := h1 k hk1 hk2
      rw [hget, hs2, slot_of_findRuleA_none f vset k hfa hs1]
      simp [hk3]
    have hkeep : ∀ k, cp + 1 ≤ k → k ≤ (cp + L) % U64 → k ≤ mx →
        mapGet X k = slot f vset k := by
      intro k hk1 hk2 hk3
      obtain ⟨hs1, hs2⟩ := h1 k hk1 hk2
      rw [hget, hs2]
      cases hsl : slot f vset k with
      | none => rfl
      | some v =>
        have : ¬ k > mx := by omega
        simp [this]
    rcases assignLoop_maxN f vset _ hb2 fuel _ _ _ _ _ hloop with ⟨hmx, hno⟩ | ⟨hlo, hhi, hsome, hno⟩
    · refine ⟨cp, Or.inl ⟨rfl, fun k hk hk2 => hno k (by omega) hk2⟩, ?_, ?_⟩
      · intro k
        have hc : ¬ (cp < k ∧ k ≤ cp) := by omega
        simp only [hc, if_false]
        by_cases hr : cp + 1 ≤ k ∧ k ≤ (cp + L) % U64
        · exact hnull k hr.1 hr.2 (by omega) (hno k hr.1 hr.2)
        · exact hout k hr
      · intro k hk1 hk2
        omega
    · refine ⟨mx, Or.inr ⟨by omega, hhi, hsome, hno⟩, ?_, ?_⟩
      · intro k
        by_cases hr : cp + 1 ≤ k ∧ k ≤ (cp + L) % U64
        · by_cases hk : k ≤ mx
          · have hc : cp < k ∧ k ≤ mx := ⟨by omega, hk⟩
            simp only [hc, and_self, if_true]
            exact hkeep k hr.1 hr.2 hk
          · have hc : ¬ (cp < k ∧ k ≤ mx) := by omega
            simp only [hc, if_false]
            exact hnull k hr.1 hr.2 (by omega) (hno k (by omega) hr.2)
        · have hc : ¬ (cp < k ∧ k ≤ mx) := by omega
          simp only [hc, if_false]
          exact hout k hr
      · intro k hk1 hk2
        exact (h1 k (by omega) (by omega)).1

theorem findRuleA_no_pset (f : Nat) (vset : List ViewChange) (n : Nat)
    (hp : ∀ m ∈ vset, m.Pset = []) : findRuleA f vset n = none := by
  unfold findRuleA psetEntries
  rw [List.find?_eq_none]
  intro em hem
  obtain ⟨m, hm, hem2⟩ := List.mem_flatMap.mp hem
  rw [hp m hm] at hem2
  cases hem2

theorem nullQuorum_no_pset (vset : List ViewChange) (n : Nat)
    (hp : ∀ m ∈ vset, m.Pset = []) : nullQuorum vset n = vset.length := by
  rw [nullQuorum_eq, List.countP_eq_length]
  intro m hm
  simp [hp m hm]

theorem eq_nil_of_mapGet_none (X : XSet) (h : ∀ k, mapGet X k = none) : X = [] := by
  cases X with
  | nil => rfl
  | cons e t =>
    have := h e.1
    simp [mapGet] at this

/-- C25, as written, fails at `cp = 2^64 - 1`: with `f = 1`, `L = 2` and three
view-changes without P-set entry the result holds the null request at `0` and
at `1`: the keys are not above `cp` and the result is not empty. -/
theorem assign_keys_wrapped :
    (∀ m ∈ plainVset, m.Pset = []) ∧ 2 * 1 + 1 ≤ plainVset.length ∧
    assignSequenceNumbers 5 1 2 plainVset (U64 - 1) = some (some [(0, ""), (1, "")]) := by
  decide

/-- C25, amended with `cp + 1 < 2^64`: the keys of a non-nil result `X` are
exactly the `n` with `cp < n ≤ maxN`, where `maxN` is the largest `n` in
`(cp, cp + L]` (the bound being the 64-bit sum) at which Rule A selected an
entry, and `cp` when there is none; every such key holds the value assigned at
it, so null assignments below `maxN` are kept and none remains above; every key
lies in `(cp, cp + L]`; when no member has a P-set entry the result is empty,
and it is returned once `2f+1` members exist, `cp + L + 1 < 2^64` and the fuel
exceeds `L`. -/
theorem assign_key_range (fuel f L : Nat) (vset : List ViewChange) (cp : Nat)
    (hcp : cp + 1 < U64) :
    (∀ X, assignSequenceNumbers fuel f L vset cp = some (some X) →
      ∃ maxN,
        ((maxN = cp ∧ ∀ k, cp < k → k ≤ (cp + L) % U64 → findRuleA f vset k = none) ∨
          (cp < maxN ∧ maxN ≤ (cp + L) % U64 ∧ (findRuleA f vset maxN).isSome = true ∧
            ∀ k, maxN < k → k ≤ (cp + L) % U64 → findRuleA f vset k = none)) ∧
        (∀ k, k ∈ mapKeys X ↔ cp < k ∧ k ≤ maxN) ∧
        (∀ k, cp < k → k ≤ maxN → mapGet X k = slot f vset k) ∧
        (∀ k, k ∈ mapKeys X → cp < k ∧ k ≤ (cp + L) % U64) ∧
        ((∀ m ∈ vset, m.Pset = []) → X = [])) ∧
    ((∀ m ∈ vset, m.Pset = []) → 2 * f + 1 ≤ vset.length → cp + L + 1 < U64 → L < fuel →
      assignSequenceNumbers fuel f L vset cp = some (some [])) := by
  have part1 : ∀ X, assignSequenceNumbers fuel f L vset cp = some (some X) →
      ∃ maxN,
        ((maxN = cp ∧ ∀ k, cp < k → k ≤ (cp + L) % U64 → findRuleA f vset k = none) ∨
          (cp < maxN ∧ maxN ≤ (cp + L) % U64 ∧ (findRuleA f vset maxN).isSome = true ∧
            ∀ k, maxN < k → k ≤ (cp + L) % U64 → findRuleA f vset k = none)) ∧
        (∀ k, k ∈ mapKeys X ↔ cp < k ∧ k ≤ maxN) ∧
        (∀ k, cp < k → k ≤ maxN → mapGet X k = slot f vset k) ∧
        (∀ k, k ∈ mapKeys X → cp < k ∧ k ≤ (cp + L) % U64) ∧
        ((∀ m ∈ vset, m.Pset = []) → X = []) := by
    intro X hret
    obtain ⟨maxN, hmax, hget, hsl⟩ := assign_keys fuel f L vset cp X hcp hret
    have hkeys : ∀ k, k ∈ mapKeys X ↔ cp < k ∧ k ≤ maxN := by
      intro k
      rw [mem_mapKeys_iff, hget]
      by_cases hc : cp < k ∧ k ≤ maxN
      · simp only [hc, and_self, if_true]
        exact ⟨fun _ => trivial, fun _ => hsl k hc.1 hc.2⟩
      · simp [hc]
    refine ⟨maxN, hmax, hkeys, ?_, ?_, ?_⟩
    · intro k hk1 hk2
      rw [hget]
      simp [hk1, hk2]
    · intro k hk
      have hk2 := (hkeys k).mp hk
      rcases hmax with ⟨h1, _⟩ | ⟨_, h2, _⟩
      · omega
      · exact ⟨hk2.1, by omega⟩
    · intro hp
      apply eq_nil_of_mapGet_none
      intro k
      rcases hmax with ⟨h1, _⟩ | ⟨_, _, h3, _⟩
      · rw [hget]
        have hc : ¬ (cp < k ∧ k ≤ maxN) := by omega
        simp [hc]
      · rw [findRuleA_no_pset f vset maxN hp] at h3
        cases h3
  refine ⟨part1, ?_⟩
  intro hp hlen hL hfuel
  have hbm : (cp + L) % U64 = cp + L := Nat.mod_eq_of_lt (by omega)
  have hs : (cp + 1) % U64 = cp + 1 := Nat.mod_eq_of_lt hcp
  have hb2 : (cp + L) % U64 + 1 < U64 := by omega
  have htot := assignLoop_total f vset ((cp + L) % U64) hb2 fuel (cp + 1) [] cp (by omega)
  cases hl : assignLoop f vset ((cp + L) % U64) fuel (cp + 1) [] cp with
  | none => exact absurd hl htot
  | some res =>
    cases res with
    | none =>
      obtain ⟨k, _, _, hk⟩ := assignLoop_nil f vset _ hb2 fuel _ _ _ hl
      have hq : 2 * f + 1 ≤ nullQuorum vset k := by
        rw [nullQuorum_no_pset vset k hp]; exact hlen
      simp [slot, findRuleA_no_pset f vset k hp, hq] at hk
    | some p =>
      have hret : assignSequenceNumbers fuel f L vset cp = some (some (pruneNulls p.1 p.2)) := by
        unfold assignSequenceNumbers
        rw [hs, hl]
      obtain ⟨_, _, _, _, _, hnil⟩ := part1 _ hret
      rw [hret, hnil hp]

/-- C25 at three view-changes without P-set entry, `cp = 0`, `L = 4`: the
result is the empty assignment. -/
theorem assign_key_range_witness :
    0 + 1 < U64 ∧ assignSequenceNumbers 5 1 4 plainVset 0 = some (some []) :=
  ⟨by decide,
   (assign_key_range 5 1 4 plainVset 0 (by decide)).2 (by decide) (by decide) (by decide)
     (by decide)⟩

/-! ## The order of the view-changes -/

theorem all_perm {α : Type} (p : α → Bool) (l l2 : List α) (h : l2.Perm l) :
    l2.all p = l.all p := by
  rw [Bool.eq_iff_iff, List.all_eq_true, List.all_eq_true]
  exact ⟨fun h1 x hx => h1 x (h.mem_iff.mpr hx), fun h1 x hx => h1 x (h.mem_iff.mp hx)⟩

theorem a1Counts_reorder (n : Nat) (em : ViewChange_PQ) (m m2 : ViewChange)
    (hH : m2.H = m.H) (hP : m2.Pset.Perm m.Pset) : a1Counts n em m2 = a1Counts n em m := by
  unfold a1Counts
  rw [hH, all_perm _ _ _ hP]

theorem nullCounts_reorder (n : Nat) (m m2 : ViewChange) (hP : m2.Pset.Perm m.Pset) :
    nullCounts n m2 = nullCounts n m := by
  unfold nullCounts
  exact all_perm _ _ _ hP

theorem forall2_countP {α : Type} (R : α → α → Prop) (p : α → Bool) (l l2 : List α)
    (h : List.Forall₂ R l l2) (hp : ∀ a b, R a b → p b = p a) :
    l2.countP p = l.countP p := by
  induction h with
  | nil => rfl
  | cons hab _ ih => rw [List.countP_cons, List.countP_cons, ih, hp _ _ hab]

theorem forall2_sum_map {α : Type} (R : α → α → Prop) (g : α → Nat) (l l2 : List α)
    (h : List.Forall₂ R l l2) (hg : ∀ a b, R a b → g b = g a) :
    (l2.map g).sum = (l.map g).sum := by
  induction h with
  | nil => rfl
  | cons hab _ ih => rw [List.map_cons, List.map_cons, List.sum_cons, List.sum_cons, ih, hg _ _ hab]

theorem forall2_psetEntries (l l2 : List ViewChange)
    (h : List.Forall₂ (fun m m2 : ViewChange =>
      m2.H = m.H ∧ m2.Pset.Perm m.Pset ∧ m2.Qset.Perm m.Qset) l l2) (em : ViewChange_PQ) :
    em ∈ psetEntries l2 ↔ em ∈ psetEntries l := by
  induction h with
  | nil => rfl
  | cons hab _ ih =>
    unfold psetEntries at ih ⊢
    rw [List.flatMap_cons, List.flatMap_cons, List.mem_append, List.mem_append, ih,
      hab.2.1.mem_iff]

theorem perm_psetEntries (l l2 : List ViewChange) (h : l2.Perm l) (em : ViewChange_PQ) :
    em ∈ psetEntries l2 ↔ em ∈ psetEntries l := by
  unfold psetEntries
  rw [List.mem_flatMap, List.mem_flatMap]
  constructor
  · rintro ⟨m, hm, he⟩
    exact ⟨m, h.mem_iff.mp hm, he⟩
  · rintro ⟨m, hm, he⟩
    exact ⟨m, h.mem_iff.mpr hm, he⟩

theorem reorder_facts (f : Nat) (vset mid vset2 : List ViewChange) (hperm : vset2.Perm mid)
    (hin : List.Forall₂ (fun m m2 : ViewChange =>
      m2.H = m.H ∧ m2.Pset.Perm m.Pset ∧ m2.Qset.Perm m.Qset) vset mid) :
    (∀ n em, ruleA f vset2 n em = ruleA f vset n em) ∧
    (∀ n, nullQuorum vset2 n = nullQuorum vset n) ∧
    (∀ em, em ∈ psetEntries vset2 ↔ em ∈ psetEntries vset) := by
  have h1 : ∀ n em, a1Quorum vset2 n em = a1Quorum vset n em := by
    intro n em
    unfold a1Quorum
    rw [hperm.countP_eq]
    exact forall2_countP _ _ _ _ hin
      (fun a b hab => a1Counts_reorder n em a b hab.1 hab.2.1)
  have h2 : ∀ n em, a2Quorum vset2 n em = a2Quorum vset n em := by
    intro n em
    unfold a2Quorum
    rw [(hperm.map _).sum_eq]
    exact forall2_sum_map _ _ _ _ hin (fun a b hab => hab.2.2.countP_eq _)
  refine ⟨?_, ?_, ?_⟩
  · intro n em
    unfold ruleA
    rw [h1, h2]
  · intro n
    unfold nullQuorum
    rw [hperm.countP_eq]
    exact forall2_countP _ _ _ _ hin (fun a b hab => nullCounts_reorder n a b hab.2.1)
  · intro em
    rw [perm_psetEntries mid vset2 hperm, forall2_psetEntries vset mid hin]

theorem findRuleA_isSome_iff (f : Nat) (vset : List ViewChange) (n : Nat) :
    (findRuleA f vset n).isSome = true ↔ ∃ em ∈ psetEntries vset, ruleA f vset n em = true := by
  unfold findRuleA
  rw [List.find?_isSome]

theorem findRuleA_some_facts (f : Nat) (vset : List ViewChange) (n : Nat) (em : ViewChange_PQ)
    (h : findRuleA f vset n = some em) : em ∈ psetEntries vset ∧ ruleA f vset n em = true := by
  unfold findRuleA at h
  exact ⟨List.mem_of_find?_eq_some h, List.find?_some h⟩

theorem assignLoop_kind (f : Nat) (v v2 : List ViewChange) (bound : Nat)
    (hA : ∀ n, (findRuleA f v2 n).isSome = (findRuleA f v n).isSome)
    (hN : ∀ n, nullQuorum v2 n = nullQuorum v n) (fuel : Nat) :
    ∀ (n : Nat) (ml ml2 : XSet) (mx mx2 : Nat),
      (assignLoop f v2 bound fuel n ml2 mx2).map (Option.map (fun _ => ()))
        = (assignLoop f v bound fuel n ml mx).map (Option.map (fun _ => ())) := by
  induction fuel with
  | zero => intro n ml ml2 mx mx2; rfl
  | succ fuel ih =>
    intro n ml ml2 mx mx2
    unfold assignLoop
    by_cases hle : n ≤ bound
    · simp only [hle, if_true]
      have ha := hA n
      cases h1 : findRuleA f v n with
      | some em =>
        cases h2 : findRuleA f v2 n with
        | some em2 => exact ih _ _ _ _ _
        | none => rw [h1, h2] at ha; cases ha
      | none =>
        cases h2 : findRuleA f v2 n with
        | some em2 => rw [h1, h2] at ha; cases ha
        | none =>
          simp only [hN n]
          by_cases hq : 2 * f + 1 ≤ nullQuorum v n
          · simp only [hq, if_true]
            exact ih _ _ _ _ _
          · simp only [hq, if_false]
    · simp only [hle, if_false]
      rfl

theorem assignLoop_same (f : Nat) (v v2 : List ViewChange) (bound : Nat)
    (hD : ∀ n, (findRuleA f v2 n).map (fun em => em.Digest)
      = (findRuleA f v n).map (fun em => em.Digest))
    (hN : ∀ n, nullQuorum v2 n = nullQuorum v n) (fuel : Nat) :
    ∀ (n : Nat) (ml : XSet) (mx : Nat),
      assignLoop f v2 bound fuel n ml mx = assignLoop f v bound fuel n ml mx := by
  induction fuel with
  | zero => intro n ml mx; rfl
  | succ fuel ih =>
    intro n ml mx
    unfold assignLoop
    by_cases hle : n ≤ bound
    · simp only [hle, if_true]
      have hd := hD n
      cases h1 : findRuleA f v n with
      | some em =>
        cases h2 : findRuleA f v2 n with
        | some em2 =>
          rw [h1, h2] at hd
          simp only [Option.map_some', Option.some.injEq] at hd
          simp only [hd]
          exact ih _ _ _
        | none => rw [h1, h2] at hd; cases hd
      | none =>
        cases h2 : findRuleA f v2 n with
        | some em2 => rw [h1, h2] at hd; cases hd
        | none =>
          simp only [hN n]
          by_cases hq : 2 * f + 1 ≤ nullQuorum v n
          · simp only [hq, if_true]
            exact ih _ _ _
          · simp only [hq, if_false]
    · simp only [hle, if_false]

/-- C28, as written, fails: `splitVsetSwapped` is a permutation of `splitVset`,
but with `f = 1`, `L = 1`, `cp = 0` the first yields `"b"` and the second `"a"`
at sequence number `1`. -/
theorem assign_order_dependent :
    splitVsetSwapped.Perm splitVset ∧
    assignSequenceNumbers 5 1 1 splitVset 0 = some (some [(1, "a")]) ∧
    assignSequenceNumbers 5 1 1 splitVsetSwapped 0 = some (some [(1, "b")]) := by
  decide

/-- C28, amended: let `vset2` be `vset` with its members reordered and the
entries inside each P-set and Q-set reordered.  Then for every fuel the two
calls end the same way (both still running, both nil, or both a map), and they
return the same result when, at every `n`, all P-set entries that pass both
tests of Rule A carry the same digest. -/
theorem assign_reordered (fuel f L cp : Nat) (vset mid vset2 : List ViewChange)
    (hperm : vset2.Perm mid)
    (hin : List.Forall₂ (fun m m2 : ViewChange =>
      m2.H = m.H ∧ m2.Pset.Perm m.Pset ∧ m2.Qset.Perm m.Qset) vset mid) :
    (assignSequenceNumbers fuel f L vset2 cp = none ↔
      assignSequenceNumbers fuel f L vset cp = none) ∧
    (assignSequenceNumbers fuel f L vset2 cp = some none ↔
      assignSequenceNumbers fuel f L vset cp = some none) ∧
    ((∃ X2, assignSequenceNumbers fuel f L vset2 cp = some (some X2)) ↔
      ∃ X, assignSequenceNumbers fuel f L vset cp = some (some X)) ∧
    ((∀ n em em2, em ∈ psetEntries vset → em2 ∈ psetEntries vset →
        ruleA f vset n em = true → ruleA f vset n em2 = true → em.Digest = em2.Digest) →
      assignSequenceNumbers fuel f L vset2 cp = assignSequenceNumbers fuel f L vset cp) := by
  obtain ⟨hR, hN, hM⟩ := reorder_facts f vset mid vset2 hperm hin
  have hA : ∀ n, (findRuleA f vset2 n).isSome = (findRuleA f vset n).isSome := by
    intro n
    rw [Bool.eq_iff_iff, findRuleA_isSome_iff, findRuleA_isSome_iff]
    constructor
    · rintro ⟨em, h1, h2⟩
      exact ⟨em, (hM em).mp h1, by rw [← hR]; exact h2⟩
    · rintro ⟨em, h1, h2⟩
      exact ⟨em, (hM em).mpr h1, by rw [hR]; exact h2⟩
  have hk := assignLoop_kind f vset vset2 ((cp + L) % U64) hA hN fuel ((cp + 1) % U64) [] [] cp cp
  refine ⟨?_, ?_, ?_, ?_⟩
  · unfold assignSequenceNumbers
    cases h1 : assignLoop f vset ((cp + L) % U64) fuel ((cp + 1) % U64) [] cp with
    | none =>
      cases h2 : assignLoop f vset2 ((cp + L) % U64) fuel ((cp + 1) % U64) [] cp with
      | none => simp
      | some r2 => rw [h1, h2] at hk; cases hk
    | some r =>
      cases h2 : assignLoop f vset2 ((cp + L) % U64) fuel ((cp + 1) % U64) [] cp with
      | none => rw [h1, h2] at hk; cases hk
      | some r2 => cases r <;> cases r2 <;> simp
  · unfold assignSequenceNumbers
    cases h1 : assignLoop f vset ((cp + L) % U64) fuel ((cp + 1) % U64) [] cp with
    | none =>
      cases h2 : assignLoop f vset2 ((cp + L) % U64) fuel ((cp + 1) % U64) [] cp with
      | none => simp
      | some r2 => rw [h1, h2] at hk; cases hk
    | some r =>
      cases h2 : assignLoop f vset2 ((cp + L) % U64) fuel ((cp + 1) % U64) [] cp with
      | none => rw [h1, h2] at hk; cases hk
      | some r2 =>
        rw [h1, h2] at hk
        cases r <;> cases r2 <;> simp at hk ⊢
  · unfold assignSequenceNumbers
    cases h1 : assignLoop f vset ((cp + L) % U64) fuel ((cp + 1) % U64) [] cp with
    | none =>
      cases h2 : assignLoop f vset2 ((cp + L) % U64) fuel ((cp + 1) % U64) [] cp with
      | none => simp
      | some r2 => rw [h1, h2] at hk; cases hk
    | some r =>
      cases h2 : assignLoop f vset2 ((cp + L) % U64) fuel ((cp + 1) % U64) [] cp with
      | none => rw [h1, h2] at hk; cases hk
      | some r2 =>
        rw [h1, h2] at hk
        cases r <;> cases r2 <;> simp at hk ⊢
  · intro hU
    have hD : ∀ n, (findRuleA f vset2 n).map (fun em => em.Digest)
        = (findRuleA f vset n).map (fun em => em.Digest) := by
      intro n
      have ha := hA n
      cases h1 : findRuleA f vset n with
      | none =>
        cases h2 : findRuleA f vset2 n with
        | none => rfl
        | some em2 => rw [h1, h2] at ha; cases ha
      | some em =>
        cases h2 : findRuleA f vset2 n with
        | none => rw [h1, h2] at ha; cases ha
        | some em2 =>
          obtain ⟨a1, a2⟩ := findRuleA_some_facts f vset n em h1
          obtain ⟨b1, b2⟩ := findRuleA_some_facts f vset2 n em2 h2
          rw [hR] at b2
          simp only [Option.map_some', Option.some.injEq]
          exact hU n em2 em ((hM em2).mp b1) a1 b2 a2
    unfold assignSequenceNumbers
    rw [assignLoop_same f vset vset2 ((cp + L) % U64) hD hN fuel]

/-- C28 at `preparedVset` and its reverse, where every P-set entry carries the
digest `"a"`. -/
theorem assign_reordered_witness :
    preparedVset.reverse.Perm preparedVset ∧
    assignSequenceNumbers 5 1 4 preparedVset.reverse 0
      = assignSequenceNumbers 5 1 4 preparedVset 0 :=
  ⟨List.reverse_perm _,
   (assign_reordered 5 1 4 0 preparedVset preparedVset preparedVset.reverse
     (List.reverse_perm _)
     (List.Forall₂.cons ⟨rfl, List.Perm.refl _, List.Perm.refl _⟩
       (List.Forall₂.cons ⟨rfl, List.Perm.refl _, List.Perm.refl _⟩
         (List.Forall₂.cons ⟨rfl, List.Perm.refl _, List.Perm.refl _⟩
           List.Forall₂.nil)))).2.2.2
     (fun _ em em2 h1 h2 _ _ =>
       ((by decide : ∀ e ∈ psetEntries preparedVset, e.Digest = "a") em h1).trans
         ((by decide : ∀ e ∈ psetEntries preparedVset, e.Digest = "a") em2 h2).symm)⟩

/-! ## The state reached by sendViewChange -/

/-- C12, as written, fails in the last view of a `uint64`: started in view
`2^64 - 1`, `sendViewChange` reaches view `0`, not `v + 1`, the message carries
view `0`, and the certificate of view `2^64 - 1`, which is below `v + 1`, stays
in `certStore`. -/
theorem sendViewChange_state_wraps :
    (sendViewChange countingEnv lastViewReplica).1.view = 0 ∧
    (sendViewChange countingEnv lastViewReplica).1.view ≠ lastViewReplica.view + 1 ∧
    (∃ e ∈ (sendViewChange countingEnv lastViewReplica).1.certStore,
      e.1.1 < lastViewReplica.view + 1) ∧
    (sendViewChange countingEnv lastViewReplica).1.certStore = lastViewReplica.certStore := by
  decide

/-- C12, amended with `v + 1 < 2^64`: `sendViewChange` started with view `v`
reaches, at the call of `innerBroadcast`, a state with view `v + 1`,
`activeView = false`, `certStore` and `viewChangeStore` reduced to exactly
their former entries whose view is at least `v + 1`, `h` and `seqNo` unchanged,
and the message handed over has `View = v + 1`, `H = h` and `ReplicaId` the
local id. -/
theorem sendViewChange_state (env : Env) (s : PbftCore) (pOrder qOrder : CertStore)
    (hv : s.view + 1 < U64) :
    (sendViewChangeIn env s pOrder qOrder).1.view = s.view + 1 ∧
    (sendViewChangeIn env s pOrder qOrder).1.activeView = false ∧
    (∀ e, e ∈ (sendViewChangeIn env s pOrder qOrder).1.certStore ↔
      e ∈ s.certStore ∧ s.view + 1 ≤ e.1.1) ∧
    (∀ k, mapGet (sendViewChangeIn env s pOrder qOrder).1.certStore k =
      if k.1 < s.view + 1 then none else mapGet s.certStore k) ∧
    (∀ e, e ∈ (sendViewChangeIn env s pOrder qOrder).1.viewChangeStore ↔
      e ∈ s.viewChangeStore ∧ s.view + 1 ≤ e.1.1) ∧
    (∀ k, mapGet (sendViewChangeIn env s pOrder qOrder).1.viewChangeStore k =
      if k.1 < s.view + 1 then none else mapGet s.viewChangeStore k) ∧
    (sendViewChangeIn env s pOrder qOrder).1.h = s.h ∧
    (sendViewChangeIn env s pOrder qOrder).1.seqNo = s.seqNo ∧
    ∃ vc, (sendViewChangeIn env s pOrder qOrder).2
        = [Action.stopTimer, Action.innerBroadcast (Message.viewChange vc) true] ∧
      vc.View = s.view + 1 ∧ vc.H = s.h ∧ vc.ReplicaId = s.id := by
  obtain ⟨_, h2, h3, h4, h5, h6, h7, h8, h9, vc, h10, h11, h12, h13⟩ :=
    sendViewChangeIn_facts env s pOrder qOrder
  have hview := h2 hv
  rw [hview] at h4 h5 h6 h7 h11
  exact ⟨hview, h3, h4, h5, h6, h7, h8, h9, vc, h10, h11, h12, h13⟩

/-- C12 at `mixedPrimary`, in view `1` with view-changes stored for views `1`
and `2`: the view becomes `2` and only the view-change for view `2` is kept. -/
theorem sendViewChange_state_witness :
    mixedPrimary.view + 1 < U64 ∧
    (sendViewChangeIn idleEnv mixedPrimary [] []).1.view = mixedPrimary.view + 1 ∧
    (∀ k, mapGet (sendViewChangeIn idleEnv mixedPrimary [] []).1.viewChangeStore k =
      if k.1 < mixedPrimary.view + 1 then none else mapGet mixedPrimary.viewChangeStore k) ∧
    (sendViewChange idleEnv mixedPrimary).1.viewChangeStore = [((2, 3), plainVc 3)] := by
  obtain ⟨h1, _, _, _, _, h6, _⟩ :=
    sendViewChange_state idleEnv mixedPrimary [] [] (by decide)
  exact ⟨by decide, h1, h6, by decide⟩

end Obcpbft
